import Mathlib

/-!
Shallow embedding of the map-generator's core data model and operations
(grid of typed tiles with per-cell directional edges, maze carving, room
growth, connectivity analysis and repair, secondary content placement),
together with theorems settling the specification claims about them.

Conventions of the embedding:
* JavaScript 2D arrays `tiles[x][y]` become a total function `Int → Int →
  Option TileType` plus explicit `width`/`height`; `none` stands for a
  `null` cell (and for the `undefined` read of an out-of-bounds index,
  which the source never distinguishes from `null` in comparisons).
* All stochastic choices are threaded through an abstract stream
  `rand : Nat → Nat`; theorems quantify over every stream.
* Euclidean-distance comparisons `sqrt d ≤ r` and `sqrt d < sqrt d'` are
  embedded by the equivalent integer forms `0 ≤ r ∧ d ≤ r^2` and `d < d'`.
* Loops without a structural measure take an explicit fuel argument.
-/

namespace MapGen

inductive TileType where
  | corridor
  | secretCorridor
  | room
  | roomOrigin
  | wall
  | trapPitfall
  | spikes
  | lava
  | ladderDown
deriving DecidableEq, Repr

inductive EdgeType where
  | roomWall
  | door
  | hiddenDoor
  | reinforcedDoor
  | window
  | embrasure
deriving DecidableEq, Repr

inductive Direction where
  | top
  | right
  | bottom
  | left
deriving DecidableEq, Repr

structure Point where
  x : Int
  y : Int
deriving DecidableEq, Repr

structure Edge where
  top : Option EdgeType
  right : Option EdgeType
  bottom : Option EdgeType
  left : Option EdgeType
deriving DecidableEq, Repr

def Edge.empty : Edge := ⟨none, none, none, none⟩

def Edge.dir (e : Edge) : Direction → Option EdgeType
  | .top => e.top
  | .right => e.right
  | .bottom => e.bottom
  | .left => e.left

def Edge.setDir (e : Edge) (d : Direction) (v : Option EdgeType) : Edge :=
  match d with
  | .top => { e with top := v }
  | .right => { e with right := v }
  | .bottom => { e with bottom := v }
  | .left => { e with left := v }

structure GameMap where
  width : Nat
  height : Nat
  tiles : Int → Int → Option TileType
  edges : Int → Int → Edge

/-- Bounds check `isWithinBounds` of the source. -/
def inBounds (m : GameMap) (x y : Int) : Bool :=
  decide (0 ≤ x) && decide (x < (m.width : Int)) &&
  decide (0 ≤ y) && decide (y < (m.height : Int))

/-- Reading `map.tiles[x][y]`: `none` for a `null` cell or an
out-of-bounds (`undefined`) read. -/
def tileD (m : GameMap) (x y : Int) : Option TileType :=
  if inBounds m x y then m.tiles x y else none

/-- `types.includes(tileValue)`; a `null`/`undefined` value is in no list. -/
def tileIn (o : Option TileType) (ts : List TileType) : Bool :=
  match o with
  | some t => ts.contains t
  | none => false

/-- Assignment `map.tiles[x][y] = t`. -/
def setTile (m : GameMap) (x y : Int) (t : TileType) : GameMap :=
  { m with tiles := fun a b => if a = x ∧ b = y then some t else m.tiles a b }

/-- Assignment `map.edges[x][y][direction] = v`. -/
def setEdge (m : GameMap) (x y : Int) (d : Direction) (v : Option EdgeType) : GameMap :=
  { m with edges := fun a b => if a = x ∧ b = y then (m.edges a b).setDir d v else m.edges a b }

/-- `createGameMap` fills every cell with the default tile and every edge
map with the empty record. -/
def createGameMap (w h : Nat) (t : Option TileType) : GameMap :=
  ⟨w, h, fun _ _ => t, fun _ _ => Edge.empty⟩

/-- `getNeighbors`: the in-bounds 4-neighbors, in the source's push order
south (0,1), east (1,0), north (0,-1), west (-1,0). -/
def getNeighbors (x y : Int) (m : GameMap) : List Point :=
  (if inBounds m x (y + 1) then ([⟨x, y + 1⟩] : List Point) else []) ++
  (if inBounds m (x + 1) y then ([⟨x + 1, y⟩] : List Point) else []) ++
  (if inBounds m x (y - 1) then ([⟨x, y - 1⟩] : List Point) else []) ++
  (if inBounds m (x - 1) y then ([⟨x - 1, y⟩] : List Point) else [])

/-- `getUnvisitedNeighbors` (common version, with a configurable list of
"unvisited" tile types): checks at distance `step` in each direction. -/
def getUnvisitedNeighbors (x y : Int) (m : GameMap) (step : Int) (types : List TileType) :
    List Point :=
  (if decide (y > step - 1) && tileIn (tileD m x (y - step)) types then
      ([⟨x, y - step⟩] : List Point) else []) ++
  (if decide (x < (m.width : Int) - step) && tileIn (tileD m (x + step) y) types then
      ([⟨x + step, y⟩] : List Point) else []) ++
  (if decide (y < (m.height : Int) - step) && tileIn (tileD m x (y + step)) types then
      ([⟨x, y + step⟩] : List Point) else []) ++
  (if decide (x > step - 1) && tileIn (tileD m (x - step) y) types then
      ([⟨x - step, y⟩] : List Point) else [])

/-- Squared Euclidean distance; `getDistance p q = sqrt (distSq p q)`. -/
def distSq (p q : Point) : Int :=
  (q.x - p.x) ^ 2 + (q.y - p.y) ^ 2

/-- The comparison `getDistance p q <= r` of the source, in squared form
(equivalent to `sqrt (distSq p q) ≤ r` over the reals). -/
def distLe (p q : Point) (r : Int) : Bool :=
  decide (0 ≤ r) && decide (distSq p q ≤ r ^ 2)

/-- `allSurroundingTilesOfTypes`: every in-bounds 4-neighbor holds one of
the given types. -/
def allSurroundingTilesOfTypes (m : GameMap) (x y : Int) (ts : List TileType) : Bool :=
  (getNeighbors x y m).all fun nb => tileIn (tileD m nb.x nb.y) ts

/-- `tileHasEdgeType`: some slot of `edges[x][y]` holds the given type. -/
def tileHasEdgeType (m : GameMap) (x y : Int) (et : EdgeType) : Bool :=
  (m.edges x y).top == some et || (m.edges x y).right == some et ||
  (m.edges x y).bottom == some et || (m.edges x y).left == some et

/-- Modelled from the spec: `isTileAdjacentToType` (its defining file is
absent from the sources; only callers survive) — whether any in-bounds
4-neighbor of the point holds the given tile type. -/
def isTileAdjacentToType (p : Point) (m : GameMap) (t : TileType) : Bool :=
  (getNeighbors p.x p.y m).any fun nb => m.tiles nb.x nb.y == some t

/-- Cell list of the rectangle scan of `createRectangleInMap` (outer loop
over x, inner loop over y). -/
def rectCells (x y : Int) (w h : Nat) : List (Int × Int) :=
  (List.range w).flatMap fun (i : Nat) =>
    (List.range h).map fun (j : Nat) => (x + (i : Int), y + (j : Int))

/-- The per-cell body of the rectangle-filling loop. -/
def rectStep (t : TileType) (rep : Option TileType) (acc : GameMap) (c : Int × Int) :
    GameMap :=
  if inBounds acc c.1 c.2 then
    if rep = none ∨ acc.tiles c.1 c.2 = rep then setTile acc c.1 c.2 t else acc
  else acc

/-- `createRectangleInMap`: fill the in-bounds part of the rectangle with
`t`; when `replaceType` is given, only overwrite cells currently of that
type. -/
def createRectangleInMap (m : GameMap) (x y : Int) (w h : Nat) (t : TileType)
    (replaceType : Option TileType) : GameMap :=
  (rectCells x y w h).foldl (rectStep t replaceType) m

/-- `createCorridorRectangle`: a `corridorStep`-sized square centered via
the `corridorStep / 2` offset. -/
def createCorridorRectangle (m : GameMap) (x y : Int) (corridorStep : Nat)
    (t : TileType) (replaceType : Option TileType) : GameMap :=
  createRectangleInMap m (x - (corridorStep / 2 : Nat)) (y - (corridorStep / 2 : Nat))
    corridorStep corridorStep t replaceType

section BasicLemmas

@[simp] theorem setTile_width (m : GameMap) (x y : Int) (t : TileType) :
    (setTile m x y t).width = m.width := rfl

@[simp] theorem setTile_height (m : GameMap) (x y : Int) (t : TileType) :
    (setTile m x y t).height = m.height := rfl

@[simp] theorem setTile_edges (m : GameMap) (x y : Int) (t : TileType) :
    (setTile m x y t).edges = m.edges := rfl

@[simp] theorem setEdge_width (m : GameMap) (x y : Int) (d : Direction) (v : Option EdgeType) :
    (setEdge m x y d v).width = m.width := rfl

@[simp] theorem setEdge_height (m : GameMap) (x y : Int) (d : Direction) (v : Option EdgeType) :
    (setEdge m x y d v).height = m.height := rfl

@[simp] theorem setEdge_tiles (m : GameMap) (x y : Int) (d : Direction) (v : Option EdgeType) :
    (setEdge m x y d v).tiles = m.tiles := rfl

theorem setTile_tiles_self (m : GameMap) (x y : Int) (t : TileType) :
    (setTile m x y t).tiles x y = some t := by
  simp [setTile]

theorem setTile_tiles_other (m : GameMap) (x y a b : Int) (t : TileType)
    (h : ¬(a = x ∧ b = y)) : (setTile m x y t).tiles a b = m.tiles a b := by
  simp [setTile, h]

theorem inBounds_setTile (m : GameMap) (x y a b : Int) (t : TileType) :
    inBounds (setTile m x y t) a b = inBounds m a b := rfl

theorem inBounds_setEdge (m : GameMap) (x y a b : Int) (d : Direction) (v : Option EdgeType) :
    inBounds (setEdge m x y d v) a b = inBounds m a b := rfl

theorem inBounds_iff (m : GameMap) (x y : Int) :
    inBounds m x y = true ↔ 0 ≤ x ∧ x < (m.width : Int) ∧ 0 ≤ y ∧ y < (m.height : Int) := by
  simp [inBounds, and_assoc]

end BasicLemmas

section FoldPreserve

theorem foldl_preserves {β γ : Type} (g : GameMap → γ) (f : GameMap → β → GameMap)
    (hf : ∀ acc b, g (f acc b) = g acc) (l : List β) (m : GameMap) :
    g (l.foldl f m) = g m := by
  induction l generalizing m with
  | nil => rfl
  | cons b bs ih => simp only [List.foldl_cons]; rw [ih, hf]

end FoldPreserve

/-! ## Room growth (`growRoom`, canonical version of `map/rooms.ts`) -/

/-- The randomized growth loop of `growRoom`; the fuel starts at the
source's `iterationsMax = 10000` and counts remaining iterations.  Each
step samples a random point of the frontier (`sample` then reference
`_.remove`), converts it to a room tile when it is overridable and within
radius, and pushes its unvisited wall/corridor neighbors. -/
def growLoop (seed : Point) (maxSize maxRadius : Int) (rand : Nat → Nat) :
    Nat → GameMap → List Point → List Point → Nat → GameMap × List Point
  | 0, m, _, roomTiles, _ => (m, roomTiles)
  | fuel + 1, m, points, roomTiles, size =>
    if points.length = 0 ∨ ¬((size : Int) < maxSize) then (m, roomTiles)
    else
      let idx := rand fuel % points.length
      let current := points.getD idx ⟨0, 0⟩
      let rest := points.eraseIdx idx
      if tileIn (tileD m current.x current.y) [.wall, .corridor] &&
          distLe current seed maxRadius then
        let m' := setTile m current.x current.y .room
        let nbs := getUnvisitedNeighbors current.x current.y m' 1 [.wall, .corridor]
        growLoop seed maxSize maxRadius rand fuel m' (rest ++ nbs)
          (roomTiles ++ [current]) (size + 1)
      else
        growLoop seed maxSize maxRadius rand fuel m rest roomTiles size

/-- The pinhole-closing post-process of `growRoom`: a corridor neighbor
surrounded by room/wall tiles, or a wall neighbor surrounded by room
tiles, is absorbed into the room. -/
def pinholePass (roomTiles : List Point) (m : GameMap) : GameMap :=
  roomTiles.foldl
    (fun acc tile =>
      (getNeighbors tile.x tile.y acc).foldl
        (fun acc2 nb =>
          if (acc2.tiles nb.x nb.y == some TileType.corridor &&
                allSurroundingTilesOfTypes acc2 nb.x nb.y [.room, .wall]) ||
              (acc2.tiles nb.x nb.y == some TileType.wall &&
                allSurroundingTilesOfTypes acc2 nb.x nb.y [.room])
          then setTile acc2 nb.x nb.y .room
          else acc2)
        acc)
    m

/-- The room-wall edge pass of `growRoom`: every room tile bordering a
non-room cell (in an existing column) gets a `ROOM_WALL` edge on that
side.  The neighbor order is the source's literal list right, left,
bottom, top. -/
def roomWallPass (roomTiles : List Point) (m : GameMap) : GameMap :=
  roomTiles.foldl
    (fun acc t =>
      ([⟨t.x + 1, t.y⟩, ⟨t.x - 1, t.y⟩, ⟨t.x, t.y + 1⟩, ⟨t.x, t.y - 1⟩] : List Point).foldl
        (fun acc2 nb =>
          if decide (0 ≤ nb.x) && decide (nb.x < (acc2.width : Int)) &&
              !(tileD acc2 nb.x nb.y == some TileType.room) &&
              !(tileD acc2 nb.x nb.y == some TileType.roomOrigin)
          then
            if decide (nb.x > t.x) then setEdge acc2 t.x t.y .right (some .roomWall)
            else if decide (nb.x < t.x) then setEdge acc2 t.x t.y .left (some .roomWall)
            else if decide (nb.y > t.y) then setEdge acc2 t.x t.y .bottom (some .roomWall)
            else if decide (nb.y < t.y) then setEdge acc2 t.x t.y .top (some .roomWall)
            else acc2
          else acc2)
        acc)
    m

/-- Horizontal/vertical delta of an `EDGE_CONFIGS` entry. -/
def configDx : Direction → Int
  | .top => 0
  | .bottom => 0
  | .left => -1
  | .right => 1

def configDy : Direction → Int
  | .top => -1
  | .bottom => 1
  | .left => 0
  | .right => 0

/-- Whether the config's scan coordinate is the y axis (top/bottom). -/
def configUsesY (d : Direction) : Bool :=
  d == Direction.top || d == Direction.bottom

/-- The `compare` field of `EDGE_CONFIGS` against the accumulator, with
`none` standing for the `defaultAcc` of `±Infinity`. -/
def configCompare (d : Direction) (newV : Int) (accV : Option Int) : Bool :=
  match accV with
  | none => true
  | some a =>
    match d with
    | .top => decide (newV < a)
    | .left => decide (newV < a)
    | .bottom => decide (newV > a)
    | .right => decide (newV > a)

/-- The `originCompare` field of `EDGE_CONFIGS`. -/
def configOriginCompare (d : Direction) (newV originV : Int) : Bool :=
  match d with
  | .top => decide (newV ≤ originV)
  | .left => decide (newV ≤ originV)
  | .bottom => decide (newV ≥ originV)
  | .right => decide (newV ≥ originV)

/-- `[EdgeType, ...].includes(edgeValue)`. -/
def edgeIn (o : Option EdgeType) (es : List EdgeType) : Bool :=
  match o with
  | some e => es.contains e
  | none => false

/-- `findRoomCadidateEdge`: reduce over the room tiles keeping the
farthest room tile (on the origin's side) that borders a corridor through
a room-wall or embrasure edge and carries no reinforced door yet. -/
def findRoomCadidateEdge (d : Direction) (roomTiles : List Point) (m : GameMap)
    (origin : Point) : Option Point :=
  roomTiles.foldl
    (fun acc p =>
      let currentTile := tileD m p.x p.y
      let newValue := if configUsesY d then p.y else p.x
      let originValue := if configUsesY d then origin.y else origin.x
      let accValue := acc.map fun a => if configUsesY d then a.y else a.x
      if (currentTile == some TileType.room || currentTile == some TileType.roomOrigin) &&
          tileD m (p.x + configDx d) (p.y + configDy d) == some TileType.corridor &&
          edgeIn ((m.edges p.x p.y).dir d) [.embrasure, .roomWall] &&
          configCompare d newValue accValue &&
          configOriginCompare d newValue originValue &&
          !tileHasEdgeType m p.x p.y .reinforcedDoor
      then some p
      else acc)
    none

/-- The directions of `EDGE_CONFIGS`, in source order. -/
def EDGE_CONFIGS : List Direction := [.top, .bottom, .left, .right]

/-- The door pass of `growRoom`: for each config, the door candidate (if
any) gets a reinforced-door edge in the config's direction. -/
def doorPass (roomTiles : List Point) (origin : Point) (m : GameMap) : GameMap :=
  EDGE_CONFIGS.foldl
    (fun acc d =>
      match findRoomCadidateEdge d roomTiles acc origin with
      | some p => setEdge acc p.x p.y d (some .reinforcedDoor)
      | none => acc)
    m

/-- `growRoom` (canonical version), returning the mutated map together
with the list of tiles converted by the growth loop. -/
def growRoomFull (m : GameMap) (x y : Int) (maxSize maxRadius : Int) (rand : Nat → Nat) :
    GameMap × List Point :=
  if maxSize < 1 then (m, [])
  else
    let origin : Point := ⟨x, y⟩
    let lr := growLoop origin maxSize maxRadius rand 10000 m [origin] [] 0
    let m2 := pinholePass lr.2 lr.1
    let m3 := setTile m2 x y .roomOrigin
    let m4 := roomWallPass lr.2 m3
    let m5 := doorPass lr.2 origin m4
    (m5, lr.2)

def growRoom (m : GameMap) (x y : Int) (maxSize maxRadius : Int) (rand : Nat → Nat) :
    GameMap :=
  (growRoomFull m x y maxSize maxRadius rand).1

section GrowRoomStructure

theorem tiles_roomWallPass (roomTiles : List Point) (m : GameMap) :
    (roomWallPass roomTiles m).tiles = m.tiles := by
  unfold roomWallPass
  refine foldl_preserves _ _ (fun acc t => ?_) _ _
  refine foldl_preserves _ _ (fun acc2 nb => ?_) _ _
  split
  · split
    · rfl
    · split
      · rfl
      · split
        · rfl
        · split
          · rfl
          · rfl
  · rfl

theorem tiles_doorPass (roomTiles : List Point) (origin : Point) (m : GameMap) :
    (doorPass roomTiles origin m).tiles = m.tiles := by
  unfold doorPass
  refine foldl_preserves _ _ (fun acc d => ?_) _ _
  split <;> rfl

/-- C8: for every grid, seed point and maxRadius, calling `growRoom` with
`maxSize < 1` is a no-op: the returned grid equals the input grid. -/
theorem growRoom_maxSize_lt_one_noop (m : GameMap) (x y maxSize maxRadius : Int)
    (rand : Nat → Nat) (h : maxSize < 1) :
    growRoom m x y maxSize maxRadius rand = m := by
  simp [growRoom, growRoomFull, h]

theorem growRoom_maxSize_lt_one_noop_witness :
    (0 : Int) < 1 ∧
      growRoom (createGameMap 2 2 (some .wall)) 0 0 0 3 (fun _ => 0) =
        createGameMap 2 2 (some .wall) :=
  ⟨by decide, growRoom_maxSize_lt_one_noop (createGameMap 2 2 (some .wall)) 0 0 0 3
    (fun _ => 0) (by decide)⟩

/-- C10: for every grid and in-bounds seed with `maxSize ≥ 1`, `growRoom`
unconditionally sets the tile at the seed coordinate to room-origin, even
when the growth loop converted no tiles. -/
theorem growRoom_sets_room_origin (m : GameMap) (x y maxSize maxRadius : Int)
    (rand : Nat → Nat) (hsize : 1 ≤ maxSize) (hb : inBounds m x y = true) :
    (growRoom m x y maxSize maxRadius rand).tiles x y = some .roomOrigin := by
  have hlt : ¬maxSize < 1 := by omega
  unfold growRoom growRoomFull
  simp only [hlt, if_false]
  rw [tiles_doorPass, tiles_roomWallPass]
  exact setTile_tiles_self _ x y _

theorem growRoom_sets_room_origin_witness :
    (1 : Int) ≤ 1 ∧ inBounds (createGameMap 1 1 (some .room)) 0 0 = true ∧
      (growRoom (createGameMap 1 1 (some .room)) 0 0 1 5 (fun _ => 0)).tiles 0 0 =
        some .roomOrigin :=
  ⟨by decide, by decide, growRoom_sets_room_origin (createGameMap 1 1 (some .room)) 0 0 1 5
    (fun _ => 0) (by decide) (by decide)⟩

end GrowRoomStructure

/-! ## Random source: Fisher-Yates `shuffle` -/

/-- One Fisher-Yates swap `[arr[i], arr[j]] = [arr[j], arr[i]]`. -/
def listSwap {α : Type} (l : List α) (i j : Nat) : List α :=
  match l[i]?, l[j]? with
  | some vi, some vj => (l.set i vj).set j vi
  | some _, none => l
  | none, some _ => l
  | none, none => l

/-- The Fisher-Yates loop, from index `i` down to `1`; the random draw
`Math.floor(random() * (i + 1))` for index `i` is embedded as
`rand i % (i + 1)`. -/
def fyLoop {α : Type} (rand : Nat → Nat) : Nat → List α → List α
  | 0, a => a
  | i + 1, a => fyLoop rand i (listSwap a (i + 1) (rand (i + 1) % (i + 2)))

/-- `shuffle`: Fisher-Yates over a copy of the list. -/
def shuffle {α : Type} (rand : Nat → Nat) (l : List α) : List α :=
  fyLoop rand (l.length - 1) l

theorem listSwap_perm {α : Type} [DecidableEq α] (l : List α) (i j : Nat) :
    (listSwap l i j).Perm l := by
  unfold listSwap
  split
  case _ vi vj h1 h2 =>
    obtain ⟨hi, hvi⟩ := List.getElem?_eq_some.1 h1
    obtain ⟨hj, hvj⟩ := List.getElem?_eq_some.1 h2
    rw [List.perm_iff_count]
    intro c
    have hj' : j < (l.set i vj).length := by simpa using hj
    rw [List.count_set _ _ _ _ hj', List.count_set _ _ _ _ hi]
    rw [List.getElem_set hj']
    have hcount : l[i] = c → 1 ≤ List.count c l := fun hc => by
      rw [← hc]
      exact List.count_pos_iff.2 (List.getElem_mem hi)
    simp only [beq_iff_eq]
    by_cases hij : i = j
    · subst hij
      rw [if_pos rfl]
      simp only [← hvi, ← hvj]
      by_cases hic : l[i] = c
      · have h1c : 1 ≤ List.count c l := hcount hic
        simp only [if_pos hic]
        omega
      · simp only [if_neg hic]
        omega
    · rw [if_neg hij]
      simp only [← hvi, ← hvj]
      by_cases hic : l[i] = c
      · have h1c : 1 ≤ List.count c l := hcount hic
        by_cases hjc : l[j] = c
        · simp only [if_pos hic, if_pos hjc]
          omega
        · simp only [if_pos hic, if_neg hjc]
          omega
      · by_cases hjc : l[j] = c
        · simp only [if_neg hic, if_pos hjc]
          omega
        · simp only [if_neg hic, if_neg hjc]
          omega
  all_goals exact List.Perm.refl l

theorem fyLoop_perm {α : Type} [DecidableEq α] (rand : Nat → Nat) (n : Nat) (l : List α) :
    (fyLoop rand n l).Perm l := by
  induction n generalizing l with
  | zero => exact List.Perm.refl l
  | succ i ih =>
    exact (ih _).trans (listSwap_perm l (i + 1) (rand (i + 1) % (i + 2)))

theorem shuffle_perm {α : Type} [DecidableEq α] (rand : Nat → Nat) (l : List α) :
    (shuffle rand l).Perm l :=
  fyLoop_perm rand (l.length - 1) l

theorem shuffle_length {α : Type} [DecidableEq α] (rand : Nat → Nat) (l : List α) :
    (shuffle rand l).length = l.length :=
  (shuffle_perm rand l).length_eq

theorem mem_shuffle {α : Type} [DecidableEq α] (rand : Nat → Nat) (l : List α) (a : α)
    (h : a ∈ l) : a ∈ shuffle rand l :=
  ((shuffle_perm rand l).mem_iff).2 h

/-! ## Trap placement (`placeTraps` of `map/traps.ts`, version filtering
secret-corridor-adjacent corridors) -/

/-- The collection loop of `placeTraps`: all corridor tiles not adjacent
to a secret corridor, in row-major (x outer, y inner) scan order. -/
def corridorTrapCandidates (m : GameMap) : List Point :=
  (List.range m.width).flatMap fun i =>
    (List.range m.height).filterMap fun j =>
      let p : Point := ⟨(i : Int), (j : Int)⟩
      if m.tiles p.x p.y = some TileType.corridor ∧
          ¬isTileAdjacentToType p m .secretCorridor = true
      then some p else none

/-- The trap-placing loop `for (let i = 0; i < totalTraps; i++)`; an index
beyond the shuffled list models the source's crash on an `undefined`
element (returns `none`). -/
def trapLoop (pts : List Point) : Nat → Nat → GameMap → Option GameMap
  | 0, _, m => some m
  | k + 1, i, m =>
    match pts[i]? with
    | none => none
    | some p => trapLoop pts k (i + 1) (setTile m p.x p.y .trapPitfall)

/-- `placeTraps`: convert `trapPercentage` percent of the eligible
corridor tiles (shuffled, prefix taken) into pitfall traps.
`Math.floor(len * (pct / 100))` is embedded as exact natural division,
which coincides with the source for the claims' percentages 0 and 100. -/
def placeTraps (m : GameMap) (trapPercentage : Nat) (rand : Nat → Nat) : Option GameMap :=
  let corridorPoints := corridorTrapCandidates m
  let totalTraps := corridorPoints.length * trapPercentage / 100
  let shuffled := shuffle rand corridorPoints
  trapLoop shuffled totalTraps 0 m

theorem trapLoop_spec (pts : List Point) :
    ∀ (k i : Nat) (m : GameMap), i + k = pts.length →
      ∃ m', trapLoop pts k i m = some m' ∧
        (∀ p ∈ pts.drop i, m'.tiles p.x p.y = some TileType.trapPitfall) ∧
        (∀ a b : Int, (∀ p ∈ pts.drop i, ¬(a = p.x ∧ b = p.y)) → m'.tiles a b = m.tiles a b) := by
  intro k
  induction k with
  | zero =>
    intro i m hi
    refine ⟨m, rfl, ?_, fun a b _ => rfl⟩
    intro p hp
    rw [List.drop_eq_nil_of_le (by omega)] at hp
    cases hp
  | succ k ih =>
    intro i m hi
    have hilt : i < pts.length := by omega
    obtain ⟨m', hrun, hset, hother⟩ :=
      ih (i + 1) (setTile m pts[i].x pts[i].y .trapPitfall) (by omega)
    refine ⟨m', ?_, ?_, ?_⟩
    · show trapLoop pts (k + 1) i m = some m'
      unfold trapLoop
      rw [List.getElem?_eq_getElem hilt]
      exact hrun
    · intro p hp
      rw [List.drop_eq_getElem_cons hilt] at hp
      rcases List.mem_cons.1 hp with hp | hp
      · subst hp
        by_cases hlater : ∃ q ∈ pts.drop (i + 1), pts[i].x = q.x ∧ pts[i].y = q.y
        · obtain ⟨q, hq, hqx, hqy⟩ := hlater
          rw [hqx, hqy]
          exact hset q hq
        · push_neg at hlater
          rw [hother _ _ (fun q hq h => (hlater q hq) h.1 h.2)]
          exact setTile_tiles_self _ _ _ _
      · exact hset p hp
    · intro a b hab
      rw [List.drop_eq_getElem_cons hilt] at hab
      rw [hother a b (fun p hp => hab p (List.mem_cons_of_mem _ hp))]
      exact setTile_tiles_other _ _ _ _ _ _
        (fun h => hab pts[i] (List.mem_cons_self _ _) h)

/-- C7: `placeTraps` with percentage 0 returns the grid unchanged, and
with percentage 100 converts every eligible corridor tile (corridor not
adjacent to a secret corridor) into a pitfall trap. -/
theorem placeTraps_zero_and_hundred :
    (∀ (m : GameMap) (rand : Nat → Nat), placeTraps m 0 rand = some m) ∧
    (∀ (m : GameMap) (rand : Nat → Nat), ∃ m', placeTraps m 100 rand = some m' ∧
      ∀ p ∈ corridorTrapCandidates m, m'.tiles p.x p.y = some TileType.trapPitfall) := by
  constructor
  · intro m rand
    unfold placeTraps
    simp [trapLoop]
  · intro m rand
    unfold placeTraps
    have hlen : (shuffle rand (corridorTrapCandidates m)).length =
        (corridorTrapCandidates m).length := shuffle_length rand _
    have htotal : (corridorTrapCandidates m).length * 100 / 100 =
        (corridorTrapCandidates m).length := by omega
    obtain ⟨m', hrun, hset, _⟩ :=
      trapLoop_spec (shuffle rand (corridorTrapCandidates m))
        ((corridorTrapCandidates m).length * 100 / 100) 0 m (by omega)
    refine ⟨m', hrun, fun p hp => ?_⟩
    exact hset p (by simpa using mem_shuffle rand _ p hp)

theorem placeTraps_witness :
    ∃ m', placeTraps (createGameMap 1 1 (some .corridor)) 100 (fun _ => 0) = some m' ∧
      m'.tiles 0 0 = some TileType.trapPitfall := by
  obtain ⟨m', hrun, hset⟩ :=
    placeTraps_zero_and_hundred.2 (createGameMap 1 1 (some .corridor)) (fun _ => 0)
  exact ⟨m', hrun, hset ⟨0, 0⟩ (by decide)⟩

/-! ## Ladder placement (`placeLadders` of `map/ladders.ts`) -/

/-- The collection loop of `placeLadders`: wall tiles adjacent to a
secret corridor with at least three wall neighbors. -/
def ladderCandidates (m : GameMap) : List Point :=
  (List.range m.width).flatMap fun i =>
    (List.range m.height).filterMap fun j =>
      let p : Point := ⟨(i : Int), (j : Int)⟩
      if m.tiles p.x p.y = some TileType.wall ∧
          isTileAdjacentToType p m .secretCorridor = true ∧
          3 ≤ ((getNeighbors p.x p.y m).filter fun nb =>
            m.tiles nb.x nb.y = some TileType.wall).length
      then some p else none

/-- The ladder-placing loop `for (let i = 0; i < ladderCount; i++)`: the
tile becomes a ladder and the side facing the first secret-corridor
neighbor gets a hidden-door edge.  An index beyond the shuffled list
models the source's crash on destructuring `undefined` (returns `none`). -/
def ladderLoop (pts : List Point) : Nat → Nat → GameMap → Option GameMap
  | 0, _, m => some m
  | k + 1, i, m =>
    match pts[i]? with
    | none => none
    | some p =>
      let m1 := setTile m p.x p.y .ladderDown
      let secretNbs := (getNeighbors p.x p.y m1).filter fun nb =>
        m1.tiles nb.x nb.y = some TileType.secretCorridor
      let m2 :=
        match secretNbs with
        | [] => m1
        | nb :: _ =>
          if nb.x < p.x then setEdge m1 p.x p.y .left (some .hiddenDoor)
          else if p.x < nb.x then setEdge m1 p.x p.y .right (some .hiddenDoor)
          else if nb.y < p.y then setEdge m1 p.x p.y .top (some .hiddenDoor)
          else if p.y < nb.y then setEdge m1 p.x p.y .bottom (some .hiddenDoor)
          else m1
      ladderLoop pts k (i + 1) m2

/-- `placeLadders`. -/
def placeLadders (m : GameMap) (ladderCount : Nat) (rand : Nat → Nat) : Option GameMap :=
  ladderLoop (shuffle rand (ladderCandidates m)) ladderCount 0 m

/-- C5: refuted as stated — when `ladderCount` exceeds the number of
eligible wall tiles, `placeLadders` does not complete normally: on a 1x1
all-wall grid (zero eligible tiles) with `ladderCount = 1` it reads past
the end of the shuffled candidate list (the source throws destructuring
`undefined`; the embedding returns `none`). -/
theorem placeLadders_crash_when_count_exceeds_eligible :
    placeLadders (createGameMap 1 1 (some .wall)) 1 (fun _ => 0) = none := by
  rfl

/-! ## Edge classifier (`createEdgesBetweenTiles` of `map/edges.ts`) -/

/-- The per-neighbor body of `createEdgesBetweenTiles`: derive the
direction from the coordinate delta and set the inner/outer edge when the
tile-type pairs match and the direction is allowed.  Tile types are read
before the inner write, as in the source. -/
def edgeClassifierStep (tt1 tt2 : List TileType) (ie oe : Option EdgeType)
    (ad : List Direction) (inner outer : Bool) (tile : Point) (acc : GameMap)
    (nb : Point) : GameMap :=
  let ct := tileD acc tile.x tile.y
  let nt := tileD acc nb.x nb.y
  let dOpt : Option Direction :=
    if tile.x < nb.x then some .right
    else if nb.x < tile.x then some .left
    else if tile.y < nb.y then some .bottom
    else if nb.y < tile.y then some .top
    else none
  match dOpt with
  | none => acc
  | some d =>
    if ad.contains d then
      let acc2 :=
        if inner && tileIn ct tt1 && tileIn nt tt2 then setEdge acc tile.x tile.y d ie
        else acc
      if outer && tileIn ct tt2 && tileIn nt tt1 then setEdge acc2 tile.x tile.y d oe
      else acc2
    else acc

/-- `createEdgesBetweenTiles`. -/
def createEdgesBetweenTiles (m : GameMap) (roomTiles : List Point)
    (tt1 tt2 : List TileType) (ie oe : Option EdgeType) (ad : List Direction)
    (inner outer : Bool) : GameMap :=
  roomTiles.foldl
    (fun acc tile =>
      (getNeighbors tile.x tile.y acc).foldl (edgeClassifierStep tt1 tt2 ie oe ad inner outer tile) acc)
    m

section EdgeClassifierIdempotent

/-- A recorded edge write: target point, direction, value. -/
abbrev EdgeWrite := Point × Direction × Option EdgeType

def applyWrite (e : Int → Int → Edge) (w : EdgeWrite) : Int → Int → Edge :=
  fun a b => if a = w.1.x ∧ b = w.1.y then (e a b).setDir w.2.1 w.2.2 else e a b

def applyWrites (e : Int → Int → Edge) (ws : List EdgeWrite) : Int → Int → Edge :=
  ws.foldl applyWrite e

/-- Replace the edge store of a map. -/
def withEdges (m : GameMap) (e : Int → Int → Edge) : GameMap :=
  { m with edges := e }

/-- The writes the classifier performs for one (tile, neighbor) pair,
computed from the (never-changing) tile data of `m`. -/
def pairWrites (m : GameMap) (tt1 tt2 : List TileType) (ie oe : Option EdgeType)
    (ad : List Direction) (inner outer : Bool) (tile nb : Point) : List EdgeWrite :=
  let ct := tileD m tile.x tile.y
  let nt := tileD m nb.x nb.y
  let dOpt : Option Direction :=
    if tile.x < nb.x then some .right
    else if nb.x < tile.x then some .left
    else if tile.y < nb.y then some .bottom
    else if nb.y < tile.y then some .top
    else none
  match dOpt with
  | none => []
  | some d =>
    if ad.contains d then
      (if inner && tileIn ct tt1 && tileIn nt tt2 then [(tile, d, ie)] else []) ++
      (if outer && tileIn ct tt2 && tileIn nt tt1 then [(tile, d, oe)] else [])
    else []

/-- All writes of one classifier run, in execution order. -/
def classifierWrites (m : GameMap) (roomTiles : List Point) (tt1 tt2 : List TileType)
    (ie oe : Option EdgeType) (ad : List Direction) (inner outer : Bool) : List EdgeWrite :=
  roomTiles.flatMap fun tile =>
    (getNeighbors tile.x tile.y m).flatMap (pairWrites m tt1 tt2 ie oe ad inner outer tile)

theorem GameMap.ext' {m1 m2 : GameMap} (hw : m1.width = m2.width)
    (hh : m1.height = m2.height) (ht : m1.tiles = m2.tiles) (he : m1.edges = m2.edges) :
    m1 = m2 := by
  cases m1
  cases m2
  simp_all

theorem setEdge_eq_applyWrite (m : GameMap) (x y : Int) (d : Direction) (v : Option EdgeType) :
    setEdge m x y d v = { m with edges := applyWrite m.edges (⟨x, y⟩, d, v) } := rfl

theorem tileD_congr {m m' : GameMap} (hw : m'.width = m.width) (hh : m'.height = m.height)
    (ht : m'.tiles = m.tiles) (x y : Int) : tileD m' x y = tileD m x y := by
  unfold tileD inBounds
  rw [hw, hh, ht]

theorem getNeighbors_congr {m m' : GameMap} (hw : m'.width = m.width)
    (hh : m'.height = m.height) (x y : Int) :
    getNeighbors x y m' = getNeighbors x y m := by
  unfold getNeighbors inBounds
  rw [hw, hh]

theorem stepCore_eq (acc : GameMap) (tile : Point) (d : Direction) (b0 b1 b2 : Bool)
    (ie oe : Option EdgeType) :
    (if b0 = true then
        let acc2 := if b1 = true then setEdge acc tile.x tile.y d ie else acc
        if b2 = true then setEdge acc2 tile.x tile.y d oe else acc2
      else acc) =
      withEdges acc (applyWrites acc.edges
        (if b0 = true then
            (if b1 = true then [(tile, d, ie)] else []) ++
              (if b2 = true then [(tile, d, oe)] else [])
          else [])) := by
  cases b0 <;> cases b1 <;> cases b2 <;> rfl

theorem edgeClassifierStep_eq_writes (m : GameMap) (tt1 tt2 : List TileType)
    (ie oe : Option EdgeType) (ad : List Direction) (inner outer : Bool)
    (tile nb : Point) (acc : GameMap) (hw : acc.width = m.width)
    (hh : acc.height = m.height) (ht : acc.tiles = m.tiles) :
    edgeClassifierStep tt1 tt2 ie oe ad inner outer tile acc nb =
      withEdges acc (applyWrites acc.edges (pairWrites m tt1 tt2 ie oe ad inner outer tile nb)) := by
  have hct := tileD_congr hw hh ht tile.x tile.y
  have hnt := tileD_congr hw hh ht nb.x nb.y
  simp only [edgeClassifierStep, pairWrites, hct, hnt]
  by_cases h1 : tile.x < nb.x
  · simp only [if_pos h1]
    exact stepCore_eq acc tile .right (ad.contains .right) _ _ ie oe
  · simp only [if_neg h1]
    by_cases h2 : nb.x < tile.x
    · simp only [if_pos h2]
      exact stepCore_eq acc tile .left (ad.contains .left) _ _ ie oe
    · simp only [if_neg h2]
      by_cases h3 : tile.y < nb.y
      · simp only [if_pos h3]
        exact stepCore_eq acc tile .bottom (ad.contains .bottom) _ _ ie oe
      · simp only [if_neg h3]
        by_cases h4 : nb.y < tile.y
        · simp only [if_pos h4]
          exact stepCore_eq acc tile .top (ad.contains .top) _ _ ie oe
        · simp only [if_neg h4]
          rfl

theorem applyWrites_append (e : Int → Int → Edge) (ws1 ws2 : List EdgeWrite) :
    applyWrites e (ws1 ++ ws2) = applyWrites (applyWrites e ws1) ws2 :=
  List.foldl_append _ _ _ _

theorem foldNeighbors_eq_writes (m : GameMap) (tt1 tt2 : List TileType)
    (ie oe : Option EdgeType) (ad : List Direction) (inner outer : Bool) (tile : Point) :
    ∀ (nbs : List Point) (acc : GameMap), acc.width = m.width → acc.height = m.height →
      acc.tiles = m.tiles →
      nbs.foldl (edgeClassifierStep tt1 tt2 ie oe ad inner outer tile) acc =
        withEdges acc (applyWrites acc.edges
          (nbs.flatMap (pairWrites m tt1 tt2 ie oe ad inner outer tile))) := by
  intro nbs
  induction nbs with
  | nil => intro acc _ _ _; rfl
  | cons nb rest ih =>
    intro acc hw hh ht
    simp only [List.foldl_cons, List.flatMap_cons]
    rw [edgeClassifierStep_eq_writes m tt1 tt2 ie oe ad inner outer tile nb acc hw hh ht]
    rw [ih (withEdges acc (applyWrites acc.edges
      (pairWrites m tt1 tt2 ie oe ad inner outer tile nb))) hw hh ht]
    rw [applyWrites_append]
    rfl

theorem createEdges_eq_writes (m : GameMap) (roomTiles : List Point)
    (tt1 tt2 : List TileType) (ie oe : Option EdgeType) (ad : List Direction)
    (inner outer : Bool) :
    createEdgesBetweenTiles m roomTiles tt1 tt2 ie oe ad inner outer =
      withEdges m (applyWrites m.edges
        (classifierWrites m roomTiles tt1 tt2 ie oe ad inner outer)) := by
  unfold createEdgesBetweenTiles classifierWrites
  suffices h : ∀ (ts : List Point) (acc : GameMap), acc.width = m.width →
      acc.height = m.height → acc.tiles = m.tiles →
      ts.foldl (fun a tile => (getNeighbors tile.x tile.y a).foldl
          (edgeClassifierStep tt1 tt2 ie oe ad inner outer tile) a) acc =
        withEdges acc (applyWrites acc.edges
          (ts.flatMap fun tile => (getNeighbors tile.x tile.y m).flatMap
            (pairWrites m tt1 tt2 ie oe ad inner outer tile))) by
    exact h roomTiles m rfl rfl rfl
  intro ts
  induction ts with
  | nil => intro acc _ _ _; rfl
  | cons tile rest ih =>
    intro acc hw hh ht
    simp only [List.foldl_cons, List.flatMap_cons]
    rw [getNeighbors_congr hw hh tile.x tile.y]
    rw [foldNeighbors_eq_writes m tt1 tt2 ie oe ad inner outer tile _ acc hw hh ht]
    rw [ih (withEdges acc (applyWrites acc.edges
      ((getNeighbors tile.x tile.y m).flatMap
        (pairWrites m tt1 tt2 ie oe ad inner outer tile)))) hw hh ht]
    rw [applyWrites_append]
    rfl

@[simp] theorem Edge.dir_setDir_same (e : Edge) (d : Direction) (v : Option EdgeType) :
    (e.setDir d v).dir d = v := by
  cases d <;> rfl

theorem Edge.dir_setDir_other (e : Edge) (d d' : Direction) (v : Option EdgeType)
    (h : d ≠ d') : (e.setDir d v).dir d' = e.dir d' := by
  cases d <;> cases d' <;> first | rfl | exact absurd rfl h

theorem Edge.eq_of_dir {e1 e2 : Edge} (h : ∀ d, e1.dir d = e2.dir d) : e1 = e2 := by
  cases e1
  cases e2
  have ht := h .top
  have hr := h .right
  have hb := h .bottom
  have hl := h .left
  simp only [Edge.dir] at ht hr hb hl
  simp_all

/-- The value of the last write in `ws` matching the key `(a, b, d)`,
with fallback `x0`. -/
def lastWriteAux (a b : Int) (d : Direction) :
    List EdgeWrite → Option (Option EdgeType) → Option (Option EdgeType)
  | [], x0 => x0
  | w :: rest, x0 =>
    lastWriteAux a b d rest (if w.1.x = a ∧ w.1.y = b ∧ w.2.1 = d then some w.2.2 else x0)

theorem lastWriteAux_fallback (a b : Int) (d : Direction) :
    ∀ (ws : List EdgeWrite) (x0 : Option (Option EdgeType)),
      lastWriteAux a b d ws x0 =
        match lastWriteAux a b d ws none with
        | some v => some v
        | none => x0 := by
  intro ws
  induction ws with
  | nil => intro x0; rfl
  | cons w rest ih =>
    intro x0
    have hstep : ∀ z : Option (Option EdgeType), lastWriteAux a b d (w :: rest) z =
        lastWriteAux a b d rest
          (if w.1.x = a ∧ w.1.y = b ∧ w.2.1 = d then some w.2.2 else z) := fun _ => rfl
    rw [hstep x0, hstep none]
    by_cases h : w.1.x = a ∧ w.1.y = b ∧ w.2.1 = d
    · rw [if_pos h, if_pos h, ih (some w.2.2)]
      rcases lastWriteAux a b d rest none with _ | v <;> rfl
    · rw [if_neg h, if_neg h]
      exact ih x0

theorem applyWrites_dir (a b : Int) (d : Direction) :
    ∀ (ws : List EdgeWrite) (e : Int → Int → Edge),
      ((applyWrites e ws) a b).dir d =
        match lastWriteAux a b d ws none with
        | some v => v
        | none => (e a b).dir d := by
  intro ws
  induction ws with
  | nil => intro e; rfl
  | cons w rest ih =>
    intro e
    have hstep : applyWrites e (w :: rest) = applyWrites (applyWrite e w) rest := rfl
    rw [hstep, ih (applyWrite e w)]
    have hlw : lastWriteAux a b d (w :: rest) none =
        lastWriteAux a b d rest
          (if w.1.x = a ∧ w.1.y = b ∧ w.2.1 = d then some w.2.2 else none) := rfl
    rw [hlw]
    by_cases h : w.1.x = a ∧ w.1.y = b ∧ w.2.1 = d
    · rw [if_pos h, lastWriteAux_fallback a b d rest (some w.2.2)]
      rcases hl : lastWriteAux a b d rest none with _ | v
      · simp only [hl]
        show (applyWrite e w a b).dir d = w.2.2
        unfold applyWrite
        rw [if_pos ⟨h.1.symm, h.2.1.symm⟩, h.2.2, Edge.dir_setDir_same]
      · simp only [hl]
    · rw [if_neg h]
      rcases hl : lastWriteAux a b d rest none with _ | v
      · simp only [hl]
        show (applyWrite e w a b).dir d = (e a b).dir d
        unfold applyWrite
        by_cases hab : a = w.1.x ∧ b = w.1.y
        · rw [if_pos hab]
          have hd : w.2.1 ≠ d := fun hd => h ⟨hab.1.symm, hab.2.symm, hd⟩
          exact Edge.dir_setDir_other _ _ _ _ hd
        · rw [if_neg hab]
      · simp only [hl]

theorem applyWrites_idem (e : Int → Int → Edge) (ws : List EdgeWrite) :
    applyWrites (applyWrites e ws) ws = applyWrites e ws := by
  funext a b
  apply Edge.eq_of_dir
  intro d
  rw [applyWrites_dir a b d ws (applyWrites e ws), applyWrites_dir a b d ws e]
  cases hlast : lastWriteAux a b d ws none with
  | none => simp only [hlast]
  | some v => simp only [hlast]

/-- C9: the edge classifier is idempotent — running
`createEdgesBetweenTiles` twice with identical arguments yields the same
grid (in particular the same edge arrays) as running it once. -/
theorem createEdgesBetweenTiles_idempotent (m : GameMap) (roomTiles : List Point)
    (tt1 tt2 : List TileType) (ie oe : Option EdgeType) (ad : List Direction)
    (inner outer : Bool) :
    createEdgesBetweenTiles (createEdgesBetweenTiles m roomTiles tt1 tt2 ie oe ad inner outer)
        roomTiles tt1 tt2 ie oe ad inner outer =
      createEdgesBetweenTiles m roomTiles tt1 tt2 ie oe ad inner outer := by
  have h1 := createEdges_eq_writes m roomTiles tt1 tt2 ie oe ad inner outer
  set f := createEdgesBetweenTiles m roomTiles tt1 tt2 ie oe ad inner outer with hf
  have hwidth : f.width = m.width := by rw [h1]; rfl
  have hheight : f.height = m.height := by rw [h1]; rfl
  have htiles : f.tiles = m.tiles := by rw [h1]; rfl
  have h2 := createEdges_eq_writes f roomTiles tt1 tt2 ie oe ad inner outer
  have hwrites : classifierWrites f roomTiles tt1 tt2 ie oe ad inner outer =
      classifierWrites m roomTiles tt1 tt2 ie oe ad inner outer := by
    unfold classifierWrites
    congr 1
    funext tile
    rw [getNeighbors_congr hwidth hheight tile.x tile.y]
    congr 1
    funext nb
    unfold pairWrites
    rw [tileD_congr hwidth hheight htiles tile.x tile.y,
      tileD_congr hwidth hheight htiles nb.x nb.y]
  rw [h2, hwrites]
  refine GameMap.ext' rfl rfl rfl ?_
  show applyWrites f.edges (classifierWrites m roomTiles tt1 tt2 ie oe ad inner outer) = f.edges
  have hedges : f.edges = applyWrites m.edges
      (classifierWrites m roomTiles tt1 tt2 ie oe ad inner outer) := by rw [h1]; rfl
  rw [hedges, applyWrites_idem]

end EdgeClassifierIdempotent

/-! ## Door cardinality of `growRoom` -/

section DoorCardinality

theorem foldl_invar {β : Type} (P : GameMap → Prop) (f : GameMap → β → GameMap)
    (hf : ∀ acc b, P acc → P (f acc b)) (l : List β) :
    ∀ m : GameMap, P m → P (l.foldl f m) := by
  induction l with
  | nil => intro m hm; exact hm
  | cons b bs ih =>
    intro m hm
    simp only [List.foldl_cons]
    exact ih _ (hf m b hm)

theorem setEdge_edges_dir (m : GameMap) (x y : Int) (d : Direction) (v : Option EdgeType)
    (a b : Int) (d' : Direction) :
    ((setEdge m x y d v).edges a b).dir d' =
      if a = x ∧ b = y then ((m.edges a b).setDir d v).dir d' else (m.edges a b).dir d' := by
  unfold setEdge
  by_cases h : a = x ∧ b = y
  · obtain ⟨hx, hy⟩ := h
    subst hx
    subst hy
    simp
  · simp only [if_neg h]

/-- A reinforced-door edge sits at `p` in direction `d`. -/
def RDat (mm : GameMap) (p : Point) (d : Direction) : Prop :=
  (mm.edges p.x p.y).dir d = some EdgeType.reinforcedDoor

/-- A write of a non-reinforced-door value never creates a reinforced
door. -/
theorem RDat_setEdge_rev (m : GameMap) (x y : Int) (d0 : Direction) (v : Option EdgeType)
    (hv : v ≠ some EdgeType.reinforcedDoor) (p : Point) (d : Direction)
    (h : RDat (setEdge m x y d0 v) p d) : RDat m p d := by
  unfold RDat at h ⊢
  rw [setEdge_edges_dir] at h
  split at h
  · by_cases hd : d0 = d
    · subst hd
      rw [Edge.dir_setDir_same] at h
      exact absurd h hv
    · rw [Edge.dir_setDir_other _ _ _ _ hd] at h
      exact h
  · exact h

/-- A write in a different direction leaves the reinforced doors of
direction `d` pointwise unchanged. -/
theorem RDat_setEdge_iff_other (m : GameMap) (x y : Int) (d0 : Direction)
    (v : Option EdgeType) (p : Point) (d : Direction) (hd : d0 ≠ d) :
    RDat (setEdge m x y d0 v) p d ↔ RDat m p d := by
  unfold RDat
  rw [setEdge_edges_dir]
  split
  · rw [Edge.dir_setDir_other _ _ _ _ hd]
  · exact Iff.rfl

theorem edges_growLoop (seed : Point) (maxSize maxRadius : Int) (rand : Nat → Nat) :
    ∀ (fuel : Nat) (m : GameMap) (pts rt : List Point) (sz : Nat),
      (growLoop seed maxSize maxRadius rand fuel m pts rt sz).1.edges = m.edges := by
  intro fuel
  induction fuel with
  | zero => intro m pts rt sz; rfl
  | succ fuel ih =>
    intro m pts rt sz
    simp only [growLoop]
    split
    · rfl
    · split
      · rw [ih]
        rfl
      · rw [ih]

theorem edges_pinholePass (roomTiles : List Point) (m : GameMap) :
    (pinholePass roomTiles m).edges = m.edges := by
  unfold pinholePass
  refine foldl_preserves _ _ (fun acc t => ?_) _ _
  refine foldl_preserves _ _ (fun acc2 nb => ?_) _ _
  split <;> rfl

/-- The room-wall pass writes only room-wall edges, so it never creates a
reinforced door. -/
theorem RDat_roomWallPass_rev (roomTiles : List Point) (m : GameMap) (p : Point)
    (d : Direction) (h : RDat (roomWallPass roomTiles m) p d) : RDat m p d := by
  revert h
  unfold roomWallPass
  refine foldl_invar (fun acc => RDat acc p d → RDat m p d) _ (fun acc t hacc => ?_) _ _
    (fun h => h)
  refine foldl_invar (fun acc2 => RDat acc2 p d → RDat m p d) _
    (fun acc2 nb hacc2 => ?_) _ _ hacc
  split
  · split
    · exact fun h => hacc2 (RDat_setEdge_rev _ _ _ _ _ (by simp) p d h)
    · split
      · exact fun h => hacc2 (RDat_setEdge_rev _ _ _ _ _ (by simp) p d h)
      · split
        · exact fun h => hacc2 (RDat_setEdge_rev _ _ _ _ _ (by simp) p d h)
        · split
          · exact fun h => hacc2 (RDat_setEdge_rev _ _ _ _ _ (by simp) p d h)
          · exact hacc2
  · exact hacc2

/-- Directions outside the remaining config list are untouched by the
door fold. -/
theorem doorFold_other (roomTiles : List Point) (origin : Point) :
    ∀ (cfgs : List Direction) (mm : GameMap) (d : Direction), d ∉ cfgs →
      ∀ p : Point,
        RDat (cfgs.foldl (fun acc d2 =>
          match findRoomCadidateEdge d2 roomTiles acc origin with
          | some c => setEdge acc c.x c.y d2 (some .reinforcedDoor)
          | none => acc) mm) p d ↔ RDat mm p d := by
  intro cfgs
  induction cfgs with
  | nil => intro mm d _ p; exact Iff.rfl
  | cons d0 rest ih =>
    intro mm d hd p
    simp only [List.foldl_cons]
    have hd0 : d0 ≠ d := fun he => hd (he ▸ List.mem_cons_self _ _)
    have hdr : d ∉ rest := fun hr => hd (List.mem_cons_of_mem _ hr)
    rw [ih _ d hdr p]
    show RDat (match findRoomCadidateEdge d0 roomTiles mm origin with
      | some c => setEdge mm c.x c.y d0 (some .reinforcedDoor)
      | none => mm) p d ↔ RDat mm p d
    rcases hc : findRoomCadidateEdge d0 roomTiles mm origin with _ | c
    · exact Iff.rfl
    · exact RDat_setEdge_iff_other mm c.x c.y d0 _ p d hd0

/-- The door fold adds at most one reinforced door per direction: any two
reinforced doors of direction `d` that are new relative to the fold's
input map sit at the same cell. -/
theorem doorFold_new_unique (roomTiles : List Point) (origin : Point) :
    ∀ (cfgs : List Direction), cfgs.Nodup →
      ∀ (mm : GameMap) (d : Direction) (p q : Point),
        RDat (cfgs.foldl (fun acc d2 =>
          match findRoomCadidateEdge d2 roomTiles acc origin with
          | some c => setEdge acc c.x c.y d2 (some .reinforcedDoor)
          | none => acc) mm) p d →
        ¬ RDat mm p d →
        RDat (cfgs.foldl (fun acc d2 =>
          match findRoomCadidateEdge d2 roomTiles acc origin with
          | some c => setEdge acc c.x c.y d2 (some .reinforcedDoor)
          | none => acc) mm) q d →
        ¬ RDat mm q d →
        p = q := by
  intro cfgs
  induction cfgs with
  | nil => intro _ mm d p q hp hnp _ _; exact absurd hp hnp
  | cons d0 rest ih =>
    intro hnd mm d p q hp hnp hq hnq
    simp only [List.foldl_cons] at hp hq
    by_cases hdd : d = d0
    · subst hdd
      have hdr : d ∉ rest := (List.nodup_cons.1 hnd).1
      rw [doorFold_other roomTiles origin rest _ d hdr p] at hp
      rw [doorFold_other roomTiles origin rest _ d hdr q] at hq
      have hp2 : RDat (match findRoomCadidateEdge d roomTiles mm origin with
          | some c => setEdge mm c.x c.y d (some .reinforcedDoor)
          | none => mm) p d := hp
      have hq2 : RDat (match findRoomCadidateEdge d roomTiles mm origin with
          | some c => setEdge mm c.x c.y d (some .reinforcedDoor)
          | none => mm) q d := hq
      rcases hc : findRoomCadidateEdge d roomTiles mm origin with _ | c
      · rw [hc] at hp2
        exact absurd hp2 hnp
      · rw [hc] at hp2 hq2
        have hp3 : RDat (setEdge mm c.x c.y d (some .reinforcedDoor)) p d := hp2
        have hq3 : RDat (setEdge mm c.x c.y d (some .reinforcedDoor)) q d := hq2
        unfold RDat at hp3 hq3
        rw [setEdge_edges_dir] at hp3 hq3
        by_cases hpc : p.x = c.x ∧ p.y = c.y
        · by_cases hqc : q.x = c.x ∧ q.y = c.y
          · cases p
            cases q
            simp_all
          · rw [if_neg hqc] at hq3
            exact absurd hq3 hnq
        · rw [if_neg hpc] at hp3
          exact absurd hp3 hnp
    · have hstep_iff : ∀ r : Point,
          RDat (match findRoomCadidateEdge d0 roomTiles mm origin with
            | some c => setEdge mm c.x c.y d0 (some .reinforcedDoor)
            | none => mm) r d ↔ RDat mm r d := by
        intro r
        rcases hc : findRoomCadidateEdge d0 roomTiles mm origin with _ | c
        · exact Iff.rfl
        · exact RDat_setEdge_iff_other mm c.x c.y d0 _ r d (fun he => hdd he.symm)
      refine ih (List.nodup_cons.1 hnd).2 _ d p q hp ?_ hq ?_
      · intro hcon
        exact hnp ((hstep_iff p).1 hcon)
      · intro hcon
        exact hnq ((hstep_iff q).1 hcon)

/-- C6: every `growRoom` call adds at most one reinforced-door edge per
cardinal direction — any two reinforced doors of one direction that are
new relative to the input grid coincide — so the produced room carries
between 0 and 4 new reinforced doors, regardless of reinforced doors
already present from previously grown rooms. -/
theorem growRoom_door_cardinality (m : GameMap) (x y maxSize maxRadius : Int)
    (rand : Nat → Nat) :
    ∀ (d : Direction) (p q : Point),
      (((growRoom m x y maxSize maxRadius rand).edges p.x p.y).dir d =
          some EdgeType.reinforcedDoor ∧
        ¬ ((m.edges p.x p.y).dir d = some EdgeType.reinforcedDoor)) →
      (((growRoom m x y maxSize maxRadius rand).edges q.x q.y).dir d =
          some EdgeType.reinforcedDoor ∧
        ¬ ((m.edges q.x q.y).dir d = some EdgeType.reinforcedDoor)) →
      p = q := by
  unfold growRoom growRoomFull
  by_cases hms : maxSize < 1
  · simp only [hms, if_true]
    rintro d p q ⟨hp, hnp⟩ _
    exact absurd hp hnp
  · simp only [hms, if_false]
    rintro d p q ⟨hp, hnp⟩ ⟨hq, hnq⟩
    set rt := (growLoop ⟨x, y⟩ maxSize maxRadius rand 10000 m [⟨x, y⟩] [] 0).2 with hrt
    set m4 := roomWallPass rt
      (setTile (pinholePass rt (growLoop ⟨x, y⟩ maxSize maxRadius rand 10000 m [⟨x, y⟩] [] 0).1)
        x y .roomOrigin) with hm4
    have hm4sub : ∀ (r : Point) (d2 : Direction), RDat m4 r d2 → RDat m r d2 := by
      intro r d2 h
      have h2 := RDat_roomWallPass_rev rt _ r d2 h
      unfold RDat at h2 ⊢
      rw [setTile_edges, edges_pinholePass, edges_growLoop] at h2
      exact h2
    exact doorFold_new_unique rt ⟨x, y⟩ EDGE_CONFIGS (by decide) m4 d p q hp
      (fun hc => hnp (hm4sub p d hc)) hq (fun hc => hnq (hm4sub q d hc))

/-- Witness map for C6: 5x5 walls with a corridor at (1,1) and (2,1). -/
def doorWitnessMap : GameMap :=
  ⟨5, 5, fun a b => if (a = 1 ∨ a = 2) ∧ b = 1 then some .corridor else some .wall,
    fun _ _ => Edge.empty⟩

set_option maxRecDepth 20000 in
theorem growRoom_door_cardinality_witness :
    (((growRoom doorWitnessMap 2 2 1 0 (fun _ => 0)).edges 2 2).dir .top =
        some EdgeType.reinforcedDoor ∧
      ¬ ((doorWitnessMap.edges 2 2).dir .top = some EdgeType.reinforcedDoor)) ∧
    (⟨2, 2⟩ : Point) = ⟨2, 2⟩ :=
  ⟨⟨by decide, by decide⟩,
    growRoom_door_cardinality doorWitnessMap 2 2 1 0 (fun _ => 0) .top ⟨2, 2⟩ ⟨2, 2⟩
      ⟨by decide, by decide⟩ ⟨by decide, by decide⟩⟩

end DoorCardinality

/-! ## Room growth bounds -/

section GrowthBounds

theorem foldl_invar_mem {β : Type} (P : GameMap → Prop) (f : GameMap → β → GameMap)
    (l : List β) (hf : ∀ acc b, b ∈ l → P acc → P (f acc b)) :
    ∀ m : GameMap, P m → P (l.foldl f m) := by
  induction l with
  | nil => intro m hm; exact hm
  | cons b bs ih =>
    intro m hm
    simp only [List.foldl_cons]
    exact ih (fun acc c hc hacc => hf acc c (List.mem_cons_of_mem _ hc) hacc) _
      (hf m b (List.mem_cons_self _ _) hm)

theorem mem_if_singleton {α : Type} (c : Prop) [Decidable c] (a b : α) :
    (a ∈ if c then [b] else []) ↔ c ∧ a = b := by
  split <;> simp_all

theorem mem_getNeighbors (m : GameMap) (x y : Int) (p : Point) :
    p ∈ getNeighbors x y m ↔ inBounds m p.x p.y = true ∧
      ((p.x = x ∧ p.y = y + 1) ∨ (p.x = x + 1 ∧ p.y = y) ∨ (p.x = x ∧ p.y = y - 1) ∨
        (p.x = x - 1 ∧ p.y = y)) := by
  unfold getNeighbors
  simp only [List.mem_append, mem_if_singleton]
  cases p with
  | mk px py =>
    simp only [Point.mk.injEq]
    constructor
    · rintro (((⟨hb, hx, hy⟩ | ⟨hb, hx, hy⟩) | ⟨hb, hx, hy⟩) | ⟨hb, hx, hy⟩) <;>
        subst hx <;> subst hy <;> exact ⟨hb, by omega⟩
    · rintro ⟨hb, (⟨hx, hy⟩ | ⟨hx, hy⟩ | ⟨hx, hy⟩ | ⟨hx, hy⟩)⟩ <;> subst hx <;> subst hy
      · exact Or.inl (Or.inl (Or.inl ⟨hb, rfl, rfl⟩))
      · exact Or.inl (Or.inl (Or.inr ⟨hb, rfl, rfl⟩))
      · exact Or.inl (Or.inr ⟨hb, rfl, rfl⟩)
      · exact Or.inr ⟨hb, rfl, rfl⟩

theorem mem_getNeighbors_mk (m : GameMap) (x y px py : Int) :
    (⟨px, py⟩ : Point) ∈ getNeighbors x y m ↔ inBounds m px py = true ∧
      ((px = x ∧ py = y + 1) ∨ (px = x + 1 ∧ py = y) ∨ (px = x ∧ py = y - 1) ∨
        (px = x - 1 ∧ py = y)) :=
  mem_getNeighbors m x y ⟨px, py⟩

theorem tileIn_tileD_inBounds (m : GameMap) (x y : Int) (l : List TileType)
    (h : tileIn (tileD m x y) l = true) : inBounds m x y = true := by
  unfold tileD at h
  by_cases hb : inBounds m x y = true
  · exact hb
  · rw [if_neg hb] at h
    exact absurd h (by simp [tileIn])

theorem growLoop_spec (seed : Point) (maxSize maxRadius : Int) (rand : Nat → Nat)
    (m0 : GameMap) :
    ∀ (fuel : Nat) (m : GameMap) (pts rt : List Point) (sz : Nat),
      rt.length = sz →
      m.width = m0.width → m.height = m0.height →
      (∀ p ∈ rt, m.tiles p.x p.y = some TileType.room) →
      (∀ a b : Int, m.tiles a b = some TileType.room →
        m0.tiles a b = some TileType.room ∨ (⟨a, b⟩ : Point) ∈ rt) →
      (∀ p ∈ rt, distLe p seed maxRadius = true ∧ inBounds m0 p.x p.y = true) →
      (growLoop seed maxSize maxRadius rand fuel m pts rt sz).2.length ≤
          max maxSize.toNat rt.length ∧
        (growLoop seed maxSize maxRadius rand fuel m pts rt sz).1.width = m0.width ∧
        (growLoop seed maxSize maxRadius rand fuel m pts rt sz).1.height = m0.height ∧
        (∀ p ∈ (growLoop seed maxSize maxRadius rand fuel m pts rt sz).2,
          (growLoop seed maxSize maxRadius rand fuel m pts rt sz).1.tiles p.x p.y =
            some TileType.room) ∧
        (∀ a b : Int,
          (growLoop seed maxSize maxRadius rand fuel m pts rt sz).1.tiles a b =
            some TileType.room →
          m0.tiles a b = some TileType.room ∨
            (⟨a, b⟩ : Point) ∈ (growLoop seed maxSize maxRadius rand fuel m pts rt sz).2) ∧
        (∀ p ∈ (growLoop seed maxSize maxRadius rand fuel m pts rt sz).2,
          distLe p seed maxRadius = true ∧ inBounds m0 p.x p.y = true) := by
  intro fuel
  induction fuel with
  | zero =>
    intro m pts rt sz hsz hw hh hroom hchar hprops
    exact ⟨Nat.le_max_right _ _, hw, hh, hroom, hchar, hprops⟩
  | succ fuel ih =>
    intro m pts rt sz hsz hw hh hroom hchar hprops
    simp only [growLoop]
    split
    · exact ⟨Nat.le_max_right _ _, hw, hh, hroom, hchar, hprops⟩
    · next hguard =>
      split
      · next hconv =>
        set current := pts.getD (rand fuel % pts.length) ⟨0, 0⟩ with hcur
        have hover : tileIn (tileD m current.x current.y) [.wall, .corridor] = true := by
          have := hconv
          simp only [Bool.and_eq_true] at this
          exact this.1
        have hdist : distLe current seed maxRadius = true := by
          have := hconv
          simp only [Bool.and_eq_true] at this
          exact this.2
        have hib : inBounds m current.x current.y = true :=
          tileIn_tileD_inBounds m current.x current.y _ hover
        have hib0 : inBounds m0 current.x current.y = true := by
          unfold inBounds at hib ⊢
          rw [← hw, ← hh]
          exact hib
        have hszlt : (sz : Int) < maxSize := by
          rcases not_or.1 hguard with ⟨_, h2⟩
          exact not_not.1 h2
        have hsz1 : sz + 1 ≤ maxSize.toNat := by omega
        refine (ih (setTile m current.x current.y .room) _ (rt ++ [current]) (sz + 1)
          (by simp [hsz]) hw hh ?_ ?_ ?_).imp ?_ (fun h => h)
        · intro p hp
          rcases List.mem_append.1 hp with hp | hp
          · by_cases hpc : p.x = current.x ∧ p.y = current.y
            · show (setTile m current.x current.y .room).tiles p.x p.y = _
              unfold setTile
              simp only [if_pos hpc]
            · show (setTile m current.x current.y .room).tiles p.x p.y = _
              unfold setTile
              simp only [if_neg hpc]
              exact hroom p hp
          · simp only [List.mem_singleton] at hp
            subst hp
            exact setTile_tiles_self _ _ _ _
        · intro a b hab
          by_cases habc : a = current.x ∧ b = current.y
          · right
            refine List.mem_append.2 (Or.inr ?_)
            simp only [List.mem_singleton]
            show (⟨a, b⟩ : Point) = current
            rw [habc.1, habc.2]
          · rw [setTile_tiles_other _ _ _ _ _ _ habc] at hab
            rcases hchar a b hab with h | h
            · exact Or.inl h
            · exact Or.inr (List.mem_append.2 (Or.inl h))
        · intro p hp
          rcases List.mem_append.1 hp with hp | hp
          · exact hprops p hp
          · simp only [List.mem_singleton] at hp
            subst hp
            exact ⟨hdist, hib0⟩
        · intro hlen
          calc _ ≤ max maxSize.toNat (rt ++ [current]).length := hlen
            _ ≤ max maxSize.toNat rt.length := by
                simp only [List.length_append, List.length_singleton]
                omega
      · exact ih m _ rt sz hsz hw hh hroom hchar hprops

/-- Invariant of the pinhole-closing fold: tiles change only to `room`,
and only at 4-neighbors of growth-loop room tiles. -/
def pinholeInv (rt : List Point) (m1 mm : GameMap) : Prop :=
  mm.width = m1.width ∧ mm.height = m1.height ∧
  (∀ a b : Int, mm.tiles a b = m1.tiles a b ∨
    (mm.tiles a b = some TileType.room ∧
      ∃ t ∈ rt, (⟨a, b⟩ : Point) ∈ getNeighbors t.x t.y m1)) ∧
  (∀ a b : Int, m1.tiles a b = some TileType.room → mm.tiles a b = some TileType.room)

theorem pinholeInv_setTile (rt : List Point) (m1 : GameMap) (t : Point) (ht : t ∈ rt)
    (acc2 : GameMap) (nb : Point) (hnb : nb ∈ getNeighbors t.x t.y m1)
    (h : pinholeInv rt m1 acc2) : pinholeInv rt m1 (setTile acc2 nb.x nb.y .room) := by
  obtain ⟨h2w, h2h, h2char, h2mono⟩ := h
  refine ⟨h2w, h2h, ?_, ?_⟩
  · intro a b
    by_cases hab : a = nb.x ∧ b = nb.y
    · right
      constructor
      · show (setTile acc2 nb.x nb.y .room).tiles a b = _
        unfold setTile
        simp only [if_pos hab]
      · exact ⟨t, ht, by rw [hab.1, hab.2]; exact hnb⟩
    · rw [setTile_tiles_other _ _ _ _ _ _ hab]
      exact h2char a b
  · intro a b h1r
    by_cases hab : a = nb.x ∧ b = nb.y
    · show (setTile acc2 nb.x nb.y .room).tiles a b = _
      unfold setTile
      simp only [if_pos hab]
    · rw [setTile_tiles_other _ _ _ _ _ _ hab]
      exact h2mono a b h1r

theorem pinholePass_spec (rt : List Point) (m1 : GameMap) :
    pinholeInv rt m1 (pinholePass rt m1) := by
  unfold pinholePass
  refine foldl_invar_mem (pinholeInv rt m1) _ rt (fun acc t ht hacc => ?_) m1
    ⟨rfl, rfl, fun a b => Or.inl rfl, fun a b h => h⟩
  have hnbs : getNeighbors t.x t.y acc = getNeighbors t.x t.y m1 :=
    getNeighbors_congr hacc.1 hacc.2.1 t.x t.y
  rw [hnbs]
  refine foldl_invar_mem (pinholeInv rt m1) _ (getNeighbors t.x t.y m1)
    (fun acc2 nb hnb hacc2 => ?_) acc hacc
  split
  · exact pinholeInv_setTile rt m1 t ht acc2 nb hnb hacc2
  · exact hacc2

/-- Map for the C3 counterexample: 3x3 walls with a corridor at (1,2). -/
def pinholeCexMap : GameMap :=
  ⟨3, 3, fun a b => if a = 1 ∧ b = 2 then some .corridor else some .wall,
    fun _ _ => Edge.empty⟩

set_option maxRecDepth 20000 in
/-- C3 counterexample: growing a room of `maxSize = 1`, `maxRadius = 0` at
(1,1) on `pinholeCexMap` absorbs the corridor at (1,2) through the
pinhole-closing post-process, yet in the resulting grid that tile is
4-adjacent to fewer than 2 room/room-origin tiles (only the origin),
refuting the claim's "must still be 4-adjacent to at least 2 room
tiles". -/
theorem growRoom_pinhole_adjacency_cex :
    pinholeCexMap.tiles 1 2 = some TileType.corridor ∧
    (growRoomFull pinholeCexMap 1 1 1 0 (fun _ => 0)).1.tiles 1 2 = some TileType.room ∧
    (⟨1, 2⟩ : Point) ∉ (growRoomFull pinholeCexMap 1 1 1 0 (fun _ => 0)).2 ∧
    ((getNeighbors 1 2 (growRoomFull pinholeCexMap 1 1 1 0 (fun _ => 0)).1).filter fun q =>
      decide ((growRoomFull pinholeCexMap 1 1 1 0 (fun _ => 0)).1.tiles q.x q.y =
          some TileType.room ∨
        (growRoomFull pinholeCexMap 1 1 1 0 (fun _ => 0)).1.tiles q.x q.y =
          some TileType.roomOrigin)).length < 2 := by
  refine ⟨by decide, by decide, by decide, by decide⟩

/-- C3 (amended): the tiles converted by the growth loop number at most
`maxSize` and lie within Euclidean distance `maxRadius` of the seed; any
other tile newly turned into a room tile was absorbed by the
pinhole-closing post-process and is 4-adjacent to at least one room or
room-origin tile of the resulting grid. -/
theorem growRoom_growth_bounds (m : GameMap) (x y maxSize maxRadius : Int)
    (rand : Nat → Nat) :
    (growRoomFull m x y maxSize maxRadius rand).2.length ≤ maxSize.toNat ∧
    (∀ p ∈ (growRoomFull m x y maxSize maxRadius rand).2,
      0 ≤ maxRadius ∧ distSq p ⟨x, y⟩ ≤ maxRadius ^ 2) ∧
    (∀ a b : Int,
      (growRoomFull m x y maxSize maxRadius rand).1.tiles a b = some TileType.room →
      m.tiles a b ≠ some TileType.room →
      (⟨a, b⟩ : Point) ∉ (growRoomFull m x y maxSize maxRadius rand).2 →
      ∃ q ∈ getNeighbors a b (growRoomFull m x y maxSize maxRadius rand).1,
        (growRoomFull m x y maxSize maxRadius rand).1.tiles q.x q.y = some TileType.room ∨
        (growRoomFull m x y maxSize maxRadius rand).1.tiles q.x q.y =
          some TileType.roomOrigin) := by
  by_cases hms : maxSize < 1
  · unfold growRoomFull
    simp only [hms, if_true]
    refine ⟨by simp, by simp, ?_⟩
    intro a b hroom hnr _
    exact absurd hroom hnr
  · have hspec := growLoop_spec ⟨x, y⟩ maxSize maxRadius rand m 10000 m [⟨x, y⟩] [] 0
      rfl rfl rfl (by simp) (fun a b h => Or.inl h) (by simp)
    obtain ⟨hlen, hgw, hgh, hgroom, hgchar, hgprops⟩ := hspec
    set g := growLoop ⟨x, y⟩ maxSize maxRadius rand 10000 m [⟨x, y⟩] [] 0 with hg
    obtain ⟨hpw, hph, hpchar, hpmono⟩ := pinholePass_spec g.2 g.1
    have hres : growRoomFull m x y maxSize maxRadius rand =
        (doorPass g.2 ⟨x, y⟩ (roomWallPass g.2
          (setTile (pinholePass g.2 g.1) x y .roomOrigin)), g.2) := by
      unfold growRoomFull
      simp only [hms, if_false]
    have htiles : (growRoomFull m x y maxSize maxRadius rand).1.tiles =
        (setTile (pinholePass g.2 g.1) x y .roomOrigin).tiles := by
      rw [hres]
      rw [tiles_doorPass, tiles_roomWallPass]
    have hsnd : (growRoomFull m x y maxSize maxRadius rand).2 = g.2 := by rw [hres]
    refine ⟨?_, ?_, ?_⟩
    · rw [hsnd]
      simpa using hlen
    · intro p hp
      rw [hsnd] at hp
      have := (hgprops p hp).1
      unfold distLe at this
      simp only [Bool.and_eq_true, decide_eq_true_eq] at this
      exact this
    · intro a b hroom hnotpre hnotrt
      rw [htiles] at hroom
      rw [hsnd] at hnotrt
      have hab_ne : ¬(a = x ∧ b = y) := by
        intro hab
        rw [show (setTile (pinholePass g.2 g.1) x y .roomOrigin).tiles a b =
          some TileType.roomOrigin from by unfold setTile; simp only [if_pos hab]] at hroom
        cases hroom
      rw [setTile_tiles_other _ _ _ _ _ _ hab_ne] at hroom
      rcases hpchar a b with hsame | ⟨_, t, ht, hadj⟩
      · rw [hsame] at hroom
        rcases hgchar a b hroom with h | h
        · exact absurd h hnotpre
        · exact absurd h hnotrt
      · refine ⟨t, ?_, ?_⟩
        · have hgn : getNeighbors a b (growRoomFull m x y maxSize maxRadius rand).1 =
              getNeighbors a b g.1 := by
            refine getNeighbors_congr ?_ ?_ a b
            · rw [hres]
              show (doorPass _ _ _).width = _
              have h1 : ∀ mm : GameMap, (doorPass g.2 ⟨x, y⟩ mm).width = mm.width := by
                intro mm
                unfold doorPass
                refine foldl_preserves _ _ (fun acc d => ?_) _ _
                split <;> rfl
              have h2 : ∀ (rt2 : List Point) (mm : GameMap),
                  (roomWallPass rt2 mm).width = mm.width := by
                intro rt2 mm
                unfold roomWallPass
                refine foldl_preserves _ _ (fun acc t2 => ?_) _ _
                refine foldl_preserves _ _ (fun acc2 nb => ?_) _ _
                split
                · split
                  · rfl
                  · split
                    · rfl
                    · split
                      · rfl
                      · split <;> rfl
                · rfl
              rw [h1, h2]
              exact hpw
            · rw [hres]
              show (doorPass _ _ _).height = _
              have h1 : ∀ mm : GameMap, (doorPass g.2 ⟨x, y⟩ mm).height = mm.height := by
                intro mm
                unfold doorPass
                refine foldl_preserves _ _ (fun acc d => ?_) _ _
                split <;> rfl
              have h2 : ∀ (rt2 : List Point) (mm : GameMap),
                  (roomWallPass rt2 mm).height = mm.height := by
                intro rt2 mm
                unfold roomWallPass
                refine foldl_preserves _ _ (fun acc t2 => ?_) _ _
                refine foldl_preserves _ _ (fun acc2 nb => ?_) _ _
                split
                · split
                  · rfl
                  · split
                    · rfl
                    · split
                      · rfl
                      · split <;> rfl
                · rfl
              rw [h1, h2]
              exact hph
          rw [hgn]
          rw [mem_getNeighbors_mk] at hadj
          rw [mem_getNeighbors]
          have hibt : inBounds m t.x t.y = true := (hgprops t ht).2
          have hibg : inBounds g.1 t.x t.y = true := by
            unfold inBounds at hibt ⊢
            rw [hgw, hgh]
            exact hibt
          refine ⟨hibg, ?_⟩
          rcases hadj.2 with ⟨h1, h2⟩ | ⟨h1, h2⟩ | ⟨h1, h2⟩ | ⟨h1, h2⟩
          · right; right; left
            constructor <;> omega
          · right; right; right
            constructor <;> omega
          · left
            constructor <;> omega
          · right; left
            constructor <;> omega
        · have htroom : g.1.tiles t.x t.y = some TileType.room := hgroom t ht
          have h2room : (pinholePass g.2 g.1).tiles t.x t.y = some TileType.room :=
            hpmono t.x t.y htroom
          rw [htiles]
          by_cases htxy : t.x = x ∧ t.y = y
          · right
            show (setTile _ x y .roomOrigin).tiles t.x t.y = _
            unfold setTile
            simp only [if_pos htxy]
          · left
            rw [setTile_tiles_other _ _ _ _ _ _ htxy]
            exact h2room

set_option maxRecDepth 20000 in
theorem growRoom_growth_bounds_witness :
    (growRoomFull pinholeCexMap 1 1 1 0 (fun _ => 0)).2.length ≤ 1 ∧
    (0 ≤ (0 : Int) ∧ distSq ⟨1, 1⟩ ⟨1, 1⟩ ≤ (0 : Int) ^ 2) ∧
    (∃ q ∈ getNeighbors 1 2 (growRoomFull pinholeCexMap 1 1 1 0 (fun _ => 0)).1,
      (growRoomFull pinholeCexMap 1 1 1 0 (fun _ => 0)).1.tiles q.x q.y = some TileType.room ∨
      (growRoomFull pinholeCexMap 1 1 1 0 (fun _ => 0)).1.tiles q.x q.y =
        some TileType.roomOrigin) := by
  obtain ⟨h1, h2, h3⟩ := growRoom_growth_bounds pinholeCexMap 1 1 1 0 (fun _ => 0)
  refine ⟨h1, h2 ⟨1, 1⟩ (by decide), ?_⟩
  exact h3 1 2 (by decide) (by decide) (by decide)

end GrowthBounds

/-! ## Clusters and connectivity repair (`map/clusters.ts`, `map/corridors.ts`) -/

/-- The stepped scan `for (let x = start; x < bound; x += step)`; the fuel
bounds the iteration count (adequate whenever `step ≥ 1`, matching the
caller contract — `step = 0` loops forever in the source). -/
def stepRange (start bound : Int) (step : Nat) : Nat → List Int
  | 0 => []
  | fuel + 1 =>
    if start < bound then start :: stepRange (start + step) bound step fuel else []

/-- `getIntersectionsInCluster`: lattice points (spacing `wallStep`,
offset `wallStep + corridorStep / 2`) that belong to the cluster and hold
a traversable (corridor/room/room-origin) tile. -/
def getIntersectionsInCluster (m : GameMap) (cluster : List Point) (ws cs : Nat) :
    List Point :=
  let xs := stepRange ((ws : Int) + ((cs / 2 : Nat) : Int))
    ((m.width : Int) - ((cs / 2 : Nat) : Int)) ws (m.width + 1)
  let ys := stepRange ((ws : Int) + ((cs / 2 : Nat) : Int))
    ((m.height : Int) - ((cs / 2 : Nat) : Int)) ws (m.height + 1)
  xs.flatMap fun x => ys.filterMap fun y =>
    if (x < (m.width : Int) ∧ y < (m.height : Int)) ∧
        cluster.any (fun p => p.x == x && p.y == y) ∧
        (m.tiles x y = some TileType.corridor ∨ m.tiles x y = some TileType.room ∨
          m.tiles x y = some TileType.roomOrigin)
    then some ⟨x, y⟩ else none

/-- `constructHorizontal`: a chain of corridor rectangles along the row
`start.y` between the two x coordinates, replacing wall tiles only. -/
def constructHorizontal (m : GameMap) (s e : Point) (cs : Nat) : GameMap :=
  ((List.range (max s.x e.x - min s.x e.x + 1).toNat).map
      (fun (i : Nat) => min s.x e.x + (i : Int))).foldl
    (fun acc xx => createCorridorRectangle acc xx s.y cs .corridor (some .wall)) m

/-- `constructVertical`. -/
def constructVertical (m : GameMap) (s e : Point) (cs : Nat) : GameMap :=
  ((List.range (max s.y e.y - min s.y e.y + 1).toNat).map
      (fun (i : Nat) => min s.y e.y + (i : Int))).foldl
    (fun acc yy => createCorridorRectangle acc s.x yy cs .corridor (some .wall)) m

/-- `constructCorridor`: Manhattan corridor from `s` to `e`; the source's
`random() > 0.5` branch choice is the explicit `coin`. -/
def constructCorridor (m : GameMap) (s e : Point) (cs : Nat) (coin : Bool) : GameMap :=
  if coin then constructVertical (constructHorizontal m s e cs) ⟨e.x, s.y⟩ e cs
  else constructHorizontal (constructVertical m s e cs) ⟨s.x, e.y⟩ e cs

/-- The nearest-pair search of `connectClusters` (iteration order: other
clusters by index, then start points, then end points; strict `<` keeps
the first minimum).  Returns `(distSq, start, end, nearestClusterIndex)`;
`none` models the untouched `minDistance = Infinity` defaults. -/
def findNearestPair (m : GameMap) (ws cs : Nat) (current : List Point)
    (others : List (List Point)) : Option (Int × Point × Point × Int) :=
  let ps := getIntersectionsInCluster m current ws cs
  others.enum.foldl
    (fun acc pr =>
      let pe := getIntersectionsInCluster m pr.2 ws cs
      ps.foldl
        (fun acc2 s =>
          pe.foldl
            (fun acc3 e =>
              match acc3 with
              | none => some (distSq s e, s, e, (pr.1 : Int) + 1)
              | some best =>
                if distSq s e < best.1 then some (distSq s e, s, e, (pr.1 : Int) + 1)
                else acc3)
            acc2)
        acc)
    none

/-- The loop of `connectClusters`, also returning the carved (start, end)
pairs in order.  The `currentClusterIndex = nearestClusterIndex`
assignment of the source is dead (the variable is re-initialized to 0 by
`let` at the top of each iteration), so the next iteration's current
cluster is always the new head after the `splice(0, 1)`; the recursion
reflects exactly that. -/
def connectClustersCore (ws cs : Nat) (rand : Nat → Nat) :
    GameMap → List (List Point) → Nat → GameMap × List (Point × Point)
  | m, [], _ => (m, [])
  | m, [_], _ => (m, [])
  | m, c0 :: rest, k =>
    let pick := findNearestPair m ws cs c0 rest
    let s := match pick with
      | some b => b.2.1
      | none => (⟨0, 0⟩ : Point)
    let e := match pick with
      | some b => b.2.2.1
      | none => (⟨0, 0⟩ : Point)
    let m' := constructCorridor m s e cs (rand k % 2 == 0)
    let res := connectClustersCore ws cs rand m' rest (k + 1)
    (res.1, (s, e) :: res.2)

/-- `connectClusters`. -/
def connectClusters (m : GameMap) (clusters : List (List Point)) (ws cs : Nat)
    (rand : Nat → Nat) : GameMap :=
  (connectClustersCore ws cs rand m clusters 0).1

/-- The recursive `floodFill` of `findIsolatedClusters`: mark every
reachable non-wall tile and push it onto the current cluster, then
recurse over the in-bounds neighbors (the `forEach` becomes a `foldl`
over the visited-set/cluster state).  The fuel bounds the recursion
depth; it is adequate whenever it exceeds the number of unvisited
in-bounds cells. -/
def floodFill (m : GameMap) : Nat → (Int → Int → Bool) × List Point → Int → Int →
    (Int → Int → Bool) × List Point
  | 0, st, _, _ => st
  | fuel + 1, st, x, y =>
    if st.1 x y = true ∨ tileD m x y = some TileType.wall then st
    else
      (getNeighbors x y m).foldl (fun st' nb => floodFill m fuel st' nb.x nb.y)
        (fun a b => if a = x ∧ b = y then true else st.1 a b, st.2 ++ [⟨x, y⟩])

/-- The row-major scan order of `findIsolatedClusters` (outer loop over x,
inner over y). -/
def scanCells (m : GameMap) : List (Int × Int) :=
  (List.range m.width).flatMap fun (i : Nat) =>
    (List.range m.height).map fun (j : Nat) => ((i : Int), (j : Int))

/-- One scan step of `findIsolatedClusters`: at an unvisited traversable
(corridor/room/room-origin) tile, run the flood fill and record the
resulting cluster when nonempty. -/
def ficStep (m : GameMap) (st : (Int → Int → Bool) × List (List Point))
    (c : Int × Int) : (Int → Int → Bool) × List (List Point) :=
  if st.1 c.1 c.2 = false ∧ (m.tiles c.1 c.2 = some TileType.corridor ∨
      m.tiles c.1 c.2 = some TileType.room ∨ m.tiles c.1 c.2 = some TileType.roomOrigin)
  then
    let r := floodFill m (m.width * m.height + 1) (st.1, []) c.1 c.2
    (r.1, if r.2.length > 0 then st.2 ++ [r.2] else st.2)
  else st

/-- `findIsolatedClusters`: row-major scan starting a flood fill at every
unvisited traversable (corridor/room/room-origin) tile. -/
def findIsolatedClusters (m : GameMap) : List (List Point) :=
  ((scanCells m).foldl (ficStep m) (fun _ _ => false, [])).2

/-- Map for the C4 demonstration: 9x3 walls with single-tile corridor
clusters at (4,1), (1,1) and (5,1). -/
def deadCurrentMap : GameMap :=
  ⟨9, 3, fun a b => if ((a = 4 ∨ a = 1) ∨ a = 5) ∧ b = 1 then some .corridor else some .wall,
    fun _ _ => Edge.empty⟩

set_option maxRecDepth 40000 in
/-- C4: refuted on the code — running the repair loop on the cluster list
[{(4,1)}, {(1,1)}, {(5,1)}] (wallStep 1, corridorStep 1), iteration 1
finds the nearest cluster {(5,1)} and connects (4,1)→(5,1); but because
the `let currentClusterIndex = 0` inside the `while` body makes the final
`currentClusterIndex = nearestClusterIndex` assignment dead, iteration 2
uses {(1,1)} (the new index 0) as current — its start point (1,1) does
not lie in the previously nearest cluster {(5,1)}, contradicting the
claim that the nearest cluster becomes the new current cluster. -/
theorem connectClusters_dead_current_assignment :
    (connectClustersCore 1 1 (fun _ => 0) deadCurrentMap
        [[⟨4, 1⟩], [⟨1, 1⟩], [⟨5, 1⟩]] 0).2 =
      [(⟨4, 1⟩, ⟨5, 1⟩), (⟨1, 1⟩, ⟨5, 1⟩)] ∧
    (⟨1, 1⟩ : Point) ∉ ([⟨5, 1⟩] : List Point) := by
  exact ⟨by decide, by decide⟩

/-- Map for the C1 counterexample: 3x3 walls with corridors at (0,0) and
(2,2) — two clusters, neither holding an intersection point for
`wallStep = 1`, `corridorStep = 1` ((0,0) is below the lattice offset). -/
def noIntersectionMap : GameMap :=
  ⟨3, 3, fun a b => if (a = 0 ∧ b = 0) ∨ (a = 2 ∧ b = 2) then some .corridor else some .wall,
    fun _ _ => Edge.empty⟩

/-! ## Reachability infrastructure -/

/-- 4-adjacency of grid points. -/
def adjacent (p q : Point) : Prop :=
  (q.x = p.x ∧ (q.y = p.y + 1 ∨ q.y = p.y - 1)) ∨
  (q.y = p.y ∧ (q.x = p.x + 1 ∨ q.x = p.x - 1))

theorem adjacent_symm {p q : Point} (h : adjacent p q) : adjacent q p := by
  unfold adjacent at h ⊢
  omega

theorem adjacent_mk (a b c d : Int) :
    adjacent ⟨a, b⟩ ⟨c, d⟩ ↔
      (c = a ∧ (d = b + 1 ∨ d = b - 1)) ∨ (d = b ∧ (c = a + 1 ∨ c = a - 1)) :=
  Iff.rfl

/-- Reachability along a 4-connected path whose every cell satisfies `P`. -/
def ReachIn (P : Point → Prop) (s t : Point) : Prop :=
  Relation.ReflTransGen (fun a b => P a ∧ P b ∧ adjacent a b) s t

theorem ReachIn.mono {P Q : Point → Prop} (h : ∀ p, P p → Q p) {s t : Point}
    (hr : ReachIn P s t) : ReachIn Q s t :=
  Relation.ReflTransGen.mono (fun a b hab => ⟨h a hab.1, h b hab.2.1, hab.2.2⟩) hr

theorem ReachIn.symm {P : Point → Prop} {s t : Point} (h : ReachIn P s t) : ReachIn P t s :=
  Relation.ReflTransGen.symmetric
    (fun a b hab => ⟨hab.2.1, hab.1, adjacent_symm hab.2.2⟩) h

theorem ReachIn.trans {P : Point → Prop} {s t u : Point} (h1 : ReachIn P s t)
    (h2 : ReachIn P t u) : ReachIn P s u :=
  Relation.ReflTransGen.trans h1 h2

theorem ReachIn.refl {P : Point → Prop} {s : Point} : ReachIn P s s :=
  Relation.ReflTransGen.refl

theorem ReachIn.step {P : Point → Prop} {s t : Point} (hs : P s) (ht : P t)
    (hadj : adjacent s t) : ReachIn P s t :=
  Relation.ReflTransGen.single ⟨hs, ht, hadj⟩

/-- Walk a horizontal segment whose every cell satisfies `P`. -/
theorem reach_horizontal (P : Point → Prop) (y : Int) :
    ∀ (n : Nat) (x1 : Int), (∀ t : Int, x1 ≤ t → t ≤ x1 + n → P ⟨t, y⟩) →
      ReachIn P ⟨x1, y⟩ ⟨x1 + n, y⟩ := by
  intro n
  induction n with
  | zero => intro x1 _; simpa using ReachIn.refl
  | succ k ih =>
    intro x1 hP
    have h1 : ReachIn P ⟨x1, y⟩ ⟨x1 + k, y⟩ := ih x1 (fun t ht1 ht2 => hP t ht1 (by omega))
    refine h1.trans (ReachIn.step (hP _ (by omega) (by omega)) (hP _ (by omega) (by omega)) ?_)
    rw [adjacent_mk]
    omega

/-- Walk a vertical segment whose every cell satisfies `P`. -/
theorem reach_vertical (P : Point → Prop) (x : Int) :
    ∀ (n : Nat) (y1 : Int), (∀ t : Int, y1 ≤ t → t ≤ y1 + n → P ⟨x, t⟩) →
      ReachIn P ⟨x, y1⟩ ⟨x, y1 + n⟩ := by
  intro n
  induction n with
  | zero => intro y1 _; simpa using ReachIn.refl
  | succ k ih =>
    intro y1 hP
    have h1 : ReachIn P ⟨x, y1⟩ ⟨x, y1 + k⟩ := ih y1 (fun t ht1 ht2 => hP t ht1 (by omega))
    refine h1.trans (ReachIn.step (hP _ (by omega) (by omega)) (hP _ (by omega) (by omega)) ?_)
    rw [adjacent_mk]
    omega

/-- Walk between two cells of the same row. -/
theorem reach_row (P : Point → Prop) (y x1 x2 : Int)
    (hP : ∀ t : Int, min x1 x2 ≤ t → t ≤ max x1 x2 → P ⟨t, y⟩) :
    ReachIn P ⟨x1, y⟩ ⟨x2, y⟩ := by
  by_cases hle : x1 ≤ x2
  · have h := reach_horizontal P y (x2 - x1).toNat x1
      (fun t ht1 ht2 => hP t (by omega) (by omega))
    have he : x1 + ((x2 - x1).toNat : Int) = x2 := by omega
    rwa [he] at h
  · have h := reach_horizontal P y (x1 - x2).toNat x2
      (fun t ht1 ht2 => hP t (by omega) (by omega))
    have he : x2 + ((x1 - x2).toNat : Int) = x1 := by omega
    rw [he] at h
    exact h.symm

/-- Walk between two cells of the same column. -/
theorem reach_col (P : Point → Prop) (x y1 y2 : Int)
    (hP : ∀ t : Int, min y1 y2 ≤ t → t ≤ max y1 y2 → P ⟨x, t⟩) :
    ReachIn P ⟨x, y1⟩ ⟨x, y2⟩ := by
  by_cases hle : y1 ≤ y2
  · have h := reach_vertical P x (y2 - y1).toNat y1
      (fun t ht1 ht2 => hP t (by omega) (by omega))
    have he : y1 + ((y2 - y1).toNat : Int) = y2 := by omega
    rwa [he] at h
  · have h := reach_vertical P x (y1 - y2).toNat y2
      (fun t ht1 ht2 => hP t (by omega) (by omega))
    have he : y2 + ((y1 - y2).toNat : Int) = y1 := by omega
    rw [he] at h
    exact h.symm

/-! ## Rectangle-fill characterization -/

theorem rectStep_width (t : TileType) (rep : Option TileType) (acc : GameMap)
    (c : Int × Int) : (rectStep t rep acc c).width = acc.width := by
  unfold rectStep
  split
  · split <;> rfl
  · rfl

theorem rectStep_height (t : TileType) (rep : Option TileType) (acc : GameMap)
    (c : Int × Int) : (rectStep t rep acc c).height = acc.height := by
  unfold rectStep
  split
  · split <;> rfl
  · rfl

theorem rectStep_edges (t : TileType) (rep : Option TileType) (acc : GameMap)
    (c : Int × Int) : (rectStep t rep acc c).edges = acc.edges := by
  unfold rectStep
  split
  · split <;> rfl
  · rfl

theorem rectStep_tiles_other (t : TileType) (rep : Option TileType) (acc : GameMap)
    (c : Int × Int) (a b : Int) (h : ¬(a = c.1 ∧ b = c.2)) :
    (rectStep t rep acc c).tiles a b = acc.tiles a b := by
  unfold rectStep
  split
  · split
    · exact setTile_tiles_other _ _ _ _ _ _ h
    · rfl
  · rfl

theorem foldRect_tiles_notmem (t : TileType) (rep : Option TileType) :
    ∀ (L : List (Int × Int)) (m : GameMap) (a b : Int), (a, b) ∉ L →
      ((L.foldl (rectStep t rep) m).tiles a b = m.tiles a b) := by
  intro L
  induction L with
  | nil => intro m a b _; rfl
  | cons c rest ih =>
    intro m a b hmem
    simp only [List.foldl_cons]
    rw [ih _ a b (fun hr => hmem (List.mem_cons_of_mem _ hr))]
    exact rectStep_tiles_other t rep m c a b
      (fun hc => hmem (by cases c; simp_all))

theorem inBounds_rectStep (t : TileType) (rep : Option TileType) (acc : GameMap)
    (c : Int × Int) (a b : Int) :
    inBounds (rectStep t rep acc c) a b = inBounds acc a b := by
  unfold inBounds
  rw [rectStep_width, rectStep_height]

theorem foldRect_tiles_mem (t : TileType) (rep : Option TileType) :
    ∀ (L : List (Int × Int)) (m : GameMap) (a b : Int), L.Nodup → (a, b) ∈ L →
      (L.foldl (rectStep t rep) m).tiles a b =
        if inBounds m a b = true ∧ (rep = none ∨ m.tiles a b = rep) then some t
        else m.tiles a b := by
  intro L
  induction L with
  | nil => intro m a b _ hmem; cases hmem
  | cons c rest ih =>
    intro m a b hnd hmem
    simp only [List.foldl_cons]
    by_cases hc : (a, b) = c
    · subst hc
      rw [foldRect_tiles_notmem t rep rest _ a b ((List.nodup_cons.1 hnd).1)]
      unfold rectStep
      by_cases hib : inBounds m a b = true
      · rw [if_pos hib]
        by_cases hrep : rep = none ∨ m.tiles a b = rep
        · rw [if_pos hrep, if_pos ⟨hib, hrep⟩]
          exact setTile_tiles_self _ _ _ _
        · rw [if_neg hrep, if_neg (fun hcon => hrep hcon.2)]
      · rw [if_neg hib, if_neg (fun hcon => hib hcon.1)]
    · have hrest : (a, b) ∈ rest := by
        rcases List.mem_cons.1 hmem with h | h
        · exact absurd h hc
        · exact h
      rw [ih _ a b (List.nodup_cons.1 hnd).2 hrest]
      rw [rectStep_tiles_other t rep m c a b (fun hab => hc (by cases c; simp_all))]
      rw [inBounds_rectStep]

theorem mem_rectCells (x y : Int) (w h : Nat) (a b : Int) :
    (a, b) ∈ rectCells x y w h ↔ x ≤ a ∧ a < x + w ∧ y ≤ b ∧ b < y + h := by
  unfold rectCells
  constructor
  · intro hmem
    obtain ⟨i, hi, hmem2⟩ := List.mem_flatMap.1 hmem
    obtain ⟨j, hj, hab⟩ := List.mem_map.1 hmem2
    rw [List.mem_range] at hi hj
    cases hab
    omega
  · rintro ⟨h1, h2, h3, h4⟩
    refine List.mem_flatMap.2 ⟨(a - x).toNat, List.mem_range.2 (by omega),
      List.mem_map.2 ⟨(b - y).toNat, List.mem_range.2 (by omega), ?_⟩⟩
    have hax : x + (((a - x).toNat : Nat) : Int) = a := by omega
    have hby : y + (((b - y).toNat : Nat) : Int) = b := by omega
    rw [hax, hby]

theorem nodup_rectCells (x y : Int) (w h : Nat) : (rectCells x y w h).Nodup := by
  unfold rectCells
  rw [List.nodup_flatMap]
  constructor
  · intro i _
    refine List.Nodup.map ?_ (List.nodup_range h)
    intro j1 j2 hj
    simp only [Prod.mk.injEq] at hj
    omega
  · refine List.Pairwise.imp_of_mem ?_ (List.pairwise_lt_range w)
    intro i1 i2 _ _ hlt
    intro p hp1 hp2
    simp only [List.mem_map, List.mem_range] at hp1 hp2
    obtain ⟨j1, _, hj1⟩ := hp1
    obtain ⟨j2, _, hj2⟩ := hp2
    rw [← hj1] at hj2
    simp only [Prod.mk.injEq] at hj2
    omega

theorem createRectangleInMap_tiles (m : GameMap) (x y : Int) (w h : Nat) (t : TileType)
    (rep : Option TileType) (a b : Int) :
    (createRectangleInMap m x y w h t rep).tiles a b =
      if (x ≤ a ∧ a < x + w ∧ y ≤ b ∧ b < y + h) ∧ inBounds m a b = true ∧
          (rep = none ∨ m.tiles a b = rep)
      then some t else m.tiles a b := by
  unfold createRectangleInMap
  by_cases hmem : (a, b) ∈ rectCells x y w h
  · rw [foldRect_tiles_mem t rep _ m a b (nodup_rectCells x y w h) hmem]
    rw [mem_rectCells] at hmem
    by_cases hcond : inBounds m a b = true ∧ (rep = none ∨ m.tiles a b = rep)
    · rw [if_pos hcond, if_pos ⟨hmem, hcond⟩]
    · rw [if_neg hcond, if_neg (fun hc => hcond hc.2)]
  · rw [foldRect_tiles_notmem t rep _ m a b hmem]
    rw [mem_rectCells] at hmem
    rw [if_neg (fun hc => hmem hc.1)]

theorem createRectangleInMap_width (m : GameMap) (x y : Int) (w h : Nat) (t : TileType)
    (rep : Option TileType) : (createRectangleInMap m x y w h t rep).width = m.width := by
  unfold createRectangleInMap
  exact foldl_preserves _ _ (fun acc c => rectStep_width t rep acc c) _ _

theorem createRectangleInMap_height (m : GameMap) (x y : Int) (w h : Nat) (t : TileType)
    (rep : Option TileType) : (createRectangleInMap m x y w h t rep).height = m.height := by
  unfold createRectangleInMap
  exact foldl_preserves _ _ (fun acc c => rectStep_height t rep acc c) _ _

theorem createCorridorRectangle_tiles (m : GameMap) (x y : Int) (cs : Nat) (t : TileType)
    (rep : Option TileType) (a b : Int) :
    (createCorridorRectangle m x y cs t rep).tiles a b =
      if (x - ((cs / 2 : Nat) : Int) ≤ a ∧ a < x - ((cs / 2 : Nat) : Int) + cs ∧
          y - ((cs / 2 : Nat) : Int) ≤ b ∧ b < y - ((cs / 2 : Nat) : Int) + cs) ∧
          inBounds m a b = true ∧ (rep = none ∨ m.tiles a b = rep)
      then some t else m.tiles a b :=
  createRectangleInMap_tiles m _ _ cs cs t rep a b

theorem createCorridorRectangle_width (m : GameMap) (x y : Int) (cs : Nat) (t : TileType)
    (rep : Option TileType) : (createCorridorRectangle m x y cs t rep).width = m.width :=
  createRectangleInMap_width m _ _ cs cs t rep

theorem createCorridorRectangle_height (m : GameMap) (x y : Int) (cs : Nat) (t : TileType)
    (rep : Option TileType) : (createCorridorRectangle m x y cs t rep).height = m.height :=
  createRectangleInMap_height m _ _ cs cs t rep

set_option maxRecDepth 40000 in
/-- C1: refuted as stated — `noIntersectionMap` has traversable tiles and
`findIsolatedClusters` finds its two clusters, but the cluster at (0,0)
contains no intersection point, so the repairer carves only the default
(0,0)→(0,0) corridor and drops the cluster from its list; the repaired
grid still has two clusters. -/
theorem connectClusters_single_cluster_cex :
    noIntersectionMap.tiles 0 0 = some TileType.corridor ∧
    (findIsolatedClusters (connectClusters noIntersectionMap
        (findIsolatedClusters noIntersectionMap) 1 1 (fun _ => 0))).length = 2 := by
  exact ⟨by decide, by decide⟩

/-! ## Maze generation (`generateMaze` of `mapGeneration.ts`) -/

/-- The corridor-rectangle centers carved by the inner loop
`for (let i = 1; i < wallStep; i++)` of `generateMaze`, walking from
`current` one cell at a time along the unit direction `(sx, sy)`. -/
def chainCenters (current : Point) (sx sy : Int) (ws : Nat) : List Point :=
  (List.range (ws - 1)).map fun (i : Nat) =>
    ⟨current.x + ((i : Int) + 1) * sx, current.y + ((i : Int) + 1) * sy⟩

/-- Sequential `createCorridorRectangle` carves at the given centers (the
4-argument overload of the source always writes `TileType.CORRIDOR` with no
`replaceType` filter). -/
def carveRects (cs : Nat) (C : List Point) (m : GameMap) : GameMap :=
  C.foldl (fun acc c => createCorridorRectangle acc c.x c.y cs .corridor none) m

/-- The `while (stack.length > 0)` loop of `generateMaze`: pop `current`,
collect the wall neighbors at distance `wallStep`; with no neighbor,
continue on the rest of the stack; otherwise push `current` back, pick a
random neighbor, carve the chain of corridor rectangles from `current`
toward it and the rectangle at the neighbor itself, and push the neighbor
(`Math.sign((randomNeighbor.x - current.x) / 2)` over floats equals the
sign of the integer difference). -/
def mazeLoop (ws cs : Nat) (rand : Nat → Nat) :
    Nat → GameMap → List Point → GameMap
  | 0, m, _ => m
  | _ + 1, m, [] => m
  | fuel + 1, m, current :: rest =>
    let neighbors := getUnvisitedNeighbors current.x current.y m (ws : Int) [.wall]
    if neighbors.length = 0 then
      mazeLoop ws cs rand fuel m rest
    else
      let rn := neighbors.getD (rand fuel % neighbors.length) ⟨0, 0⟩
      let sx := (rn.x - current.x).sign
      let sy := (rn.y - current.y).sign
      let m2 := carveRects cs (chainCenters current sx sy ws ++ [rn]) m
      mazeLoop ws cs rand fuel m2 (rn :: current :: rest)

/-- `generateMaze`: round both dimensions up to
`(⌊dim/wallStep⌋ + 1) * wallStep + corridorStep`, fill with wall, carve the
start rectangle at `(⌊corridorStep/2⌋, ⌊corridorStep/2⌋)` and run the
carving loop seeded with the start point. -/
def generateMaze (width height ws cs : Nat) (rand : Nat → Nat) (fuel : Nat) : GameMap :=
  let w := (width / ws + 1) * ws + cs
  let h := (height / ws + 1) * ws + cs
  let m := createGameMap w h (some .wall)
  let startX : Int := ((cs / 2 : Nat) : Int)
  let startY : Int := ((cs / 2 : Nat) : Int)
  let m1 := createCorridorRectangle m startX startY cs .corridor none
  mazeLoop ws cs rand fuel m1 [⟨startX, startY⟩]

/-- The cell `(a, b)` lies in the `cs × cs` square that
`createCorridorRectangle` fills around the center `c`. -/
def inRect (c : Point) (cs : Nat) (a b : Int) : Prop :=
  c.x - ((cs / 2 : Nat) : Int) ≤ a ∧ a < c.x - ((cs / 2 : Nat) : Int) + cs ∧
  c.y - ((cs / 2 : Nat) : Int) ≤ b ∧ b < c.y - ((cs / 2 : Nat) : Int) + cs

/-- The tile at `p` reads as a corridor. -/
def corrP (m : GameMap) (p : Point) : Prop :=
  tileD m p.x p.y = some TileType.corridor

theorem inBounds_eq_dims (m m2 : GameMap) (hW : m2.width = m.width)
    (hH : m2.height = m.height) (a b : Int) : inBounds m2 a b = inBounds m a b := by
  unfold inBounds
  rw [hW, hH]

theorem carveRects_width (cs : Nat) (C : List Point) (m : GameMap) :
    (carveRects cs C m).width = m.width := by
  unfold carveRects
  exact foldl_preserves _ _
    (fun (acc : GameMap) (c : Point) => createCorridorRectangle_width acc c.x c.y cs _ _) _ _

theorem carveRects_height (cs : Nat) (C : List Point) (m : GameMap) :
    (carveRects cs C m).height = m.height := by
  unfold carveRects
  exact foldl_preserves _ _
    (fun (acc : GameMap) (c : Point) => createCorridorRectangle_height acc c.x c.y cs _ _) _ _

/-- Corridor reads after a single corridor-rectangle carve: the old
corridors plus the in-bounds part of the square. -/
theorem tileD_carveRect (m : GameMap) (c : Point) (cs : Nat) (a b : Int) :
    (tileD (createCorridorRectangle m c.x c.y cs .corridor none) a b =
        some TileType.corridor) ↔
      tileD m a b = some TileType.corridor ∨
        (inBounds m a b = true ∧ inRect c cs a b) := by
  have hib : inBounds (createCorridorRectangle m c.x c.y cs .corridor none) a b =
      inBounds m a b :=
    inBounds_eq_dims m _ (createCorridorRectangle_width m _ _ cs _ _)
      (createCorridorRectangle_height m _ _ cs _ _) a b
  unfold tileD
  rw [hib, createCorridorRectangle_tiles]
  by_cases hb : inBounds m a b = true
  · rw [if_pos hb, if_pos hb]
    unfold inRect
    by_cases hr : c.x - ((cs / 2 : Nat) : Int) ≤ a ∧ a < c.x - ((cs / 2 : Nat) : Int) + cs ∧
        c.y - ((cs / 2 : Nat) : Int) ≤ b ∧ b < c.y - ((cs / 2 : Nat) : Int) + cs
    · rw [if_pos ⟨hr, hb, Or.inl rfl⟩]
      exact iff_of_true rfl (Or.inr ⟨hb, hr⟩)
    · rw [if_neg (fun hcon => hr hcon.1)]
      constructor
      · intro h
        exact Or.inl h
      · rintro (h | ⟨_, hcon⟩)
        · exact h
        · exact absurd hcon hr
  · rw [if_neg hb, if_neg hb]
    simp [hb]

/-- Corridor reads after carving a list of corridor rectangles. -/
theorem tileD_carveRects (cs : Nat) :
    ∀ (C : List Point) (m : GameMap) (a b : Int),
      tileD (carveRects cs C m) a b = some TileType.corridor ↔
        tileD m a b = some TileType.corridor ∨
          (inBounds m a b = true ∧ ∃ c ∈ C, inRect c cs a b) := by
  intro C
  induction C with
  | nil => intro m a b; simp [carveRects]
  | cons c C ih =>
    intro m a b
    have hstep : carveRects cs (c :: C) m =
        carveRects cs C (createCorridorRectangle m c.x c.y cs .corridor none) := rfl
    rw [hstep, ih, tileD_carveRect]
    have hib : inBounds (createCorridorRectangle m c.x c.y cs .corridor none) a b =
        inBounds m a b :=
      inBounds_eq_dims m _ (createCorridorRectangle_width m _ _ cs _ _)
        (createCorridorRectangle_height m _ _ cs _ _) a b
    rw [hib]
    constructor
    · rintro ((h | ⟨h1, h2⟩) | ⟨h1, d, hd1, hd2⟩)
      · exact Or.inl h
      · exact Or.inr ⟨h1, c, List.mem_cons_self _ _, h2⟩
      · exact Or.inr ⟨h1, d, List.mem_cons_of_mem _ hd1, hd2⟩
    · rintro (h | ⟨h1, d, hd1, hd2⟩)
      · exact Or.inl (Or.inl h)
      · rcases List.mem_cons.1 hd1 with rfl | hd
        · exact Or.inl (Or.inr ⟨h1, hd2⟩)
        · exact Or.inr ⟨h1, d, hd, hd2⟩

theorem inRect_self (c : Point) (cs : Nat) (hcs : 1 ≤ cs) : inRect c cs c.x c.y := by
  unfold inRect
  omega

/-- Connect two cells of an axis-aligned box every cell of which satisfies
`P`, going horizontally then vertically. -/
theorem reach_in_box (P : Point → Prop) (lx hx ly hy : Int)
    (hP : ∀ a b : Int, lx ≤ a → a ≤ hx → ly ≤ b → b ≤ hy → P ⟨a, b⟩)
    {a b c d : Int} (h1 : lx ≤ a) (h2 : a ≤ hx) (h3 : ly ≤ b) (h4 : b ≤ hy)
    (h5 : lx ≤ c) (h6 : c ≤ hx) (h7 : ly ≤ d) (h8 : d ≤ hy) :
    ReachIn P ⟨a, b⟩ ⟨c, d⟩ :=
  (reach_row P b a c (fun t ht1 ht2 => hP t b (by omega) (by omega) h3 h4)).trans
    (reach_col P c b d (fun t ht1 ht2 => hP c t h5 h6 (by omega) (by omega)))

/-- Any in-bounds cell of a carved square connects to its (in-bounds)
center through the square. -/
theorem reach_center_box (P : Point → Prop) (m : GameMap) (c : Point) (cs : Nat)
    (hcs : 1 ≤ cs)
    (hcov : ∀ a b : Int, inBounds m a b = true → inRect c cs a b → P ⟨a, b⟩)
    (hcin : inBounds m c.x c.y = true)
    {a b : Int} (hab_in : inBounds m a b = true) (hab_rect : inRect c cs a b) :
    ReachIn P ⟨a, b⟩ ⟨c.x, c.y⟩ := by
  have hab := (inBounds_iff m a b).1 hab_in
  have hc := (inBounds_iff m c.x c.y).1 hcin
  obtain ⟨hr1, hr2, hr3, hr4⟩ := hab_rect
  refine reach_in_box P (max (c.x - ((cs / 2 : Nat) : Int)) 0)
    (min (c.x - ((cs / 2 : Nat) : Int) + cs - 1) ((m.width : Int) - 1))
    (max (c.y - ((cs / 2 : Nat) : Int)) 0)
    (min (c.y - ((cs / 2 : Nat) : Int) + cs - 1) ((m.height : Int) - 1))
    ?_ (by omega) (by omega) (by omega) (by omega)
    (by omega) (by omega) (by omega) (by omega)
  intro a2 b2 g1 g2 g3 g4
  refine hcov a2 b2 ((inBounds_iff m a2 b2).2 (by omega)) ?_
  unfold inRect
  omega

/-- Membership in `getUnvisitedNeighbors`: the tile there is of an
"unvisited" type and the point is one of the four positions at distance
`step`. -/
theorem mem_getUnvisitedNeighbors {m : GameMap} {x y step : Int} {types : List TileType}
    {p : Point} (h : p ∈ getUnvisitedNeighbors x y m step types) :
    tileIn (tileD m p.x p.y) types = true ∧
      (p = ⟨x, y - step⟩ ∨ p = ⟨x + step, y⟩ ∨ p = ⟨x, y + step⟩ ∨ p = ⟨x - step, y⟩) := by
  unfold getUnvisitedNeighbors at h
  simp only [List.mem_append, mem_if_singleton] at h
  rcases h with ((⟨hc, rfl⟩ | ⟨hc, rfl⟩) | ⟨hc, rfl⟩) | ⟨hc, rfl⟩
  · rw [Bool.and_eq_true] at hc
    exact ⟨hc.2, Or.inl rfl⟩
  · rw [Bool.and_eq_true] at hc
    exact ⟨hc.2, Or.inr (Or.inl rfl)⟩
  · rw [Bool.and_eq_true] at hc
    exact ⟨hc.2, Or.inr (Or.inr (Or.inl rfl))⟩
  · rw [Bool.and_eq_true] at hc
    exact ⟨hc.2, Or.inr (Or.inr (Or.inr rfl))⟩

theorem tileIn_wall {o : Option TileType} (h : tileIn o [TileType.wall] = true) :
    o = some TileType.wall := by
  cases o with
  | none => exact absurd h (by decide)
  | some t => cases t <;> first | rfl | exact absurd h (by decide)

/-- Walk along the chain of carved centers: `current`, then the points at
offsets `1, ..., n` times the unit direction `(sx, sy)`. -/
theorem reach_chain (P : Point → Prop) (current : Point) (sx sy : Int)
    (hunit : (sx = 0 ∧ (sy = 1 ∨ sy = -1)) ∨ (sy = 0 ∧ (sx = 1 ∨ sx = -1)))
    (hcur : P current) :
    ∀ n : Nat, (∀ i : Nat, 1 ≤ i → i ≤ n →
        P ⟨current.x + (i : Int) * sx, current.y + (i : Int) * sy⟩) →
      ReachIn P current ⟨current.x + (n : Int) * sx, current.y + (n : Int) * sy⟩ := by
  intro n
  induction n with
  | zero =>
    intro _
    have he : (⟨current.x + ((0 : Nat) : Int) * sx, current.y + ((0 : Nat) : Int) * sy⟩ :
        Point) = current := by
      cases current
      simp
    rw [he]
    exact ReachIn.refl
  | succ k ih =>
    intro hP
    have h1 := ih (fun i hi1 hi2 => hP i hi1 (by omega))
    refine h1.trans (ReachIn.step ?_ ?_ ?_)
    · rcases Nat.eq_zero_or_pos k with rfl | hk
      · have he : (⟨current.x + ((0 : Nat) : Int) * sx, current.y + ((0 : Nat) : Int) * sy⟩ :
            Point) = current := by
          cases current
          simp
        rw [he]
        exact hcur
      · exact hP k hk (by omega)
    · exact hP (k + 1) (by omega) (by omega)
    · rw [adjacent_mk]
      rcases hunit with ⟨rfl, rfl | rfl⟩ | ⟨rfl, rfl | rfl⟩ <;> push_cast <;> omega

theorem inBounds_of_tileD {m : GameMap} {x y : Int} {t : TileType}
    (h : tileD m x y = some t) : inBounds m x y = true := by
  unfold tileD at h
  by_cases hb : inBounds m x y = true
  · exact hb
  · rw [if_neg hb] at h
    cases h

theorem getD_mem {α : Type} {l : List α} {n : Nat} (d : α) (h : n < l.length) :
    l.getD n d ∈ l := by
  rw [List.getD_eq_getElem?_getD, List.getElem?_eq_getElem h]
  exact List.getElem_mem h

/-- Effect of one carving block of the maze loop: corridors are preserved,
the chosen neighbor's tile becomes a corridor, and every corridor of the
carved map is reachable from `start` whenever every corridor of the input
map was. -/
theorem maze_carve_reach (ws cs : Nat) (hws : 1 ≤ ws) (hcs : 1 ≤ cs)
    (m : GameMap) (current start : Point) (sx sy : Int)
    (hunit : (sx = 0 ∧ (sy = 1 ∨ sy = -1)) ∨ (sy = 0 ∧ (sx = 1 ∨ sx = -1)))
    (hcur : corrP m current)
    (hreach : ∀ a b : Int, tileD m a b = some TileType.corridor →
      ReachIn (corrP m) start ⟨a, b⟩)
    (rn : Point)
    (hrn_eq : rn = ⟨current.x + (ws : Int) * sx, current.y + (ws : Int) * sy⟩)
    (hrn_in : inBounds m rn.x rn.y = true) :
    (∀ a b : Int, tileD m a b = some TileType.corridor →
        tileD (carveRects cs (chainCenters current sx sy ws ++ [rn]) m) a b =
          some TileType.corridor) ∧
    corrP (carveRects cs (chainCenters current sx sy ws ++ [rn]) m) rn ∧
    (∀ a b : Int,
      tileD (carveRects cs (chainCenters current sx sy ws ++ [rn]) m) a b =
          some TileType.corridor →
      ReachIn (corrP (carveRects cs (chainCenters current sx sy ws ++ [rn]) m))
        start ⟨a, b⟩) := by
  set C := chainCenters current sx sy ws ++ [rn] with hC
  set m2 := carveRects cs C m with hm2def
  have hcur_in : inBounds m current.x current.y = true := inBounds_of_tileD hcur
  have hbounds_cur := (inBounds_iff m current.x current.y).1 hcur_in
  have hbounds_rn := (inBounds_iff m rn.x rn.y).1 hrn_in
  have hcb : ∀ i : Nat, i ≤ ws →
      inBounds m (current.x + (i : Int) * sx) (current.y + (i : Int) * sy) = true := by
    intro i hi
    refine (inBounds_iff m _ _).2 ?_
    have hrx : rn.x = current.x + (ws : Int) * sx := by rw [hrn_eq]
    have hry : rn.y = current.y + (ws : Int) * sy := by rw [hrn_eq]
    rw [hrx, hry] at hbounds_rn
    rcases hunit with ⟨rfl, rfl | rfl⟩ | ⟨rfl, rfl | rfl⟩ <;> push_cast at hbounds_rn ⊢ <;> omega
  have hmem : ∀ i : Nat, 1 ≤ i → i ≤ ws →
      (⟨current.x + (i : Int) * sx, current.y + (i : Int) * sy⟩ : Point) ∈ C := by
    intro i h1 h2
    rcases Nat.eq_or_lt_of_le h2 with rfl | hlt
    · rw [hC]
      refine List.mem_append.2 (Or.inr ?_)
      rw [hrn_eq]
      exact List.mem_singleton.2 rfl
    · rw [hC]
      refine List.mem_append.2 (Or.inl ?_)
      unfold chainCenters
      refine List.mem_map.2 ⟨i - 1, List.mem_range.2 (by omega), ?_⟩
      have he : ((i - 1 : Nat) : Int) + 1 = (i : Int) := by omega
      rw [he]
  have hcov : ∀ c ∈ C, ∀ a b : Int, inBounds m a b = true → inRect c cs a b →
      tileD m2 a b = some TileType.corridor := by
    intro c hc a b hin hrect
    rw [hm2def, tileD_carveRects]
    exact Or.inr ⟨hin, c, hc, hrect⟩
  have hmono : ∀ a b : Int, tileD m a b = some TileType.corridor →
      tileD m2 a b = some TileType.corridor := by
    intro a b h
    rw [hm2def, tileD_carveRects]
    exact Or.inl h
  have hcorrP_mono : ∀ p : Point, corrP m p → corrP m2 p := fun p hp => hmono p.x p.y hp
  have hcenterP : ∀ i : Nat, 1 ≤ i → i ≤ ws →
      corrP m2 ⟨current.x + (i : Int) * sx, current.y + (i : Int) * sy⟩ := by
    intro i h1 h2
    exact hcov _ (hmem i h1 h2) _ _ (hcb i h2) (inRect_self _ cs hcs)
  have hrnP : corrP m2 rn := by
    have h := hcenterP ws hws (le_refl ws)
    rw [← hrn_eq] at h
    exact h
  refine ⟨hmono, hrnP, ?_⟩
  intro a b hab
  rw [hm2def, tileD_carveRects] at hab
  rcases hab with hold | ⟨hin, c, hcmem, hrect⟩
  · exact (hreach a b hold).mono hcorrP_mono
  · have hcform : ∃ j : Nat, 1 ≤ j ∧ j ≤ ws ∧
        c = ⟨current.x + (j : Int) * sx, current.y + (j : Int) * sy⟩ := by
      have hcmem2 := hcmem
      rw [hC] at hcmem2
      rcases List.mem_append.1 hcmem2 with hc1 | hc2
      · unfold chainCenters at hc1
        obtain ⟨i, hi, rfl⟩ := List.mem_map.1 hc1
        rw [List.mem_range] at hi
        refine ⟨i + 1, by omega, by omega, ?_⟩
        simp only [Point.mk.injEq]
        constructor <;> push_cast <;> ring
      · rw [List.mem_singleton] at hc2
        exact ⟨ws, hws, le_refl ws, by rw [hc2, hrn_eq]⟩
    obtain ⟨j, hj1, hj2, hceq⟩ := hcform
    have hcin : inBounds m c.x c.y = true := by
      rw [hceq]
      exact hcb j hj2
    have h1 : ReachIn (corrP m2) ⟨a, b⟩ ⟨c.x, c.y⟩ :=
      reach_center_box (corrP m2) m c cs hcs
        (fun a2 b2 hin2 hrect2 => hcov c hcmem a2 b2 hin2 hrect2) hcin hin hrect
    have h2 : ReachIn (corrP m2) current ⟨c.x, c.y⟩ := by
      have h := reach_chain (corrP m2) current sx sy hunit (hcorrP_mono current hcur) j
        (fun i hi1 hi2 => hcenterP i hi1 (le_trans hi2 hj2))
      rw [hceq]
      exact h
    have h0 : ReachIn (corrP m2) start current := by
      have hc0 : ReachIn (corrP m) start ⟨current.x, current.y⟩ :=
        hreach current.x current.y hcur
      have heta : (⟨current.x, current.y⟩ : Point) = current := rfl
      rw [heta] at hc0
      exact hc0.mono hcorrP_mono
    exact (h0.trans h2).trans h1.symm

/-- The carving block of one loop iteration, for the actually chosen
neighbor: `Math.sign` of the coordinate differences gives a unit axis
direction, and the carve keeps corridors connected to `start`. -/
theorem maze_step_reach (ws cs : Nat) (hws : 1 ≤ ws) (hcs : 1 ≤ cs)
    (m : GameMap) (current start : Point)
    (hcur : corrP m current)
    (hreach : ∀ a b : Int, tileD m a b = some TileType.corridor →
      ReachIn (corrP m) start ⟨a, b⟩)
    {rn : Point}
    (hrn : rn ∈ getUnvisitedNeighbors current.x current.y m (ws : Int) [TileType.wall]) :
    (∀ a b : Int, tileD m a b = some TileType.corridor →
        tileD (carveRects cs (chainCenters current (rn.x - current.x).sign
          (rn.y - current.y).sign ws ++ [rn]) m) a b = some TileType.corridor) ∧
    corrP (carveRects cs (chainCenters current (rn.x - current.x).sign
      (rn.y - current.y).sign ws ++ [rn]) m) rn ∧
    (∀ a b : Int, tileD (carveRects cs (chainCenters current (rn.x - current.x).sign
        (rn.y - current.y).sign ws ++ [rn]) m) a b = some TileType.corridor →
      ReachIn (corrP (carveRects cs (chainCenters current (rn.x - current.x).sign
        (rn.y - current.y).sign ws ++ [rn]) m)) start ⟨a, b⟩) := by
  obtain ⟨hwall, hpos⟩ := mem_getUnvisitedNeighbors hrn
  have hrn_in : inBounds m rn.x rn.y = true := tileIn_tileD_inBounds m _ _ _ hwall
  rcases hpos with hp | hp | hp | hp
  · have hsx : (rn.x - current.x).sign = 0 := by
      rw [hp]
      show (current.x - current.x).sign = 0
      rw [sub_self]
      exact Int.sign_zero
    have hsy : (rn.y - current.y).sign = -1 := by
      rw [hp]
      show (current.y - (ws : Int) - current.y).sign = -1
      rw [Int.sign_eq_neg_one_iff_neg]
      omega
    rw [hsx, hsy]
    refine maze_carve_reach ws cs hws hcs m current start 0 (-1)
      (Or.inl ⟨rfl, Or.inr rfl⟩) hcur hreach rn ?_ hrn_in
    rw [hp]
    simp only [Point.mk.injEq]
    constructor <;> ring
  · have hsx : (rn.x - current.x).sign = 1 := by
      rw [hp]
      show (current.x + (ws : Int) - current.x).sign = 1
      rw [Int.sign_eq_one_iff_pos]
      omega
    have hsy : (rn.y - current.y).sign = 0 := by
      rw [hp]
      show (current.y - current.y).sign = 0
      rw [sub_self]
      exact Int.sign_zero
    rw [hsx, hsy]
    refine maze_carve_reach ws cs hws hcs m current start 1 0
      (Or.inr ⟨rfl, Or.inl rfl⟩) hcur hreach rn ?_ hrn_in
    rw [hp]
    simp only [Point.mk.injEq]
    constructor <;> ring
  · have hsx : (rn.x - current.x).sign = 0 := by
      rw [hp]
      show (current.x - current.x).sign = 0
      rw [sub_self]
      exact Int.sign_zero
    have hsy : (rn.y - current.y).sign = 1 := by
      rw [hp]
      show (current.y + (ws : Int) - current.y).sign = 1
      rw [Int.sign_eq_one_iff_pos]
      omega
    rw [hsx, hsy]
    refine maze_carve_reach ws cs hws hcs m current start 0 1
      (Or.inl ⟨rfl, Or.inl rfl⟩) hcur hreach rn ?_ hrn_in
    rw [hp]
    simp only [Point.mk.injEq]
    constructor <;> ring
  · have hsx : (rn.x - current.x).sign = -1 := by
      rw [hp]
      show (current.x - (ws : Int) - current.x).sign = -1
      rw [Int.sign_eq_neg_one_iff_neg]
      omega
    have hsy : (rn.y - current.y).sign = 0 := by
      rw [hp]
      show (current.y - current.y).sign = 0
      rw [sub_self]
      exact Int.sign_zero
    rw [hsx, hsy]
    refine maze_carve_reach ws cs hws hcs m current start (-1) 0
      (Or.inr ⟨rfl, Or.inr rfl⟩) hcur hreach rn ?_ hrn_in
    rw [hp]
    simp only [Point.mk.injEq]
    constructor <;> ring

/-- Loop invariant of the maze carving loop: with every stack entry a
corridor and every corridor reachable from `start`, the final grid keeps
every corridor reachable from `start`. -/
theorem mazeLoop_reach (ws cs : Nat) (hws : 1 ≤ ws) (hcs : 1 ≤ cs) (rand : Nat → Nat)
    (start : Point) :
    ∀ (fuel : Nat) (m : GameMap) (stack : List Point),
      (∀ p ∈ stack, corrP m p) →
      (∀ a b : Int, tileD m a b = some TileType.corridor →
        ReachIn (corrP m) start ⟨a, b⟩) →
      ∀ a b : Int, tileD (mazeLoop ws cs rand fuel m stack) a b = some TileType.corridor →
        ReachIn (corrP (mazeLoop ws cs rand fuel m stack)) start ⟨a, b⟩ := by
  intro fuel
  induction fuel with
  | zero =>
    intro m stack _ hreach a b hab
    exact hreach a b hab
  | succ fuel ih =>
    intro m stack hstack hreach a b
    cases stack with
    | nil => exact hreach a b
    | cons current rest =>
      simp only [mazeLoop]
      by_cases hlen : (getUnvisitedNeighbors current.x current.y m (ws : Int)
          [TileType.wall]).length = 0
      · rw [if_pos hlen]
        exact ih m rest (fun p hp => hstack p (List.mem_cons_of_mem _ hp)) hreach a b
      · rw [if_neg hlen]
        have hrn_mem : (getUnvisitedNeighbors current.x current.y m (ws : Int)
              [TileType.wall]).getD
            (rand fuel % (getUnvisitedNeighbors current.x current.y m (ws : Int)
              [TileType.wall]).length) ⟨0, 0⟩ ∈
            getUnvisitedNeighbors current.x current.y m (ws : Int) [TileType.wall] :=
          getD_mem _ (Nat.mod_lt _ (Nat.pos_of_ne_zero hlen))
        obtain ⟨hmono, hrnP, hreach2⟩ := maze_step_reach ws cs hws hcs m current start
          (hstack current (List.mem_cons_self _ _)) hreach hrn_mem
        refine ih _ _ ?_ hreach2 a b
        intro p hp
        rcases List.mem_cons.1 hp with rfl | hp2
        · exact hrnP
        · rcases List.mem_cons.1 hp2 with rfl | hp3
          · exact hmono p.x p.y (hstack p (List.mem_cons_self _ _))
          · exact hmono p.x p.y (hstack p (List.mem_cons_of_mem _ hp3))

/-- The initial carve of `generateMaze`: the start tile is a corridor and
every corridor of the freshly carved start rectangle reaches the start. -/
theorem maze_init_reach (W H cs : Nat) (hcs : 1 ≤ cs)
    (hW : cs / 2 < W) (hH : cs / 2 < H) :
    corrP (createCorridorRectangle (createGameMap W H (some TileType.wall))
        ((cs / 2 : Nat) : Int) ((cs / 2 : Nat) : Int) cs .corridor none)
      ⟨((cs / 2 : Nat) : Int), ((cs / 2 : Nat) : Int)⟩ ∧
    (∀ a b : Int,
      tileD (createCorridorRectangle (createGameMap W H (some TileType.wall))
          ((cs / 2 : Nat) : Int) ((cs / 2 : Nat) : Int) cs .corridor none) a b =
        some TileType.corridor →
      ReachIn (corrP (createCorridorRectangle (createGameMap W H (some TileType.wall))
          ((cs / 2 : Nat) : Int) ((cs / 2 : Nat) : Int) cs .corridor none))
        ⟨((cs / 2 : Nat) : Int), ((cs / 2 : Nat) : Int)⟩ ⟨a, b⟩) := by
  have hstart_in : inBounds (createGameMap W H (some TileType.wall))
      ((cs / 2 : Nat) : Int) ((cs / 2 : Nat) : Int) = true := by
    refine (inBounds_iff _ _ _).2 ?_
    show (0 : Int) ≤ ((cs / 2 : Nat) : Int) ∧ ((cs / 2 : Nat) : Int) < (W : Int) ∧
      (0 : Int) ≤ ((cs / 2 : Nat) : Int) ∧ ((cs / 2 : Nat) : Int) < (H : Int)
    omega
  have hwallonly : ∀ a b : Int,
      tileD (createGameMap W H (some TileType.wall)) a b ≠ some TileType.corridor := by
    intro a b h
    unfold tileD at h
    by_cases hb : inBounds (createGameMap W H (some TileType.wall)) a b = true
    · rw [if_pos hb] at h
      cases h
    · rw [if_neg hb] at h
      cases h
  have hcov1 : ∀ a b : Int, inBounds (createGameMap W H (some TileType.wall)) a b = true →
      inRect ⟨((cs / 2 : Nat) : Int), ((cs / 2 : Nat) : Int)⟩ cs a b →
      corrP (createCorridorRectangle (createGameMap W H (some TileType.wall))
          ((cs / 2 : Nat) : Int) ((cs / 2 : Nat) : Int) cs .corridor none) ⟨a, b⟩ :=
    fun a b h1 h2 =>
      (tileD_carveRect (createGameMap W H (some TileType.wall))
          ⟨((cs / 2 : Nat) : Int), ((cs / 2 : Nat) : Int)⟩ cs a b).2 (Or.inr ⟨h1, h2⟩)
  refine ⟨hcov1 _ _ hstart_in (inRect_self _ cs hcs), ?_⟩
  intro a b hab
  have hab2 := (tileD_carveRect (createGameMap W H (some TileType.wall))
      ⟨((cs / 2 : Nat) : Int), ((cs / 2 : Nat) : Int)⟩ cs a b).1 hab
  rcases hab2 with hold | ⟨hin, hrect⟩
  · exact absurd hold (hwallonly a b)
  · exact (reach_center_box _ (createGameMap W H (some TileType.wall))
      ⟨((cs / 2 : Nat) : Int), ((cs / 2 : Nat) : Int)⟩ cs hcs hcov1 hstart_in hin hrect).symm

/-- C2: for every admissible `wallStep ≥ 1` and `corridorStep ≥ 1` (and
every width, height, random stream and loop fuel), every corridor tile of
the grid returned by `generateMaze` is reachable from the start point
`(⌊corridorStep/2⌋, ⌊corridorStep/2⌋)` by 4-connected steps that stay on
corridor tiles; in particular there is no isolated corridor tile. -/
theorem generateMaze_connected (width height ws cs : Nat) (rand : Nat → Nat) (fuel : Nat)
    (hws : 1 ≤ ws) (hcs : 1 ≤ cs) (a b : Int)
    (hcorr : tileD (generateMaze width height ws cs rand fuel) a b = some TileType.corridor) :
    ReachIn (fun p => tileD (generateMaze width height ws cs rand fuel) p.x p.y =
        some TileType.corridor)
      ⟨((cs / 2 : Nat) : Int), ((cs / 2 : Nat) : Int)⟩ ⟨a, b⟩ := by
  have hinit := maze_init_reach ((width / ws + 1) * ws + cs) ((height / ws + 1) * ws + cs)
    cs hcs (by omega) (by omega)
  exact mazeLoop_reach ws cs hws hcs rand
    ⟨((cs / 2 : Nat) : Int), ((cs / 2 : Nat) : Int)⟩ fuel
    (createCorridorRectangle
      (createGameMap ((width / ws + 1) * ws + cs) ((height / ws + 1) * ws + cs)
        (some TileType.wall))
      ((cs / 2 : Nat) : Int) ((cs / 2 : Nat) : Int) cs .corridor none)
    [⟨((cs / 2 : Nat) : Int), ((cs / 2 : Nat) : Int)⟩]
    (by
      intro p hp
      rw [List.mem_singleton] at hp
      rw [hp]
      exact hinit.1)
    hinit.2 a b hcorr

set_option maxRecDepth 40000 in
/-- Witness for C2 at a concrete instance: a 4x4 maze (width = height = 2,
wallStep = corridorStep = 1) carved with the constant random stream; the
corner tile (3, 3) is a corridor and is reachable from the start (0, 0). -/
theorem generateMaze_connected_witness :
    tileD (generateMaze 2 2 1 1 (fun _ => 0) 40) 3 3 = some TileType.corridor ∧
    ReachIn (fun p => tileD (generateMaze 2 2 1 1 (fun _ => 0) 40) p.x p.y =
        some TileType.corridor) ⟨0, 0⟩ ⟨3, 3⟩ :=
  ⟨by decide, generateMaze_connected 2 2 1 1 (fun _ => 0) 40 (by decide) (by decide) 3 3
    (by decide)⟩

/-! ## Connectivity-repair analysis (flood fill, cluster scan, `connectClusters`) -/

/-- The scan condition of `findIsolatedClusters`: the raw tile is
corridor, room or room-origin. -/
def trav (m : GameMap) (a b : Int) : Prop :=
  m.tiles a b = some TileType.corridor ∨ m.tiles a b = some TileType.room ∨
    m.tiles a b = some TileType.roomOrigin

/-- A cell the flood fill may stand on: in bounds and not a wall. -/
def nonWallP (m : GameMap) (p : Point) : Prop :=
  inBounds m p.x p.y = true ∧ ¬ m.tiles p.x p.y = some TileType.wall

/-- Connectivity through in-bounds non-wall tiles (the relation the flood
fill of `findIsolatedClusters` explores). -/
def Conn (m : GameMap) (p q : Point) : Prop :=
  ReachIn (nonWallP m) p q

theorem trav_nonWall {m : GameMap} {a b : Int} (h : trav m a b)
    (hin : inBounds m a b = true) : nonWallP m ⟨a, b⟩ := by
  refine ⟨hin, ?_⟩
  rcases h with h | h | h <;> rw [h] <;> intro hc <;> cases hc

theorem floodFill_visited_mono (m : GameMap) :
    ∀ (fuel : Nat) (st : (Int → Int → Bool) × List Point) (x y a b : Int),
      st.1 a b = true → (floodFill m fuel st x y).1 a b = true := by
  intro fuel
  induction fuel with
  | zero => intro st x y a b h; exact h
  | succ fuel ih =>
    intro st x y a b h
    rw [floodFill]
    split
    · exact h
    · have hfold : ∀ (ps : List Point) (st2 : (Int → Int → Bool) × List Point),
          st2.1 a b = true →
          (ps.foldl (fun st2 nb => floodFill m fuel st2 nb.x nb.y) st2).1 a b = true := by
        intro ps
        induction ps with
        | nil => intro st2 h2; exact h2
        | cons p ps ihp =>
          intro st2 h2
          exact ihp _ (ih st2 p.x p.y a b h2)
      refine hfold _ _ ?_
      show (if a = x ∧ b = y then true else st.1 a b) = true
      split
      · rfl
      · exact h

theorem floodFill_cluster_mono (m : GameMap) :
    ∀ (fuel : Nat) (st : (Int → Int → Bool) × List Point) (x y : Int) (q : Point),
      q ∈ st.2 → q ∈ (floodFill m fuel st x y).2 := by
  intro fuel
  induction fuel with
  | zero => intro st x y q h; exact h
  | succ fuel ih =>
    intro st x y q h
    rw [floodFill]
    split
    · exact h
    · have hfold : ∀ (ps : List Point) (st2 : (Int → Int → Bool) × List Point),
          q ∈ st2.2 →
          q ∈ (ps.foldl (fun st2 nb => floodFill m fuel st2 nb.x nb.y) st2).2 := by
        intro ps
        induction ps with
        | nil => intro st2 h2; exact h2
        | cons p ps ihp =>
          intro st2 h2
          exact ihp _ (ih st2 p.x p.y q h2)
      refine hfold _ _ ?_
      show q ∈ st.2 ++ [(⟨x, y⟩ : Point)]
      exact List.mem_append.2 (Or.inl h)

theorem ReachIn_first {P : Point → Prop} {s t : Point} (h : ReachIn P s t) (ht : P t) :
    P s := by
  rcases Relation.ReflTransGen.cases_head h with rfl | ⟨r, hsr, _⟩
  · exact ht
  · exact hsr.1

theorem floodFold_visited_mono (m : GameMap) (fuel : Nat) :
    ∀ (ps : List Point) (st : (Int → Int → Bool) × List Point) (a b : Int),
      st.1 a b = true →
      (ps.foldl (fun st2 nb => floodFill m fuel st2 nb.x nb.y) st).1 a b = true := by
  intro ps
  induction ps with
  | nil => intro st a b h; exact h
  | cons p ps ihp =>
    intro st a b h
    exact ihp _ a b (floodFill_visited_mono m fuel st p.x p.y a b h)

/-- A flood-fill call with positive fuel at an in-bounds non-wall cell
leaves that cell visited. -/
theorem floodFill_visits (m : GameMap) (fuel : Nat)
    (st : (Int → Int → Bool) × List Point) (x y : Int) (hf : 1 ≤ fuel)
    (hnw : ¬ m.tiles x y = some TileType.wall) (hin : inBounds m x y = true) :
    (floodFill m fuel st x y).1 x y = true := by
  cases fuel with
  | zero => omega
  | succ fuel =>
    rw [floodFill]
    split
    · next hguard =>
      rcases hguard with hv | hw
      · exact hv
      · unfold tileD at hw
        rw [if_pos hin] at hw
        exact absurd hw hnw
    · refine floodFold_visited_mono m fuel _ _ x y ?_
      show (if x = x ∧ y = y then true else st.1 x y) = true
      rw [if_pos ⟨rfl, rfl⟩]

/-- Soundness of the flood fill: every cell it marks was already visited
or is an in-bounds non-wall cell connected to the call cell. -/
theorem floodFill_visited_sound (m : GameMap) :
    ∀ (fuel : Nat) (st : (Int → Int → Bool) × List Point) (x y : Int),
      inBounds m x y = true →
      ∀ a b : Int, (floodFill m fuel st x y).1 a b = true →
        st.1 a b = true ∨ (nonWallP m ⟨a, b⟩ ∧ Conn m ⟨x, y⟩ ⟨a, b⟩) := by
  intro fuel
  induction fuel with
  | zero => intro st x y _ a b h; exact Or.inl h
  | succ fuel ih =>
    intro st x y hin a b
    rw [floodFill]
    split
    · intro h; exact Or.inl h
    · next hguard =>
      push_neg at hguard
      have hnwxy : nonWallP m ⟨x, y⟩ := by
        refine ⟨hin, ?_⟩
        have := hguard.2
        unfold tileD at this
        rw [if_pos hin] at this
        exact this
      have hnb : ∀ p ∈ getNeighbors x y m, inBounds m p.x p.y = true ∧
          (nonWallP m p → Conn m ⟨x, y⟩ p) := by
        intro p hp
        have hmem := (mem_getNeighbors m x y p).1 hp
        refine ⟨hmem.1, fun hnwp => ?_⟩
        refine ReachIn.step hnwxy ?_ ?_
        · have : p = (⟨p.x, p.y⟩ : Point) := rfl
          exact hnwp
        · rcases hmem.2 with ⟨h1, h2⟩ | ⟨h1, h2⟩ | ⟨h1, h2⟩ | ⟨h1, h2⟩ <;>
            unfold adjacent <;> dsimp only <;> omega
      have hfold : ∀ (ps : List Point), (∀ p ∈ ps, inBounds m p.x p.y = true ∧
            (nonWallP m p → Conn m ⟨x, y⟩ p)) →
          ∀ (st2 : (Int → Int → Bool) × List Point),
          (∀ a b : Int, st2.1 a b = true →
            st.1 a b = true ∨ (nonWallP m ⟨a, b⟩ ∧ Conn m ⟨x, y⟩ ⟨a, b⟩)) →
          ∀ a b : Int,
            (ps.foldl (fun st2 nb => floodFill m fuel st2 nb.x nb.y) st2).1 a b = true →
            st.1 a b = true ∨ (nonWallP m ⟨a, b⟩ ∧ Conn m ⟨x, y⟩ ⟨a, b⟩) := by
        intro ps
        induction ps with
        | nil => intro _ st2 hst2 a b h; exact hst2 a b h
        | cons p ps ihp =>
          intro hps st2 hst2 a b h
          refine ihp (fun r hr => hps r (List.mem_cons_of_mem _ hr)) _ ?_ a b h
          intro a2 b2 h2
          rcases ih st2 p.x p.y (hps p (List.mem_cons_self _ _)).1 a2 b2 h2 with h3 | ⟨h3, h4⟩
          · exact hst2 a2 b2 h3
          · have hnwp : nonWallP m p := by
              have : p = (⟨p.x, p.y⟩ : Point) := rfl
              rw [this]
              exact ReachIn_first h4 h3
            exact Or.inr ⟨h3, ((hps p (List.mem_cons_self _ _)).2 hnwp).trans h4⟩
      intro hres
      refine hfold _ hnb _ ?_ a b hres
      intro a2 b2 h2
      dsimp only at h2
      by_cases hup : a2 = x ∧ b2 = y
      · rw [if_pos hup] at h2
        obtain ⟨rfl, rfl⟩ := hup
        exact Or.inr ⟨hnwxy, ReachIn.refl⟩
      · rw [if_neg hup] at h2
        exact Or.inl h2

/-- The cluster list built by a flood-fill call holds exactly the old
entries plus the cells newly marked by the call. -/
theorem floodFill_cluster_iff (m : GameMap) :
    ∀ (fuel : Nat) (st : (Int → Int → Bool) × List Point) (x y : Int) (q : Point),
      q ∈ (floodFill m fuel st x y).2 ↔
        q ∈ st.2 ∨ ((floodFill m fuel st x y).1 q.x q.y = true ∧ st.1 q.x q.y = false) := by
  intro fuel
  induction fuel with
  | zero =>
    intro st x y q
    constructor
    · intro h; exact Or.inl h
    · rintro (h | ⟨h1, h2⟩)
      · exact h
      · have h1b : st.1 q.x q.y = true := h1
        rw [h1b] at h2
        cases h2
  | succ fuel ih =>
    intro st x y q
    rw [floodFill]
    split
    · constructor
      · intro h; exact Or.inl h
      · rintro (h | ⟨h1, h2⟩)
        · exact h
        · rw [h1] at h2; cases h2
    · next hguard =>
      push_neg at hguard
      have hfold : ∀ (ps : List Point) (st2 : (Int → Int → Bool) × List Point),
          (∀ a b : Int, st.1 a b = true → st2.1 a b = true) →
          (∀ r : Point, r ∈ st2.2 ↔ r ∈ st.2 ∨ (st2.1 r.x r.y = true ∧ st.1 r.x r.y = false)) →
          (∀ r : Point,
            r ∈ (ps.foldl (fun st2 nb => floodFill m fuel st2 nb.x nb.y) st2).2 ↔
              r ∈ st.2 ∨
              ((ps.foldl (fun st2 nb => floodFill m fuel st2 nb.x nb.y) st2).1 r.x r.y = true ∧
                st.1 r.x r.y = false)) := by
        intro ps
        induction ps with
        | nil => intro st2 _ hiff r; exact hiff r
        | cons p ps ihp =>
          intro st2 hmono hiff r
          refine ihp _ (fun a b h => floodFill_visited_mono m fuel st2 p.x p.y a b (hmono a b h))
            ?_ r
          intro r2
          rw [ih st2 p.x p.y r2, hiff r2]
          constructor
          · rintro ((h | ⟨h1, h2⟩) | ⟨h1, h2⟩)
            · exact Or.inl h
            · exact Or.inr ⟨floodFill_visited_mono m fuel st2 p.x p.y _ _ h1, h2⟩
            · refine Or.inr ⟨h1, ?_⟩
              by_cases hs : st.1 r2.x r2.y = true
              · exact absurd (hmono _ _ hs) (by rw [h2]; exact fun hc => Bool.noConfusion hc)
              · exact Bool.eq_false_iff.2 hs
          · rintro (h | ⟨h1, h2⟩)
            · exact Or.inl (Or.inl h)
            · by_cases hs : st2.1 r2.x r2.y = true
              · exact Or.inl (Or.inr ⟨hs, h2⟩)
              · exact Or.inr ⟨h1, Bool.eq_false_iff.2 hs⟩
      refine hfold _ _ ?_ ?_ q
      · intro a b h
        show (if a = x ∧ b = y then true else st.1 a b) = true
        split
        · rfl
        · exact h
      · intro r
        show r ∈ st.2 ++ [(⟨x, y⟩ : Point)] ↔ _
        rw [List.mem_append, List.mem_singleton]
        constructor
        · rintro (h | rfl)
          · exact Or.inl h
          · refine Or.inr ⟨?_, ?_⟩
            · show (if x = x ∧ y = y then true else st.1 x y) = true
              rw [if_pos ⟨rfl, rfl⟩]
            · exact Bool.eq_false_iff.2 hguard.1
        · rintro (h | ⟨h1, h2⟩)
          · exact Or.inl h
          · right
            have h1b : (if r.x = x ∧ r.y = y then true else st.1 r.x r.y) = true := h1
            by_cases hc : r.x = x ∧ r.y = y
            · have : r = (⟨r.x, r.y⟩ : Point) := rfl
              rw [this, hc.1, hc.2]
            · rw [if_neg hc] at h1b
              rw [h1b] at h2
              cases h2

/-- Number of in-bounds cells not yet visited — the termination measure
showing the scan's fuel `width * height + 1` is adequate. -/
def unvisitedCount (m : GameMap) (V : Int → Int → Bool) : Nat :=
  ((Finset.range m.width ×ˢ Finset.range m.height).filter
    (fun c => V ((c.1 : Nat) : Int) ((c.2 : Nat) : Int) = false)).card

theorem unvisitedCount_mono (m : GameMap) (V V2 : Int → Int → Bool)
    (h : ∀ a b : Int, V a b = true → V2 a b = true) :
    unvisitedCount m V2 ≤ unvisitedCount m V := by
  refine Finset.card_le_card (Finset.monotone_filter_right _ ?_)
  intro c hc
  by_cases hv : V ((c.1 : Nat) : Int) ((c.2 : Nat) : Int) = true
  · rw [h _ _ hv] at hc
    cases hc
  · exact Bool.eq_false_iff.2 hv

theorem unvisitedCount_le (m : GameMap) (V : Int → Int → Bool) :
    unvisitedCount m V ≤ m.width * m.height := by
  calc unvisitedCount m V ≤ (Finset.range m.width ×ˢ Finset.range m.height).card :=
        Finset.card_filter_le _ _
    _ = m.width * m.height := by
        rw [Finset.card_product, Finset.card_range, Finset.card_range]

theorem unvisitedCount_lt (m : GameMap) (V : Int → Int → Bool) (x y : Int)
    (hin : inBounds m x y = true) (hun : V x y = false) :
    unvisitedCount m (fun a b => if a = x ∧ b = y then true else V a b) <
      unvisitedCount m V := by
  obtain ⟨h1, h2, h3, h4⟩ := (inBounds_iff m x y).1 hin
  have hx : ((x.toNat : Nat) : Int) = x := by omega
  have hy : ((y.toNat : Nat) : Int) = y := by omega
  have hsub : (Finset.range m.width ×ˢ Finset.range m.height).filter
      (fun c => (fun a b => if a = x ∧ b = y then true else V a b)
        ((c.1 : Nat) : Int) ((c.2 : Nat) : Int) = false) ⊆
      (Finset.range m.width ×ˢ Finset.range m.height).filter
      (fun c => V ((c.1 : Nat) : Int) ((c.2 : Nat) : Int) = false) := by
    refine Finset.monotone_filter_right _ ?_
    intro c hc
    have hcb : (if ((c.1 : Nat) : Int) = x ∧ ((c.2 : Nat) : Int) = y then true
        else V ((c.1 : Nat) : Int) ((c.2 : Nat) : Int)) = false := hc
    by_cases hxy : ((c.1 : Nat) : Int) = x ∧ ((c.2 : Nat) : Int) = y
    · rw [if_pos hxy] at hcb
      cases hcb
    · rw [if_neg hxy] at hcb
      exact hcb
  refine Finset.card_lt_card ((Finset.ssubset_iff_of_subset hsub).2
    ⟨(x.toNat, y.toNat), ?_, ?_⟩)
  · rw [Finset.mem_filter, Finset.mem_product, Finset.mem_range, Finset.mem_range]
    refine ⟨⟨by omega, by omega⟩, ?_⟩
    show V ((x.toNat : Nat) : Int) ((y.toNat : Nat) : Int) = false
    rw [hx, hy]
    exact hun
  · intro hmem
    rw [Finset.mem_filter] at hmem
    have h5 : (if ((x.toNat : Nat) : Int) = x ∧ ((y.toNat : Nat) : Int) = y then true
        else V ((x.toNat : Nat) : Int) ((y.toNat : Nat) : Int)) = false := hmem.2
    rw [if_pos ⟨hx, hy⟩] at h5
    cases h5

/-- Fuel adequacy of the flood fill: with fuel exceeding the number of
unvisited in-bounds cells, every cell newly marked by a call ends with all
its non-wall neighbors marked as well. -/
theorem floodFill_closed (m : GameMap) :
    ∀ (fuel : Nat) (st : (Int → Int → Bool) × List Point) (x y : Int),
      inBounds m x y = true →
      unvisitedCount m st.1 + 1 ≤ fuel →
      ∀ a b : Int, (floodFill m fuel st x y).1 a b = true → st.1 a b = false →
        ∀ nb ∈ getNeighbors a b m, ¬ m.tiles nb.x nb.y = some TileType.wall →
          (floodFill m fuel st x y).1 nb.x nb.y = true := by
  intro fuel
  induction fuel with
  | zero => intro st x y _ hfu; omega
  | succ fuel ih =>
    intro st x y hin hfu
    rw [floodFill]
    split
    · intro a b h1 h2
      rw [h1] at h2
      cases h2
    · next hguard =>
      push_neg at hguard
      have hfu1 : unvisitedCount m
          (fun a b => if a = x ∧ b = y then true else st.1 a b) + 1 ≤ fuel := by
        have hlt := unvisitedCount_lt m st.1 x y hin (Bool.eq_false_iff.2 hguard.1)
        omega
      have hfold : ∀ (ps : List Point), (∀ p ∈ ps, inBounds m p.x p.y = true) →
          ∀ (st2 : (Int → Int → Bool) × List Point),
          (∀ a b : Int, (if a = x ∧ b = y then true else st.1 a b) = true →
            st2.1 a b = true) →
          (∀ a b : Int, st2.1 a b = true → st.1 a b = false →
            ∀ nb ∈ getNeighbors a b m, ¬ m.tiles nb.x nb.y = some TileType.wall →
              st2.1 nb.x nb.y = true ∨ (a = x ∧ b = y ∧ nb ∈ ps)) →
          ∀ a b : Int,
            (ps.foldl (fun st2 nb => floodFill m fuel st2 nb.x nb.y) st2).1 a b = true →
            st.1 a b = false →
            ∀ nb ∈ getNeighbors a b m, ¬ m.tiles nb.x nb.y = some TileType.wall →
              (ps.foldl (fun st2 nb => floodFill m fuel st2 nb.x nb.y) st2).1 nb.x nb.y
                = true := by
        intro ps
        induction ps with
        | nil =>
          intro _ st2 _ hpart a b h1 h2 nb hnb hnw
          rcases hpart a b h1 h2 nb hnb hnw with h | ⟨_, _, h⟩
          · exact h
          · cases h
        | cons p ps ihp =>
          intro hps st2 hmono hpart a b h1 h2 nb hnb hnw
          have hfu2 : unvisitedCount m st2.1 + 1 ≤ fuel := by
            have hm2 := unvisitedCount_mono m _ _ hmono
            omega
          refine ihp (fun r hr => hps r (List.mem_cons_of_mem _ hr)) _ ?_ ?_ a b h1 h2
            nb hnb hnw
          · intro a2 b2 h3
            exact floodFill_visited_mono m fuel st2 p.x p.y a2 b2 (hmono a2 b2 h3)
          · intro a2 b2 h3 h4 nb2 hnb2 hnw2
            by_cases h5 : st2.1 a2 b2 = true
            · rcases hpart a2 b2 h5 h4 nb2 hnb2 hnw2 with h6 | ⟨hax, hby, h6⟩
              · exact Or.inl (floodFill_visited_mono m fuel st2 p.x p.y _ _ h6)
              · rcases List.mem_cons.1 h6 with rfl | h7
                · refine Or.inl (floodFill_visits m fuel st2 nb2.x nb2.y (by omega) hnw2 ?_)
                  exact hps nb2 (List.mem_cons_self _ _)
                · exact Or.inr ⟨hax, hby, h7⟩
            · exact Or.inl (ih st2 p.x p.y (hps p (List.mem_cons_self _ _)) hfu2 a2 b2 h3
                (Bool.eq_false_iff.2 h5) nb2 hnb2 hnw2)
      intro a b h1 h2 nb hnb hnw
      refine hfold (getNeighbors x y m) (fun p hp => ((mem_getNeighbors m x y p).1 hp).1) _
        ?_ ?_ a b h1 h2 nb hnb hnw
      · intro a2 b2 h3
        exact h3
      · intro a2 b2 h3 h4 nb2 hnb2 hnw2
        by_cases hc : a2 = x ∧ b2 = y
        · refine Or.inr ⟨hc.1, hc.2, ?_⟩
          rw [hc.1, hc.2] at hnb2
          exact hnb2
        · have h3b : (if a2 = x ∧ b2 = y then true else st.1 a2 b2) = true := h3
          rw [if_neg hc] at h3b
          rw [h3b] at h4
          cases h4

/-- With an initially closed visited set and adequate fuel, the visited
set after a flood-fill call is again closed under non-wall neighbors. -/
theorem floodFill_result_closed (m : GameMap) (fuel : Nat)
    (st : (Int → Int → Bool) × List Point) (x y : Int)
    (hin : inBounds m x y = true)
    (hfu : unvisitedCount m st.1 + 1 ≤ fuel)
    (hclosed : ∀ a b : Int, st.1 a b = true → ∀ nb ∈ getNeighbors a b m,
      ¬ m.tiles nb.x nb.y = some TileType.wall → st.1 nb.x nb.y = true) :
    ∀ a b : Int, (floodFill m fuel st x y).1 a b = true →
      ∀ nb ∈ getNeighbors a b m, ¬ m.tiles nb.x nb.y = some TileType.wall →
        (floodFill m fuel st x y).1 nb.x nb.y = true := by
  intro a b h1 nb hnb hnw
  by_cases h2 : st.1 a b = true
  · exact floodFill_visited_mono m fuel st x y _ _ (hclosed a b h2 nb hnb hnw)
  · exact floodFill_closed m fuel st x y hin hfu a b h1 (Bool.eq_false_iff.2 h2) nb hnb hnw

/-- Completeness of the flood fill: with adequate fuel and a closed prior
visited set, every cell connected to the call cell gets marked. -/
theorem floodFill_complete (m : GameMap) (fuel : Nat)
    (st : (Int → Int → Bool) × List Point) (x y : Int)
    (hin : inBounds m x y = true)
    (hfu : unvisitedCount m st.1 + 1 ≤ fuel)
    (hclosed : ∀ a b : Int, st.1 a b = true → ∀ nb ∈ getNeighbors a b m,
      ¬ m.tiles nb.x nb.y = some TileType.wall → st.1 nb.x nb.y = true)
    (hnwxy : ¬ m.tiles x y = some TileType.wall) :
    ∀ q : Point, Conn m ⟨x, y⟩ q → (floodFill m fuel st x y).1 q.x q.y = true := by
  intro q hconn
  induction hconn with
  | refl => exact floodFill_visits m fuel st x y (by omega) hnwxy hin
  | @tail r q h1 h2 ih =>
    obtain ⟨hrnw, hqnw, hadj⟩ := h2
    refine floodFill_result_closed m fuel st x y hin hfu hclosed r.x r.y ih q ?_ hqnw.2
    refine (mem_getNeighbors m r.x r.y q).2 ⟨hqnw.1, ?_⟩
    unfold adjacent at hadj
    omega

theorem mem_scanCells (m : GameMap) (a b : Int) :
    (a, b) ∈ scanCells m ↔
      0 ≤ a ∧ a < (m.width : Int) ∧ 0 ≤ b ∧ b < (m.height : Int) := by
  unfold scanCells
  constructor
  · intro hmem
    obtain ⟨i, hi, hmem2⟩ := List.mem_flatMap.1 hmem
    obtain ⟨j, hj, hab⟩ := List.mem_map.1 hmem2
    rw [List.mem_range] at hi hj
    cases hab
    omega
  · rintro ⟨h1, h2, h3, h4⟩
    refine List.mem_flatMap.2 ⟨a.toNat, List.mem_range.2 (by omega),
      List.mem_map.2 ⟨b.toNat, List.mem_range.2 (by omega), ?_⟩⟩
    have hax : ((a.toNat : Nat) : Int) = a := by omega
    have hby : ((b.toNat : Nat) : Int) = b := by omega
    rw [hax, hby]

theorem ficStep_visited_mono (m : GameMap) (st : (Int → Int → Bool) × List (List Point))
    (c : Int × Int) (a b : Int) (h : st.1 a b = true) :
    (ficStep m st c).1 a b = true := by
  unfold ficStep
  split
  · exact floodFill_visited_mono m _ (st.1, []) c.1 c.2 a b h
  · exact h

theorem ficFold_visited_mono (m : GameMap) :
    ∀ (L : List (Int × Int)) (st : (Int → Int → Bool) × List (List Point)) (a b : Int),
      st.1 a b = true → (L.foldl (ficStep m) st).1 a b = true := by
  intro L
  induction L with
  | nil => intro st a b h; exact h
  | cons c L ih =>
    intro st a b h
    exact ih _ a b (ficStep_visited_mono m st c a b h)

/-- Every traversable scan cell ends up visited. -/
theorem ficFold_coverage (m : GameMap) :
    ∀ (L : List (Int × Int)) (st : (Int → Int → Bool) × List (List Point))
      (c : Int × Int), c ∈ L → inBounds m c.1 c.2 = true → trav m c.1 c.2 →
      (L.foldl (ficStep m) st).1 c.1 c.2 = true := by
  intro L
  induction L with
  | nil => intro st c h; cases h
  | cons d L ih =>
    intro st c hmem hin htr
    rcases List.mem_cons.1 hmem with rfl | h2
    · refine ficFold_visited_mono m L _ c.1 c.2 ?_
      unfold ficStep
      split
      · next hcond =>
        refine floodFill_visits m _ (st.1, []) c.1 c.2 (by omega) ?_ hin
        exact (trav_nonWall htr hin).2
      · next hcond =>
        rw [not_and_or] at hcond
        rcases hcond with h3 | h3
        · simpa using h3
        · exact absurd htr h3
    · exact ih _ c h2 hin htr

/-- The scan invariant of `findIsolatedClusters`: all recorded cluster
cells are in-bounds non-wall tiles, clusters are internally connected,
every visited cell belongs to a recorded cluster, and the visited set is
closed under non-wall neighbors. -/
def ficInv (m : GameMap) (st : (Int → Int → Bool) × List (List Point)) : Prop :=
  (∀ cl ∈ st.2, ∀ p ∈ cl, nonWallP m p) ∧
  (∀ cl ∈ st.2, ∀ p q : Point, p ∈ cl → q ∈ cl → Conn m p q) ∧
  (∀ a b : Int, st.1 a b = true → ∃ cl ∈ st.2, (⟨a, b⟩ : Point) ∈ cl) ∧
  (∀ a b : Int, st.1 a b = true → ∀ nb ∈ getNeighbors a b m,
    ¬ m.tiles nb.x nb.y = some TileType.wall → st.1 nb.x nb.y = true)

theorem ficStep_inv (m : GameMap) (st : (Int → Int → Bool) × List (List Point))
    (c : Int × Int) (hin : inBounds m c.1 c.2 = true) (hI : ficInv m st) :
    ficInv m (ficStep m st c) := by
  obtain ⟨hI1, hI2, hI3, hI4⟩ := hI
  unfold ficStep
  split
  · next hcond =>
    dsimp only
    have hnw : ¬ m.tiles c.1 c.2 = some TileType.wall := (trav_nonWall hcond.2 hin).2
    have hfu : unvisitedCount m (st.1, ([] : List Point)).1 + 1 ≤ m.width * m.height + 1 := by
      have := unvisitedCount_le m st.1
      show unvisitedCount m st.1 + 1 ≤ m.width * m.height + 1
      omega
    have hsound := floodFill_visited_sound m (m.width * m.height + 1) (st.1, []) c.1 c.2 hin
    have hcl := floodFill_cluster_iff m (m.width * m.height + 1) (st.1, []) c.1 c.2
    refine ⟨?_, ?_, ?_, ?_⟩
    · intro cl hclm p hp
      split at hclm
      · rcases List.mem_append.1 hclm with h | h
        · exact hI1 cl h p hp
        · rw [List.mem_singleton] at h
          subst h
          rcases (hcl p).1 hp with h2 | ⟨h2, h3⟩
          · cases h2
          · rcases hsound p.x p.y h2 with h4 | ⟨h4, _⟩
            · rw [(rfl : (st.1, ([] : List Point)).1 = st.1)] at h4
              rw [h4] at h3
              cases h3
            · exact h4
      · exact hI1 cl hclm p hp
    · intro cl hclm p q hp hq
      split at hclm
      · rcases List.mem_append.1 hclm with h | h
        · exact hI2 cl h p q hp hq
        · rw [List.mem_singleton] at h
          subst h
          have hcp : Conn m ⟨c.1, c.2⟩ p := by
            rcases (hcl p).1 hp with h2 | ⟨h2, h3⟩
            · cases h2
            · rcases hsound p.x p.y h2 with h4 | ⟨_, h5⟩
              · rw [(rfl : (st.1, ([] : List Point)).1 = st.1)] at h4
                rw [h4] at h3
                cases h3
              · exact h5
          have hcq : Conn m ⟨c.1, c.2⟩ q := by
            rcases (hcl q).1 hq with h2 | ⟨h2, h3⟩
            · cases h2
            · rcases hsound q.x q.y h2 with h4 | ⟨_, h5⟩
              · rw [(rfl : (st.1, ([] : List Point)).1 = st.1)] at h4
                rw [h4] at h3
                cases h3
              · exact h5
          exact hcp.symm.trans hcq
      · exact hI2 cl hclm p q hp hq
    · intro a b hv
      by_cases hb : st.1 a b = true
      · obtain ⟨cl, hclm, hpm⟩ := hI3 a b hb
        refine ⟨cl, ?_, hpm⟩
        split
        · exact List.mem_append.2 (Or.inl hclm)
        · exact hclm
      · have hmem : (⟨a, b⟩ : Point) ∈
            (floodFill m (m.width * m.height + 1) (st.1, []) c.1 c.2).2 :=
          (hcl ⟨a, b⟩).2 (Or.inr ⟨hv, Bool.eq_false_iff.2 hb⟩)
        split
        · next hlen =>
          exact ⟨_, List.mem_append.2 (Or.inr (List.mem_singleton.2 rfl)), hmem⟩
        · next hlen =>
          exfalso
          have : (floodFill m (m.width * m.height + 1) (st.1, []) c.1 c.2).2 = [] := by
            cases hh : (floodFill m (m.width * m.height + 1) (st.1, []) c.1 c.2).2 with
            | nil => rfl
            | cons u us => exact absurd (by rw [hh]; simp) hlen
          rw [this] at hmem
          cases hmem
    · intro a b hv nb hnb hnw2
      exact floodFill_result_closed m (m.width * m.height + 1) (st.1, []) c.1 c.2 hin hfu
        hI4 a b hv nb hnb hnw2
  · exact ⟨hI1, hI2, hI3, hI4⟩

theorem ficFold_inv (m : GameMap) :
    ∀ (L : List (Int × Int)), (∀ c ∈ L, inBounds m c.1 c.2 = true) →
      ∀ (st : (Int → Int → Bool) × List (List Point)), ficInv m st →
        ficInv m (L.foldl (ficStep m) st) := by
  intro L
  induction L with
  | nil => intro _ st h; exact h
  | cons c L ih =>
    intro hL st h
    exact ih (fun d hd => hL d (List.mem_cons_of_mem _ hd)) _
      (ficStep_inv m st c (hL c (List.mem_cons_self _ _)) h)

/-- Soundness of `findIsolatedClusters`: cluster cells are in-bounds
non-wall tiles, each cluster is internally connected, and every in-bounds
traversable tile belongs to some cluster. -/
theorem findIsolatedClusters_sound (m : GameMap) :
    (∀ cl ∈ findIsolatedClusters m, ∀ p ∈ cl, nonWallP m p) ∧
    (∀ cl ∈ findIsolatedClusters m, ∀ p q : Point, p ∈ cl → q ∈ cl → Conn m p q) ∧
    (∀ a b : Int, inBounds m a b = true → trav m a b →
      ∃ cl ∈ findIsolatedClusters m, (⟨a, b⟩ : Point) ∈ cl) := by
  have hL : ∀ c ∈ scanCells m, inBounds m c.1 c.2 = true := by
    intro c hc
    obtain ⟨c1, c2⟩ := c
    rw [mem_scanCells] at hc
    exact (inBounds_iff m c1 c2).2 hc
  have hinv := ficFold_inv m (scanCells m) hL (fun _ _ => false, [])
    ⟨fun cl hcl => absurd hcl (List.not_mem_nil cl),
     fun cl hcl => absurd hcl (List.not_mem_nil cl),
     fun a b h => Bool.noConfusion h,
     fun a b h => Bool.noConfusion h⟩
  obtain ⟨h1, h2, h3, _⟩ := hinv
  refine ⟨h1, h2, ?_⟩
  intro a b hin htr
  have hvis : ((scanCells m).foldl (ficStep m) (fun _ _ => false, [])).1 a b = true := by
    refine ficFold_coverage m (scanCells m) _ (a, b) ?_ hin htr
    rw [mem_scanCells]
    exact (inBounds_iff m a b).1 hin
  exact h3 a b hvis

theorem ficFold_stable (m : GameMap) :
    ∀ (L : List (Int × Int)) (st : (Int → Int → Bool) × List (List Point)),
      (∀ a b : Int, inBounds m a b = true → trav m a b → st.1 a b = true) →
      (∀ c ∈ L, inBounds m c.1 c.2 = true) →
      L.foldl (ficStep m) st = st := by
  intro L
  induction L with
  | nil => intro st _ _; rfl
  | cons c L ih =>
    intro st hvis hL
    rw [List.foldl_cons]
    have hstep : ficStep m st c = st := by
      unfold ficStep
      rw [if_neg]
      rintro ⟨hc1, hc2⟩
      rw [hvis c.1 c.2 (hL c (List.mem_cons_self _ _)) hc2] at hc1
      cases hc1
    rw [hstep]
    exact ih st hvis (fun d hd => hL d (List.mem_cons_of_mem _ hd))

theorem ficFold_one (m : GameMap)
    (hconn : ∀ p q : Point, inBounds m p.x p.y = true → trav m p.x p.y →
      inBounds m q.x q.y = true → trav m q.x q.y → Conn m p q) :
    ∀ (L : List (Int × Int)), (∀ c ∈ L, inBounds m c.1 c.2 = true) →
      (∃ c ∈ L, trav m c.1 c.2) →
      (L.foldl (ficStep m) (fun _ _ => false, [])).2.length = 1 := by
  intro L
  induction L with
  | nil => rintro _ ⟨c, hc, _⟩; cases hc
  | cons c L ih =>
    intro hL hex
    by_cases htr : trav m c.1 c.2
    · have hin : inBounds m c.1 c.2 = true := hL c (List.mem_cons_self _ _)
      have hnw : ¬ m.tiles c.1 c.2 = some TileType.wall := (trav_nonWall htr hin).2
      have hcmem : (⟨c.1, c.2⟩ : Point) ∈
          (floodFill m (m.width * m.height + 1) ((fun _ _ => false), []) c.1 c.2).2 := by
        refine (floodFill_cluster_iff m _ _ c.1 c.2 ⟨c.1, c.2⟩).2 (Or.inr ⟨?_, rfl⟩)
        exact floodFill_visits m _ _ c.1 c.2 (by omega) hnw hin
      have hlen : (floodFill m (m.width * m.height + 1)
          ((fun _ _ => false), []) c.1 c.2).2.length > 0 := by
        cases hh : (floodFill m (m.width * m.height + 1)
            ((fun _ _ => false), []) c.1 c.2).2 with
        | nil => rw [hh] at hcmem; cases hcmem
        | cons u us => simp [hh]
      have hstep : ficStep m (fun _ _ => false, []) c =
          ((floodFill m (m.width * m.height + 1) ((fun _ _ => false), []) c.1 c.2).1,
           [(floodFill m (m.width * m.height + 1) ((fun _ _ => false), []) c.1 c.2).2]) := by
        unfold ficStep
        rw [if_pos ⟨rfl, htr⟩]
        dsimp only
        rw [if_pos hlen, List.nil_append]
      rw [List.foldl_cons, hstep]
      have hvis : ∀ a b : Int, inBounds m a b = true → trav m a b →
          (((floodFill m (m.width * m.height + 1) ((fun _ _ => false), []) c.1 c.2).1,
            [(floodFill m (m.width * m.height + 1)
              ((fun _ _ => false), []) c.1 c.2).2]) :
            (Int → Int → Bool) × List (List Point)).1 a b = true := by
        intro a b hain htrab
        show (floodFill m (m.width * m.height + 1)
          ((fun _ _ => false), []) c.1 c.2).1 a b = true
        have hfu : unvisitedCount m (((fun _ _ => false), ([] : List Point)) :
            (Int → Int → Bool) × List Point).1 + 1 ≤ m.width * m.height + 1 := by
          have := unvisitedCount_le m (fun _ _ => false)
          show unvisitedCount m (fun _ _ => false) + 1 ≤ m.width * m.height + 1
          omega
        exact floodFill_complete m _ ((fun _ _ => false), []) c.1 c.2 hin hfu
          (fun a2 b2 h => Bool.noConfusion h) hnw ⟨a, b⟩
          (hconn ⟨c.1, c.2⟩ ⟨a, b⟩ hin htr hain htrab)
      rw [ficFold_stable m L _ hvis (fun d hd => hL d (List.mem_cons_of_mem _ hd))]
      rfl
    · have hstep : ficStep m (fun _ _ => false, []) c = (fun _ _ => false, []) := by
        unfold ficStep
        rw [if_neg (fun hcond => htr hcond.2)]
      rw [List.foldl_cons, hstep]
      refine ih (fun d hd => hL d (List.mem_cons_of_mem _ hd)) ?_
      obtain ⟨d, hd, htrd⟩ := hex
      rcases List.mem_cons.1 hd with rfl | hd2
      · exact absurd htrd htr
      · exact ⟨d, hd2, htrd⟩

/-- With at least one in-bounds traversable tile and all traversable tiles
pairwise connected through non-wall tiles, the cluster scan returns
exactly one cluster. -/
theorem findIsolatedClusters_length_one (m : GameMap)
    (htrav : ∃ a b : Int, inBounds m a b = true ∧ trav m a b)
    (hconn : ∀ p q : Point, inBounds m p.x p.y = true → trav m p.x p.y →
      inBounds m q.x q.y = true → trav m q.x q.y → Conn m p q) :
    (findIsolatedClusters m).length = 1 := by
  unfold findIsolatedClusters
  obtain ⟨a, b, hin, htr⟩ := htrav
  refine ficFold_one m hconn (scanCells m) ?_ ⟨(a, b), ?_, htr⟩
  · intro c hc
    obtain ⟨c1, c2⟩ := c
    rw [mem_scanCells] at hc
    exact (inBounds_iff m c1 c2).2 hc
  · rw [mem_scanCells]
    exact (inBounds_iff m a b).1 hin

/-- Sequential corridor-rectangle carves that replace wall tiles only (the
carving primitive of `constructCorridor`). -/
def wallCarve (cs : Nat) (C : List Point) (m : GameMap) : GameMap :=
  C.foldl (fun acc c => createCorridorRectangle acc c.x c.y cs .corridor (some .wall)) m

theorem wallCarve_width (cs : Nat) (C : List Point) (m : GameMap) :
    (wallCarve cs C m).width = m.width := by
  unfold wallCarve
  exact foldl_preserves _ _
    (fun (acc : GameMap) (c : Point) => createCorridorRectangle_width acc c.x c.y cs _ _) _ _

theorem wallCarve_height (cs : Nat) (C : List Point) (m : GameMap) :
    (wallCarve cs C m).height = m.height := by
  unfold wallCarve
  exact foldl_preserves _ _
    (fun (acc : GameMap) (c : Point) => createCorridorRectangle_height acc c.x c.y cs _ _) _ _

instance (c : Point) (cs : Nat) (a b : Int) : Decidable (inRect c cs a b) := by
  unfold inRect
  exact inferInstance

/-- One wall-replacing rectangle: a cell is overwritten (with corridor)
exactly when it lies in the in-bounds part of the square and held a wall. -/
theorem wallRect_tiles (m : GameMap) (c : Point) (cs : Nat) (a b : Int) :
    (createCorridorRectangle m c.x c.y cs .corridor (some .wall)).tiles a b =
      if inRect c cs a b ∧ inBounds m a b = true ∧ m.tiles a b = some TileType.wall
      then some TileType.corridor else m.tiles a b := by
  rw [createCorridorRectangle_tiles]
  unfold inRect
  by_cases h1 : (c.x - ((cs / 2 : Nat) : Int) ≤ a ∧ a < c.x - ((cs / 2 : Nat) : Int) + cs ∧
      c.y - ((cs / 2 : Nat) : Int) ≤ b ∧ b < c.y - ((cs / 2 : Nat) : Int) + cs) ∧
      inBounds m a b = true ∧ m.tiles a b = some TileType.wall
  · rw [if_pos ⟨h1.1, h1.2.1, Or.inr h1.2.2⟩, if_pos h1]
  · rw [if_neg h1, if_neg]
    rintro ⟨g1, g2, g3 | g3⟩
    · cases g3
    · exact h1 ⟨g1, g2, g3⟩

theorem wallCarve_tiles_pres (cs : Nat) :
    ∀ (C : List Point) (m : GameMap) (a b : Int),
      ¬ m.tiles a b = some TileType.wall → (wallCarve cs C m).tiles a b = m.tiles a b := by
  intro C
  induction C with
  | nil => intro m a b _; rfl
  | cons c C ih =>
    intro m a b h
    show (wallCarve cs C (createCorridorRectangle m c.x c.y cs .corridor (some .wall))).tiles
      a b = m.tiles a b
    have h1 : (createCorridorRectangle m c.x c.y cs .corridor (some .wall)).tiles a b =
        m.tiles a b := by
      rw [wallRect_tiles]
      rw [if_neg (fun hc => h hc.2.2)]
    rw [ih _ a b (by rw [h1]; exact h), h1]

/-- Change characterization: a cell whose tile differs after the carve was
a wall inside one of the carved squares and is now a corridor. -/
theorem wallCarve_tiles_char (cs : Nat) :
    ∀ (C : List Point) (m : GameMap) (a b : Int),
      (wallCarve cs C m).tiles a b = m.tiles a b ∨
      (m.tiles a b = some TileType.wall ∧
        (wallCarve cs C m).tiles a b = some TileType.corridor ∧
        inBounds m a b = true ∧ ∃ c ∈ C, inRect c cs a b) := by
  intro C
  induction C with
  | nil => intro m a b; exact Or.inl rfl
  | cons c C ih =>
    intro m a b
    show (wallCarve cs C (createCorridorRectangle m c.x c.y cs .corridor (some .wall))).tiles
        a b = m.tiles a b ∨ _
    have hib : inBounds (createCorridorRectangle m c.x c.y cs .corridor (some .wall)) a b =
        inBounds m a b :=
      inBounds_eq_dims m _ (createCorridorRectangle_width m _ _ cs _ _)
        (createCorridorRectangle_height m _ _ cs _ _) a b
    rcases ih (createCorridorRectangle m c.x c.y cs .corridor (some .wall)) a b with h | h
    · rw [h, wallRect_tiles]
      by_cases h2 : inRect c cs a b ∧ inBounds m a b = true ∧
          m.tiles a b = some TileType.wall
      · rw [if_pos h2]
        refine Or.inr ⟨h2.2.2, ?_, h2.2.1, c, List.mem_cons_self _ _, h2.1⟩
        show (wallCarve cs C (createCorridorRectangle m c.x c.y cs .corridor
          (some .wall))).tiles a b = some TileType.corridor
        rw [h, wallRect_tiles, if_pos h2]
      · rw [if_neg h2]
        exact Or.inl rfl
    · obtain ⟨h1, h2, h3, d, hd1, hd2⟩ := h
      rw [wallRect_tiles] at h1
      rw [hib] at h3
      by_cases h4 : inRect c cs a b ∧ inBounds m a b = true ∧
          m.tiles a b = some TileType.wall
      · rw [if_pos h4] at h1
        cases h1
      · rw [if_neg h4] at h1
        exact Or.inr ⟨h1, h2, h3, d, List.mem_cons_of_mem _ hd1, hd2⟩

/-- Coverage: after the carve, an in-bounds cell of one of the carved
squares is never a wall. -/
theorem wallCarve_cover (cs : Nat) :
    ∀ (C : List Point) (m : GameMap) (c : Point), c ∈ C → ∀ a b : Int,
      inBounds m a b = true → inRect c cs a b →
      ¬ (wallCarve cs C m).tiles a b = some TileType.wall := by
  intro C
  induction C with
  | nil => intro m c h; cases h
  | cons d C ih =>
    intro m c hmem a b hin hrect
    rcases List.mem_cons.1 hmem with rfl | h2
    · show ¬ (wallCarve cs C (createCorridorRectangle m c.x c.y cs .corridor
          (some .wall))).tiles a b = some TileType.wall
      have h1 : ¬ (createCorridorRectangle m c.x c.y cs .corridor (some .wall)).tiles a b =
          some TileType.wall := by
        rw [wallRect_tiles]
        by_cases h2 : m.tiles a b = some TileType.wall
        · rw [if_pos ⟨hrect, hin, h2⟩]
          intro hc
          cases hc
        · rw [if_neg (fun hc => h2 hc.2.2)]
          exact h2
      rw [wallCarve_tiles_pres cs C _ a b h1]
      exact h1
    · show ¬ (wallCarve cs C (createCorridorRectangle m d.x d.y cs .corridor
          (some .wall))).tiles a b = some TileType.wall
      refine ih _ c h2 a b ?_ hrect
      rw [inBounds_eq_dims m _ (createCorridorRectangle_width m _ _ cs _ _)
        (createCorridorRectangle_height m _ _ cs _ _) a b]
      exact hin

/-- Centers of the horizontal carve of `constructHorizontal`. -/
def lineCentersH (y x1 x2 : Int) : List Point :=
  (List.range (max x1 x2 - min x1 x2 + 1).toNat).map
    fun (i : Nat) => (⟨min x1 x2 + (i : Int), y⟩ : Point)

/-- Centers of the vertical carve of `constructVertical`. -/
def lineCentersV (x y1 y2 : Int) : List Point :=
  (List.range (max y1 y2 - min y1 y2 + 1).toNat).map
    fun (i : Nat) => (⟨x, min y1 y2 + (i : Int)⟩ : Point)

theorem constructHorizontal_eq (m : GameMap) (s e : Point) (cs : Nat) :
    constructHorizontal m s e cs = wallCarve cs (lineCentersH s.y s.x e.x) m := by
  unfold constructHorizontal wallCarve lineCentersH
  rw [List.foldl_map, List.foldl_map]

theorem constructVertical_eq (m : GameMap) (s e : Point) (cs : Nat) :
    constructVertical m s e cs = wallCarve cs (lineCentersV s.x s.y e.y) m := by
  unfold constructVertical wallCarve lineCentersV
  rw [List.foldl_map, List.foldl_map]

/-- The centers carved by `constructCorridor`, in order. -/
def corridorCenters (s e : Point) (coin : Bool) : List Point :=
  if coin then lineCentersH s.y s.x e.x ++ lineCentersV e.x s.y e.y
  else lineCentersV s.x s.y e.y ++ lineCentersH e.y s.x e.x

theorem constructCorridor_eq (m : GameMap) (s e : Point) (cs : Nat) (coin : Bool) :
    constructCorridor m s e cs coin = wallCarve cs (corridorCenters s e coin) m := by
  unfold constructCorridor corridorCenters
  cases coin with
  | true =>
    rw [if_pos rfl, if_pos rfl]
    unfold wallCarve
    rw [List.foldl_append]
    rw [← wallCarve, ← wallCarve, constructHorizontal_eq, constructVertical_eq]
  | false =>
    rw [if_neg (by simp), if_neg (by simp)]
    unfold wallCarve
    rw [List.foldl_append]
    rw [← wallCarve, ← wallCarve, constructVertical_eq, constructHorizontal_eq]

theorem mem_lineCentersH (y x1 x2 : Int) (p : Point) :
    p ∈ lineCentersH y x1 x2 ↔ p.y = y ∧ min x1 x2 ≤ p.x ∧ p.x ≤ max x1 x2 := by
  unfold lineCentersH
  rw [List.mem_map]
  constructor
  · rintro ⟨i, hi, rfl⟩
    rw [List.mem_range] at hi
    refine ⟨rfl, ?_, ?_⟩
    · show min x1 x2 ≤ min x1 x2 + (i : Int)
      omega
    · show min x1 x2 + (i : Int) ≤ max x1 x2
      omega
  · rintro ⟨hy, h1, h2⟩
    refine ⟨(p.x - min x1 x2).toNat, List.mem_range.2 (by omega), ?_⟩
    have hx : min x1 x2 + (((p.x - min x1 x2).toNat : Nat) : Int) = p.x := by omega
    rw [hx, ← hy]

theorem mem_lineCentersV (x y1 y2 : Int) (p : Point) :
    p ∈ lineCentersV x y1 y2 ↔ p.x = x ∧ min y1 y2 ≤ p.y ∧ p.y ≤ max y1 y2 := by
  unfold lineCentersV
  rw [List.mem_map]
  constructor
  · rintro ⟨i, hi, rfl⟩
    rw [List.mem_range] at hi
    refine ⟨rfl, ?_, ?_⟩
    · show min y1 y2 ≤ min y1 y2 + (i : Int)
      omega
    · show min y1 y2 + (i : Int) ≤ max y1 y2
      omega
  · rintro ⟨hx, h1, h2⟩
    refine ⟨(p.y - min y1 y2).toNat, List.mem_range.2 (by omega), ?_⟩
    have hy : min y1 y2 + (((p.y - min y1 y2).toNat : Nat) : Int) = p.y := by omega
    rw [hy, ← hx]

theorem mem_stepRange (step : Nat) (bound : Int) :
    ∀ (fuel : Nat) (start q : Int), q ∈ stepRange start bound step fuel →
      start ≤ q ∧ q < bound := by
  intro fuel
  induction fuel with
  | zero => intro start q h; cases h
  | succ fuel ih =>
    intro start q h
    rw [stepRange] at h
    split at h
    · rcases List.mem_cons.1 h with rfl | h2
      · next hlt => exact ⟨le_refl q, hlt⟩
      · have := ih (start + step) q h2
        omega
    · cases h

/-- Membership in `getIntersectionsInCluster`: an intersection point
belongs to the cluster, holds a traversable tile, and is in bounds. -/
theorem mem_getIntersectionsInCluster {m : GameMap} {cluster : List Point} {ws cs : Nat}
    {p : Point} (h : p ∈ getIntersectionsInCluster m cluster ws cs) :
    p ∈ cluster ∧ trav m p.x p.y ∧ inBounds m p.x p.y = true := by
  unfold getIntersectionsInCluster at h
  obtain ⟨x, hx, h2⟩ := List.mem_flatMap.1 h
  obtain ⟨y, hy, h3⟩ := List.mem_filterMap.1 h2
  have hxr := mem_stepRange ws _ _ _ _ hx
  have hyr := mem_stepRange ws _ _ _ _ hy
  split at h3
  · next hcond =>
    rw [Option.some.injEq] at h3
    subst h3
    obtain ⟨hb, hany, htile⟩ := hcond
    have hmem : (⟨x, y⟩ : Point) ∈ cluster := by
      rw [List.any_eq_true] at hany
      obtain ⟨q, hq, hqe⟩ := hany
      rw [Bool.and_eq_true, beq_iff_eq, beq_iff_eq] at hqe
      have : q = (⟨x, y⟩ : Point) := by
        have h4 : q = (⟨q.x, q.y⟩ : Point) := rfl
        rw [h4, hqe.1, hqe.2]
      rw [← this]
      exact hq
    refine ⟨hmem, htile, ?_⟩
    refine (inBounds_iff m x y).2 ⟨?_, hb.1, ?_, hb.2⟩
    · have h5 : (0 : Int) ≤ (ws : Int) + ((cs / 2 : Nat) : Int) := by positivity
      omega
    · have h5 : (0 : Int) ≤ (ws : Int) + ((cs / 2 : Nat) : Int) := by positivity
      omega
  · cases h3

theorem between_of_between {lo hi a b t : Int} (ha1 : lo ≤ a) (ha2 : a ≤ hi)
    (hb1 : lo ≤ b) (hb2 : b ≤ hi) (ht1 : min a b ≤ t) (ht2 : t ≤ max a b) :
    lo ≤ t ∧ t ≤ hi := by
  rcases min_choice a b with h | h <;> rcases max_choice a b with h2 | h2 <;> omega

theorem corridorCenters_inBounds (m : GameMap) (s e : Point) (coin : Bool)
    (hs : inBounds m s.x s.y = true) (he : inBounds m e.x e.y = true) :
    ∀ c ∈ corridorCenters s e coin, inBounds m c.x c.y = true := by
  intro c hc
  obtain ⟨hs1, hs2, hs3, hs4⟩ := (inBounds_iff _ _ _).1 hs
  obtain ⟨he1, he2, he3, he4⟩ := (inBounds_iff _ _ _).1 he
  unfold corridorCenters at hc
  refine (inBounds_iff _ _ _).2 ?_
  split at hc <;> rcases List.mem_append.1 hc with h | h
  · rw [mem_lineCentersH] at h
    obtain ⟨hy, h1, h2⟩ := h
    rcases min_choice s.x e.x with hm | hm <;> rcases max_choice s.x e.x with hM | hM <;>
      rw [hm] at h1 <;> rw [hM] at h2 <;> omega
  · rw [mem_lineCentersV] at h
    obtain ⟨hx, h1, h2⟩ := h
    rcases min_choice s.y e.y with hm | hm <;> rcases max_choice s.y e.y with hM | hM <;>
      rw [hm] at h1 <;> rw [hM] at h2 <;> omega
  · rw [mem_lineCentersV] at h
    obtain ⟨hx, h1, h2⟩ := h
    rcases min_choice s.y e.y with hm | hm <;> rcases max_choice s.y e.y with hM | hM <;>
      rw [hm] at h1 <;> rw [hM] at h2 <;> omega
  · rw [mem_lineCentersH] at h
    obtain ⟨hy, h1, h2⟩ := h
    rcases min_choice s.x e.x with hm | hm <;> rcases max_choice s.x e.x with hM | hM <;>
      rw [hm] at h1 <;> rw [hM] at h2 <;> omega

/-- Connectivity through the carved corridor: every carved center (and in
particular `e`) connects to `s` through non-wall tiles of the carved map. -/
theorem corridorCarve_conn (m : GameMap) (s e : Point) (cs : Nat) (coin : Bool)
    (hcs : 1 ≤ cs)
    (hs : inBounds m s.x s.y = true) (he : inBounds m e.x e.y = true) :
    (∀ c ∈ corridorCenters s e coin,
      Conn (wallCarve cs (corridorCenters s e coin) m) c s) ∧
    Conn (wallCarve cs (corridorCenters s e coin) m) s e := by
  have hibeq : ∀ a b : Int,
      inBounds (wallCarve cs (corridorCenters s e coin) m) a b = inBounds m a b :=
    fun a b => inBounds_eq_dims m _ (wallCarve_width cs _ m) (wallCarve_height cs _ m) a b
  have hcin := corridorCenters_inBounds m s e coin hs he
  have hnwC : ∀ c ∈ corridorCenters s e coin,
      nonWallP (wallCarve cs (corridorCenters s e coin) m) c := by
    intro c hc
    refine ⟨?_, wallCarve_cover cs _ m c hc c.x c.y (hcin c hc) (inRect_self c cs hcs)⟩
    rw [hibeq]
    exact hcin c hc
  cases coin with
  | true =>
    have hHmem : ∀ t : Int, min s.x e.x ≤ t → t ≤ max s.x e.x →
        (⟨t, s.y⟩ : Point) ∈ corridorCenters s e true := by
      intro t h1 h2
      unfold corridorCenters
      rw [if_pos rfl]
      exact List.mem_append.2 (Or.inl ((mem_lineCentersH s.y s.x e.x ⟨t, s.y⟩).2
        ⟨rfl, h1, h2⟩))
    have hVmem : ∀ t : Int, min s.y e.y ≤ t → t ≤ max s.y e.y →
        (⟨e.x, t⟩ : Point) ∈ corridorCenters s e true := by
      intro t h1 h2
      unfold corridorCenters
      rw [if_pos rfl]
      exact List.mem_append.2 (Or.inr ((mem_lineCentersV e.x s.y e.y ⟨e.x, t⟩).2
        ⟨rfl, h1, h2⟩))
    have hHP : ∀ t : Int, min s.x e.x ≤ t → t ≤ max s.x e.x →
        nonWallP (wallCarve cs (corridorCenters s e true) m) ⟨t, s.y⟩ :=
      fun t h1 h2 => hnwC _ (hHmem t h1 h2)
    have hVP : ∀ t : Int, min s.y e.y ≤ t → t ≤ max s.y e.y →
        nonWallP (wallCarve cs (corridorCenters s e true) m) ⟨e.x, t⟩ :=
      fun t h1 h2 => hnwC _ (hVmem t h1 h2)
    have hwalkH : ∀ c : Point, c.y = s.y → min s.x e.x ≤ c.x → c.x ≤ max s.x e.x →
        Conn (wallCarve cs (corridorCenters s e true) m) c s := by
      intro c hy h1 h2
      have hr := reach_row (nonWallP (wallCarve cs (corridorCenters s e true) m)) s.y c.x s.x
        (fun t ht1 ht2 => hHP t
          (between_of_between h1 h2 (min_le_left s.x e.x) (le_max_left s.x e.x) ht1 ht2).1
          (between_of_between h1 h2 (min_le_left s.x e.x) (le_max_left s.x e.x) ht1 ht2).2)
      have hc1 : c = (⟨c.x, s.y⟩ : Point) := by rw [← hy]
      have hc2 : s = (⟨s.x, s.y⟩ : Point) := rfl
      rw [hc1, hc2]
      exact hr
    have hcorner : Conn (wallCarve cs (corridorCenters s e true) m) ⟨e.x, s.y⟩ s :=
      hwalkH ⟨e.x, s.y⟩ rfl (min_le_right s.x e.x) (le_max_right s.x e.x)
    have hwalkV : ∀ c : Point, c.x = e.x → min s.y e.y ≤ c.y → c.y ≤ max s.y e.y →
        Conn (wallCarve cs (corridorCenters s e true) m) c s := by
      intro c hx h1 h2
      refine ReachIn.trans ?_ hcorner
      have hr := reach_col (nonWallP (wallCarve cs (corridorCenters s e true) m)) e.x c.y s.y
        (fun t ht1 ht2 => hVP t
          (between_of_between h1 h2 (min_le_left s.y e.y) (le_max_left s.y e.y) ht1 ht2).1
          (between_of_between h1 h2 (min_le_left s.y e.y) (le_max_left s.y e.y) ht1 ht2).2)
      have hc1 : c = (⟨e.x, c.y⟩ : Point) := by rw [← hx]
      rw [hc1]
      exact hr
    refine ⟨?_, ?_⟩
    · intro c hc
      have hc2 := hc
      unfold corridorCenters at hc2
      rw [if_pos rfl] at hc2
      rcases List.mem_append.1 hc2 with h | h
      · rw [mem_lineCentersH] at h
        exact hwalkH c h.1 h.2.1 h.2.2
      · rw [mem_lineCentersV] at h
        exact hwalkV c h.1 h.2.1 h.2.2
    · exact (hwalkV e rfl (min_le_right s.y e.y) (le_max_right s.y e.y)).symm
  | false =>
    have hVmem : ∀ t : Int, min s.y e.y ≤ t → t ≤ max s.y e.y →
        (⟨s.x, t⟩ : Point) ∈ corridorCenters s e false := by
      intro t h1 h2
      unfold corridorCenters
      rw [if_neg (by simp)]
      exact List.mem_append.2 (Or.inl ((mem_lineCentersV s.x s.y e.y ⟨s.x, t⟩).2
        ⟨rfl, h1, h2⟩))
    have hHmem : ∀ t : Int, min s.x e.x ≤ t → t ≤ max s.x e.x →
        (⟨t, e.y⟩ : Point) ∈ corridorCenters s e false := by
      intro t h1 h2
      unfold corridorCenters
      rw [if_neg (by simp)]
      exact List.mem_append.2 (Or.inr ((mem_lineCentersH e.y s.x e.x ⟨t, e.y⟩).2
        ⟨rfl, h1, h2⟩))
    have hVP : ∀ t : Int, min s.y e.y ≤ t → t ≤ max s.y e.y →
        nonWallP (wallCarve cs (corridorCenters s e false) m) ⟨s.x, t⟩ :=
      fun t h1 h2 => hnwC _ (hVmem t h1 h2)
    have hHP : ∀ t : Int, min s.x e.x ≤ t → t ≤ max s.x e.x →
        nonWallP (wallCarve cs (corridorCenters s e false) m) ⟨t, e.y⟩ :=
      fun t h1 h2 => hnwC _ (hHmem t h1 h2)
    have hwalkV : ∀ c : Point, c.x = s.x → min s.y e.y ≤ c.y → c.y ≤ max s.y e.y →
        Conn (wallCarve cs (corridorCenters s e false) m) c s := by
      intro c hx h1 h2
      have hr := reach_col (nonWallP (wallCarve cs (corridorCenters s e false) m)) s.x c.y s.y
        (fun t ht1 ht2 => hVP t
          (between_of_between h1 h2 (min_le_left s.y e.y) (le_max_left s.y e.y) ht1 ht2).1
          (between_of_between h1 h2 (min_le_left s.y e.y) (le_max_left s.y e.y) ht1 ht2).2)
      have hc1 : c = (⟨s.x, c.y⟩ : Point) := by rw [← hx]
      have hc2 : s = (⟨s.x, s.y⟩ : Point) := rfl
      rw [hc1, hc2]
      exact hr
    have hcorner : Conn (wallCarve cs (corridorCenters s e false) m) ⟨s.x, e.y⟩ s :=
      hwalkV ⟨s.x, e.y⟩ rfl (min_le_right s.y e.y) (le_max_right s.y e.y)
    have hwalkH : ∀ c : Point, c.y = e.y → min s.x e.x ≤ c.x → c.x ≤ max s.x e.x →
        Conn (wallCarve cs (corridorCenters s e false) m) c s := by
      intro c hy h1 h2
      refine ReachIn.trans ?_ hcorner
      have hr := reach_row (nonWallP (wallCarve cs (corridorCenters s e false) m)) e.y c.x s.x
        (fun t ht1 ht2 => hHP t
          (between_of_between h1 h2 (min_le_left s.x e.x) (le_max_left s.x e.x) ht1 ht2).1
          (between_of_between h1 h2 (min_le_left s.x e.x) (le_max_left s.x e.x) ht1 ht2).2)
      have hc1 : c = (⟨c.x, e.y⟩ : Point) := by rw [← hy]
      rw [hc1]
      exact hr
    refine ⟨?_, ?_⟩
    · intro c hc
      have hc2 := hc
      unfold corridorCenters at hc2
      rw [if_neg (by simp)] at hc2
      rcases List.mem_append.1 hc2 with h | h
      · rw [mem_lineCentersV] at h
        exact hwalkV c h.1 h.2.1 h.2.2
      · rw [mem_lineCentersH] at h
        exact hwalkH c h.1 h.2.1 h.2.2
    · exact (hwalkH e rfl (min_le_right s.x e.x) (le_max_right s.x e.x)).symm

theorem snd_mem_of_mem_enum {α : Type} {x : Nat × α} {l : List α} (h : x ∈ l.enum) :
    x.2 ∈ l := by
  rw [List.mem_enum_iff_getElem?] at h
  exact List.getElem?_mem h

/-- The nearest-pair accumulator is defined, with a start point among the
current cluster's intersections and an end point among the intersections
of one of the other clusters. -/
def fnpGood (m : GameMap) (ws cs : Nat) (current : List Point)
    (others : List (List Point)) (acc : Option (Int × Point × Point × Int)) : Prop :=
  ∃ d : Int, ∃ s2 e2 : Point, ∃ j : Int, acc = some (d, s2, e2, j) ∧
    s2 ∈ getIntersectionsInCluster m current ws cs ∧
    ∃ c ∈ others, e2 ∈ getIntersectionsInCluster m c ws cs

theorem fnp_inner (m : GameMap) (ws cs : Nat) (current : List Point)
    (others : List (List Point)) (s2 : Point) (j : Int) (cl : List Point)
    (hcl : cl ∈ others) (hs2 : s2 ∈ getIntersectionsInCluster m current ws cs) :
    ∀ (pe : List Point), (∀ e2 ∈ pe, e2 ∈ getIntersectionsInCluster m cl ws cs) →
      ∀ acc : Option (Int × Point × Point × Int),
        acc = none ∨ fnpGood m ws cs current others acc →
        ((pe.foldl (fun acc3 e =>
            match acc3 with
            | none => some (distSq s2 e, s2, e, j)
            | some best => if distSq s2 e < best.1 then some (distSq s2 e, s2, e, j)
              else acc3) acc) = none ∧ acc = none ∧ pe = []) ∨
        fnpGood m ws cs current others
          (pe.foldl (fun acc3 e =>
            match acc3 with
            | none => some (distSq s2 e, s2, e, j)
            | some best => if distSq s2 e < best.1 then some (distSq s2 e, s2, e, j)
              else acc3) acc) := by
  intro pe
  induction pe with
  | nil =>
    intro _ acc hacc
    rcases hacc with rfl | h
    · exact Or.inl ⟨rfl, rfl, rfl⟩
    · exact Or.inr h
  | cons e pe ih =>
    intro hpe acc hacc
    rw [List.foldl_cons]
    have hstep : fnpGood m ws cs current others
        ((fun acc3 e =>
          match acc3 with
          | none => some (distSq s2 e, s2, e, j)
          | some best => if distSq s2 e < best.1 then some (distSq s2 e, s2, e, j)
            else acc3) acc e) := by
      rcases hacc with rfl | hGood
      · exact ⟨distSq s2 e, s2, e, j, rfl, hs2, cl, hcl, hpe e (List.mem_cons_self _ _)⟩
      · obtain ⟨d, s3, e3, j3, hacc2, hs3, c3, hc3, he3⟩ := hGood
        subst hacc2
        by_cases hlt : distSq s2 e < d
        · have heq : (fun (acc3 : Option (Int × Point × Point × Int)) e =>
              match acc3 with
              | none => some (distSq s2 e, s2, e, j)
              | some best => if distSq s2 e < best.1 then some (distSq s2 e, s2, e, j)
                else acc3) (some (d, s3, e3, j3)) e = some (distSq s2 e, s2, e, j) := by
            show (if distSq s2 e < d then some (distSq s2 e, s2, e, j)
              else some (d, s3, e3, j3)) = some (distSq s2 e, s2, e, j)
            rw [if_pos hlt]
          rw [heq]
          exact ⟨distSq s2 e, s2, e, j, rfl, hs2, cl, hcl, hpe e (List.mem_cons_self _ _)⟩
        · have heq : (fun (acc3 : Option (Int × Point × Point × Int)) e =>
              match acc3 with
              | none => some (distSq s2 e, s2, e, j)
              | some best => if distSq s2 e < best.1 then some (distSq s2 e, s2, e, j)
                else acc3) (some (d, s3, e3, j3)) e = some (d, s3, e3, j3) := by
            show (if distSq s2 e < d then some (distSq s2 e, s2, e, j)
              else some (d, s3, e3, j3)) = some (d, s3, e3, j3)
            rw [if_neg hlt]
          rw [heq]
          exact ⟨d, s3, e3, j3, rfl, hs3, c3, hc3, he3⟩
    rcases ih (fun r hr => hpe r (List.mem_cons_of_mem _ hr)) _ (Or.inr hstep) with
      ⟨h1, h2, _⟩ | h
    · obtain ⟨d, s3, e3, j3, hacc2, _⟩ := hstep
      rw [hacc2] at h2
      cases h2
    · exact Or.inr h

theorem fnp_middle (m : GameMap) (ws cs : Nat) (current : List Point)
    (others : List (List Point)) (j : Int) (cl : List Point)
    (hcl : cl ∈ others) :
    ∀ (psl : List Point), (∀ s2 ∈ psl, s2 ∈ getIntersectionsInCluster m current ws cs) →
    ∀ (pe : List Point), (∀ e2 ∈ pe, e2 ∈ getIntersectionsInCluster m cl ws cs) →
      ∀ acc : Option (Int × Point × Point × Int),
        acc = none ∨ fnpGood m ws cs current others acc →
        ((psl.foldl (fun acc2 s2 =>
            pe.foldl (fun acc3 e =>
              match acc3 with
              | none => some (distSq s2 e, s2, e, j)
              | some best => if distSq s2 e < best.1 then some (distSq s2 e, s2, e, j)
                else acc3) acc2) acc) = none ∧ acc = none ∧ (psl = [] ∨ pe = [])) ∨
        fnpGood m ws cs current others
          (psl.foldl (fun acc2 s2 =>
            pe.foldl (fun acc3 e =>
              match acc3 with
              | none => some (distSq s2 e, s2, e, j)
              | some best => if distSq s2 e < best.1 then some (distSq s2 e, s2, e, j)
                else acc3) acc2) acc) := by
  intro psl
  induction psl with
  | nil =>
    intro _ pe _ acc hacc
    rcases hacc with rfl | h
    · exact Or.inl ⟨rfl, rfl, Or.inl rfl⟩
    · exact Or.inr h
  | cons s2 psl ih =>
    intro hpsl pe hpe acc hacc
    rw [List.foldl_cons]
    rcases fnp_inner m ws cs current others s2 j cl hcl
        (hpsl s2 (List.mem_cons_self _ _)) pe hpe acc hacc with ⟨h1, h2, h3⟩ | h
    · rcases ih (fun r hr => hpsl r (List.mem_cons_of_mem _ hr)) pe hpe _
          (Or.inl h1) with ⟨g1, g2, _⟩ | g
      · exact Or.inl ⟨g1, h2, Or.inr h3⟩
      · exact Or.inr g
    · rcases ih (fun r hr => hpsl r (List.mem_cons_of_mem _ hr)) pe hpe _
          (Or.inr h) with ⟨g1, g2, _⟩ | g
      · obtain ⟨d, s3, e3, j3, hacc2, _⟩ := h
        rw [hacc2] at g2
        cases g2
      · exact Or.inr g

theorem fnp_outer_pres (m : GameMap) (ws cs : Nat) (current : List Point)
    (others : List (List Point)) :
    ∀ (entries : List (Nat × List Point)), (∀ pr ∈ entries, pr.2 ∈ others) →
      ∀ acc : Option (Int × Point × Point × Int), fnpGood m ws cs current others acc →
      fnpGood m ws cs current others
        (entries.foldl (fun acc pr =>
          (getIntersectionsInCluster m current ws cs).foldl
            (fun acc2 s2 =>
              (getIntersectionsInCluster m pr.2 ws cs).foldl
                (fun acc3 e =>
                  match acc3 with
                  | none => some (distSq s2 e, s2, e, (pr.1 : Int) + 1)
                  | some best => if distSq s2 e < best.1 then
                      some (distSq s2 e, s2, e, (pr.1 : Int) + 1) else acc3)
                acc2)
            acc) acc) := by
  intro entries
  induction entries with
  | nil => intro _ acc h; exact h
  | cons pr rest ih =>
    intro hmem acc hGood
    rw [List.foldl_cons]
    refine ih (fun r hr => hmem r (List.mem_cons_of_mem _ hr)) _ ?_
    rcases fnp_middle m ws cs current others ((pr.1 : Int) + 1) pr.2
        (hmem pr (List.mem_cons_self _ _)) (getIntersectionsInCluster m current ws cs)
        (fun _ h => h) (getIntersectionsInCluster m pr.2 ws cs) (fun _ h => h)
        acc (Or.inr hGood) with ⟨h1, h2, _⟩ | h
    · obtain ⟨d, s3, e3, j3, hacc2, _⟩ := hGood
      rw [hacc2] at h2
      cases h2
    · exact h

theorem fnp_outer (m : GameMap) (ws cs : Nat) (current : List Point)
    (others : List (List Point))
    (hcur : getIntersectionsInCluster m current ws cs ≠ [])
    (hint : ∀ c ∈ others, getIntersectionsInCluster m c ws cs ≠ []) :
    ∀ (entries : List (Nat × List Point)), (∀ pr ∈ entries, pr.2 ∈ others) →
      entries ≠ [] →
      ∀ acc : Option (Int × Point × Point × Int),
        acc = none ∨ fnpGood m ws cs current others acc →
      fnpGood m ws cs current others
        (entries.foldl (fun acc pr =>
          (getIntersectionsInCluster m current ws cs).foldl
            (fun acc2 s2 =>
              (getIntersectionsInCluster m pr.2 ws cs).foldl
                (fun acc3 e =>
                  match acc3 with
                  | none => some (distSq s2 e, s2, e, (pr.1 : Int) + 1)
                  | some best => if distSq s2 e < best.1 then
                      some (distSq s2 e, s2, e, (pr.1 : Int) + 1) else acc3)
                acc2)
            acc) acc) := by
  intro entries hmem hne acc hacc
  cases entries with
  | nil => exact absurd rfl hne
  | cons pr rest =>
    rw [List.foldl_cons]
    refine fnp_outer_pres m ws cs current others rest
      (fun r hr => hmem r (List.mem_cons_of_mem _ hr)) _ ?_
    rcases fnp_middle m ws cs current others ((pr.1 : Int) + 1) pr.2
        (hmem pr (List.mem_cons_self _ _)) (getIntersectionsInCluster m current ws cs)
        (fun _ h => h) (getIntersectionsInCluster m pr.2 ws cs) (fun _ h => h)
        acc hacc with ⟨h1, h2, h3⟩ | h
    · rcases h3 with h3 | h3
      · exact absurd h3 hcur
      · exact absurd h3 (hint pr.2 (hmem pr (List.mem_cons_self _ _)))
    · exact h

/-- With nonempty intersection lists on the current cluster and every
other cluster, the nearest-pair search returns a start among the current
cluster's intersections and an end among some other cluster's. -/
theorem findNearestPair_spec (m : GameMap) (ws cs : Nat) (current : List Point)
    (others : List (List Point))
    (hcur : getIntersectionsInCluster m current ws cs ≠ [])
    (hothers : others ≠ [])
    (hint : ∀ c ∈ others, getIntersectionsInCluster m c ws cs ≠ []) :
    fnpGood m ws cs current others (findNearestPair m ws cs current others) := by
  have henum : others.enum ≠ [] := by
    intro he
    have hlen := congrArg List.length he
    rw [List.enum_length] at hlen
    exact hothers (List.length_eq_zero.1 hlen)
  exact fnp_outer m ws cs current others hcur hint others.enum
    (fun pr hpr => snd_mem_of_mem_enum hpr) henum none (Or.inl rfl)

/-- Intersection points survive any transformation that keeps the
dimensions and preserves traversable tiles. -/
theorem inter_mono (m m2 : GameMap) (hW : m2.width = m.width) (hH : m2.height = m.height)
    (hpres : ∀ a b : Int, trav m a b → trav m2 a b) (c : List Point) (ws cs : Nat)
    (w : Point) (hw : w ∈ getIntersectionsInCluster m c ws cs) :
    w ∈ getIntersectionsInCluster m2 c ws cs := by
  unfold getIntersectionsInCluster at hw ⊢
  rw [hW, hH]
  obtain ⟨x, hx, h2⟩ := List.mem_flatMap.1 hw
  obtain ⟨y, hy, h3⟩ := List.mem_filterMap.1 h2
  refine List.mem_flatMap.2 ⟨x, hx, List.mem_filterMap.2 ⟨y, hy, ?_⟩⟩
  split at h3
  · next hcond =>
    obtain ⟨hb, hany, htile⟩ := hcond
    rw [if_pos ⟨⟨hb.1, hb.2⟩, hany, hpres x y htile⟩]
    exact h3
  · cases h3

/-- Invariant induction over the repair loop: starting from clusters that
each hold an intersection point, are internally connected, consist of
in-bounds non-wall cells, and jointly absorb every traversable tile, the
loop produces a grid whose traversable tiles are pairwise connected
through non-wall tiles (and it never destroys a traversable tile nor
changes the dimensions). -/
theorem connectClustersCore_conn (ws cs : Nat) (hcs : 1 ≤ cs) (rand : Nat → Nat) :
    ∀ (clusters : List (List Point)) (m : GameMap) (k : Nat),
      (∀ c ∈ clusters, getIntersectionsInCluster m c ws cs ≠ []) →
      (∀ c ∈ clusters, ∀ p q : Point, p ∈ c → q ∈ c → Conn m p q) →
      (∀ c ∈ clusters, ∀ p ∈ c, nonWallP m p) →
      (∀ a b : Int, inBounds m a b = true → trav m a b →
        ∃ c ∈ clusters, ∃ w ∈ c, Conn m ⟨a, b⟩ w) →
      ((connectClustersCore ws cs rand m clusters k).1.width = m.width ∧
       (connectClustersCore ws cs rand m clusters k).1.height = m.height) ∧
      (∀ a b : Int, trav m a b → trav (connectClustersCore ws cs rand m clusters k).1 a b) ∧
      (∀ a b a2 b2 : Int,
        inBounds (connectClustersCore ws cs rand m clusters k).1 a b = true →
        trav (connectClustersCore ws cs rand m clusters k).1 a b →
        inBounds (connectClustersCore ws cs rand m clusters k).1 a2 b2 = true →
        trav (connectClustersCore ws cs rand m clusters k).1 a2 b2 →
        Conn (connectClustersCore ws cs rand m clusters k).1 ⟨a, b⟩ ⟨a2, b2⟩) := by
  intro clusters
  induction clusters with
  | nil =>
    intro m k _ _ _ hI4
    refine ⟨⟨rfl, rfl⟩, fun a b h => h, ?_⟩
    intro a b a2 b2 hin htr _ _
    obtain ⟨c, hc, _⟩ := hI4 a b hin htr
    cases hc
  | cons c0 rest ih =>
    intro m k hI1 hI2 hI3 hI4
    cases rest with
    | nil =>
      refine ⟨⟨rfl, rfl⟩, fun a b h => h, ?_⟩
      intro a b a2 b2 hin htr hin2 htr2
      obtain ⟨c2, hc2, w, hw, hconn⟩ := hI4 a b hin htr
      obtain ⟨c3, hc3, w2, hw2, hconn2⟩ := hI4 a2 b2 hin2 htr2
      rw [List.mem_singleton] at hc2 hc3
      rw [hc2] at hw
      rw [hc3] at hw2
      exact (hconn.trans (hI2 c0 (List.mem_cons_self _ _) w w2 hw hw2)).trans hconn2.symm
    | cons c1 rest2 =>
      obtain ⟨d, s0, e0, j, hpick, hs0, cl, hclmem, he0⟩ :=
        findNearestPair_spec m ws cs c0 (c1 :: rest2) (hI1 c0 (List.mem_cons_self _ _))
          (by simp) (fun c hc => hI1 c (List.mem_cons_of_mem _ hc))
      obtain ⟨hs0c, hs0trav, hs0in⟩ := mem_getIntersectionsInCluster hs0
      obtain ⟨he0c, he0trav, he0in⟩ := mem_getIntersectionsInCluster he0
      obtain ⟨hcenters_conn, hse_conn⟩ :=
        corridorCarve_conn m s0 e0 cs (rand k % 2 == 0) hcs hs0in he0in
      have hm2eq : constructCorridor m s0 e0 cs (rand k % 2 == 0) =
          wallCarve cs (corridorCenters s0 e0 (rand k % 2 == 0)) m :=
        constructCorridor_eq m s0 e0 cs _
      rw [← hm2eq] at hcenters_conn hse_conn
      set m2 := constructCorridor m s0 e0 cs (rand k % 2 == 0) with hm2def
      have hdW : m2.width = m.width := by
        rw [hm2eq]
        exact wallCarve_width cs _ m
      have hdH : m2.height = m.height := by
        rw [hm2eq]
        exact wallCarve_height cs _ m
      have hibeq : ∀ a b : Int, inBounds m2 a b = inBounds m a b := fun a b =>
        inBounds_eq_dims m m2 hdW hdH a b
      have hnwmono : ∀ p : Point, nonWallP m p → nonWallP m2 p := by
        intro p hp
        refine ⟨by rw [hibeq]; exact hp.1, ?_⟩
        rw [hm2eq, wallCarve_tiles_pres cs _ m p.x p.y hp.2]
        exact hp.2
      have hconnmono : ∀ p q : Point, Conn m p q → Conn m2 p q := fun p q h =>
        ReachIn.mono hnwmono h
      have htravpres : ∀ a b : Int, trav m a b → trav m2 a b := by
        intro a b h
        have hnz : ¬ m.tiles a b = some TileType.wall := by
          rcases h with h | h | h <;> rw [h] <;> intro hc <;> cases hc
        have heq : m2.tiles a b = m.tiles a b := by
          rw [hm2eq]
          exact wallCarve_tiles_pres cs _ m a b hnz
        unfold trav at h ⊢
        rw [heq]
        exact h
      have hI1n : ∀ c ∈ (c1 :: rest2), getIntersectionsInCluster m2 c ws cs ≠ [] := by
        intro c hc hemp
        obtain ⟨w, hw⟩ := List.exists_mem_of_ne_nil _ (hI1 c (List.mem_cons_of_mem _ hc))
        have hw2 := inter_mono m m2 hdW hdH htravpres c ws cs w hw
        rw [hemp] at hw2
        cases hw2
      have hI2n : ∀ c ∈ (c1 :: rest2), ∀ p q : Point, p ∈ c → q ∈ c → Conn m2 p q :=
        fun c hc p q hp hq => hconnmono p q (hI2 c (List.mem_cons_of_mem _ hc) p q hp hq)
      have hI3n : ∀ c ∈ (c1 :: rest2), ∀ p ∈ c, nonWallP m2 p :=
        fun c hc p hp => hnwmono p (hI3 c (List.mem_cons_of_mem _ hc) p hp)
      have hI4n : ∀ a b : Int, inBounds m2 a b = true → trav m2 a b →
          ∃ c ∈ (c1 :: rest2), ∃ w ∈ c, Conn m2 ⟨a, b⟩ w := by
        intro a b hin htr
        rw [hibeq] at hin
        have hchar := wallCarve_tiles_char cs (corridorCenters s0 e0 (rand k % 2 == 0)) m a b
        rw [← hm2eq] at hchar
        rcases hchar with heq | ⟨hwall, hcorr, hinb, c, hcmem, hrect⟩
        · have htrm : trav m a b := by
            unfold trav at htr ⊢
            rw [heq] at htr
            exact htr
          obtain ⟨c2, hc2, w, hw, hconn⟩ := hI4 a b hin htrm
          rcases List.mem_cons.1 hc2 with rfl | hcr
          · refine ⟨cl, hclmem, e0, he0c, ?_⟩
            have h2 : Conn m w s0 := hI2 c2 (List.mem_cons_self _ _) w s0 hw hs0c
            exact (hconnmono _ _ (hconn.trans h2)).trans hse_conn
          · exact ⟨c2, hcr, w, hw, hconnmono _ _ hconn⟩
        · have hcin : inBounds m c.x c.y = true :=
            corridorCenters_inBounds m s0 e0 (rand k % 2 == 0) hs0in he0in c hcmem
          have hcov : ∀ a2 b2 : Int, inBounds m a2 b2 = true → inRect c cs a2 b2 →
              nonWallP m2 ⟨a2, b2⟩ := by
            intro a2 b2 h1 h2
            refine ⟨by rw [hibeq]; exact h1, ?_⟩
            rw [hm2eq]
            exact wallCarve_cover cs _ m c hcmem a2 b2 h1 h2
          have hwalk : ReachIn (nonWallP m2) ⟨a, b⟩ ⟨c.x, c.y⟩ :=
            reach_center_box (nonWallP m2) m c cs hcs hcov hcin hinb hrect
          have hcs0 : Conn m2 c s0 := hcenters_conn c hcmem
          have hc_eta : (⟨c.x, c.y⟩ : Point) = c := rfl
          rw [hc_eta] at hwalk
          exact ⟨cl, hclmem, e0, he0c, (hwalk.trans hcs0).trans hse_conn⟩
      have hres := ih m2 (k + 1) hI1n hI2n hI3n hI4n
      have hcore : connectClustersCore ws cs rand m (c0 :: c1 :: rest2) k =
          ((connectClustersCore ws cs rand m2 (c1 :: rest2) (k + 1)).1,
            (s0, e0) :: (connectClustersCore ws cs rand m2 (c1 :: rest2) (k + 1)).2) := by
        simp only [connectClustersCore]
        rw [hpick]
      rw [hcore]
      obtain ⟨⟨hW2, hH2⟩, hpres2, hconn2⟩ := hres
      refine ⟨⟨by rw [hW2, hdW], by rw [hH2, hdH]⟩, ?_, hconn2⟩
      intro a b h
      exact hpres2 a b (htravpres a b h)

instance (m : GameMap) (a b : Int) : Decidable (trav m a b) := by
  unfold trav
  exact inferInstance

/-- C1 (amended): for admissible steps (`wallStep ≥ 1`, `corridorStep ≥ 1`),
an input grid with at least one traversable tile, and the additional
precondition that every cluster returned by `findIsolatedClusters` contains
at least one intersection point of the `wallStep` lattice, running
`connectClusters` on those clusters yields a grid on which
`findIsolatedClusters` returns exactly one cluster. -/
theorem connectClusters_single_cluster (m : GameMap) (ws cs : Nat) (rand : Nat → Nat)
    (hws : 1 ≤ ws) (hcs : 1 ≤ cs)
    (htrav : ∃ a b : Int, inBounds m a b = true ∧ trav m a b)
    (hinter : ∀ c ∈ findIsolatedClusters m, getIntersectionsInCluster m c ws cs ≠ []) :
    (findIsolatedClusters (connectClusters m (findIsolatedClusters m) ws cs rand)).length
      = 1 := by
  obtain ⟨hS1, hS2, hS3⟩ := findIsolatedClusters_sound m
  have hI4 : ∀ a b : Int, inBounds m a b = true → trav m a b →
      ∃ c ∈ findIsolatedClusters m, ∃ w ∈ c, Conn m ⟨a, b⟩ w := by
    intro a b hin htr
    obtain ⟨c, hc, hmem⟩ := hS3 a b hin htr
    exact ⟨c, hc, ⟨a, b⟩, hmem, ReachIn.refl⟩
  obtain ⟨⟨hW, hH⟩, hpres, hconn⟩ := connectClustersCore_conn ws cs hcs rand
    (findIsolatedClusters m) m 0 hinter hS2 hS1 hI4
  unfold connectClusters
  refine findIsolatedClusters_length_one _ ?_ ?_
  · obtain ⟨a, b, hin, htr⟩ := htrav
    refine ⟨a, b, ?_, hpres a b htr⟩
    rw [inBounds_eq_dims m _ hW hH a b]
    exact hin
  · intro p q hinp htrp hinq htrq
    exact hconn p.x p.y q.x q.y hinp htrp hinq htrq

/-- A 3x3 grid with two isolated single-tile corridor clusters at the
lattice intersection points (1,1) and (2,2). -/
def goodClusterMap : GameMap :=
  ⟨3, 3, fun a b => if (a = 1 ∧ b = 1) ∨ (a = 2 ∧ b = 2) then some .corridor else some .wall,
    fun _ _ => Edge.empty⟩

set_option maxRecDepth 80000 in
/-- Witness for the amended C1 at a concrete instance: the two isolated
clusters of `goodClusterMap` each contain an intersection point, and the
repair merges them into exactly one cluster. -/
theorem connectClusters_single_cluster_witness :
    (∃ a b : Int, inBounds goodClusterMap a b = true ∧ trav goodClusterMap a b) ∧
    (∀ c ∈ findIsolatedClusters goodClusterMap,
      getIntersectionsInCluster goodClusterMap c 1 1 ≠ []) ∧
    (findIsolatedClusters (connectClusters goodClusterMap
      (findIsolatedClusters goodClusterMap) 1 1 (fun _ => 0))).length = 1 :=
  ⟨⟨1, 1, by decide, by decide⟩, by decide,
    connectClusters_single_cluster goodClusterMap 1 1 (fun _ => 0) (by decide) (by decide)
      ⟨1, 1, by decide, by decide⟩ (by decide)⟩

end MapGen
